import Mathlib

/-!
LDmicro interpretable-target virtual machine (`ldinterpret.cpp`)

A shallow embedding of the byte-code interpreter of `src/ldmicro/ldinterpret.cpp`:
the instruction record `BinOp`, the global arrays `Program`, `Integers`, `Bits`,
the body of the `switch` of `InterpretOneCycle`, its `for(pc = 0;; pc++)` loop, the
cycle loop of `main`, the loader `LoadProgram` with `HexDigit`, and the loop of
`Disassemble` with its count of bad codes.

Conventions of the embedding.

* `int16_t` / `int32_t` / `int` values are mathematical integers (`Int`); the results of
  `+`, `-`, `*`, `++`, `--` on `int32_t` cells are reduced to 32-bit two's complement
  with `wrap32`.
* The arrays have their declared sizes (`Fin MAX_OPS`, `Fin MAX_VARIABLES`,
  `Fin MAX_INTERNAL_RELAYS`).  The source checks no index: an access outside an array,
  and the quotient `INT32_MIN / -1`, have no defined result in C and are reported as
  a `Fault` instead of being given one.
* The opcode constants `INT_...` are defined in `intcode.h`; their values are the
  parameter `IntCodes` of the embedding.
* `printf` output (the "Unsupported op" message of the `default:` case) is not part of
  the machine state.
* The loader works on the characters that the calls of `fgets` store in `line` for the
  text of the file (`fgetsAll`), a NUL of the text among them; `strcmp`, `strlen`,
  `strchr`, `memcmp` and `atoi` see the string in the array, which ends before the first
  NUL (`cString`).  `tolower`, `isdigit`, `isspace`, `atoi` and `strchr` are the C library
  functions in the C locale.  `exit(-1)`, a store outside an array, and `atoi` on a number
  that does not fit an `int` (no defined result in C) are a `LoadError`.
* A `BinOp` in memory is its five fields in order, low byte first and without padding
  (`sizeof(BinOp) = 12`).
* Plain `char` has 8 bits; whether it is signed is a parameter of `Disassemble`
  (`signedChar`), a conversion to it keeps the low 8 bits.
-/

namespace LDInterpret

/-! ## Limits and the instruction record -/

/-- The limit `#define MAX_OPS 256`. -/
abbrev MAX_OPS : Nat := 256

/-- The limit `#define MAX_VARIABLES 128`. -/
abbrev MAX_VARIABLES : Nat := 128

/-- The limit `#define MAX_INTERNAL_RELAYS 128`. -/
abbrev MAX_INTERNAL_RELAYS : Nat := 128

/-- The record `BinOp`: `int16_t op, name1, name2, name3; int32_t literal1`. -/
structure BinOp where
  op : Int
  name1 : Int
  name2 : Int
  name3 : Int
  literal1 : Int
deriving DecidableEq, Repr

/-- Reduction of an integer to the 32-bit two's-complement range. -/
def wrap32 (x : Int) : Int := (x + 2 ^ 31) % 2 ^ 32 - 2 ^ 31

/-- The values an `int32_t` can hold. -/
def IsInt32 (x : Int) : Prop := -(2 ^ 31) ≤ x ∧ x < 2 ^ 31

instance (x : Int) : Decidable (IsInt32 x) := by unfold IsInt32; infer_instance

/-- The array `BinOp Program[MAX_OPS]`. -/
abbrev ProgramT := Fin MAX_OPS → BinOp

/-- The two data arrays: `BYTE Bits[MAX_INTERNAL_RELAYS]` and
`int32_t Integers[MAX_VARIABLES]`. -/
structure Memory where
  Bits : Fin MAX_INTERNAL_RELAYS → Nat
  Integers : Fin MAX_VARIABLES → Int

/-- The state `main` sets up with its two `memset(..., 0, ...)` calls. -/
def Memory.zero : Memory := ⟨fun _ => 0, fun _ => 0⟩

/-! ## The opcode constants of `intcode.h` -/

/-- The `INT_...` constants used as `case` labels by `InterpretOneCycle`; their values
are defined in `intcode.h`. -/
structure IntCodes where
  INT_SET_BIT : Int
  INT_CLEAR_BIT : Int
  INT_COPY_BIT_TO_BIT : Int
  INT_SET_VARIABLE_TO_LITERAL : Int
  INT_SET_VARIABLE_TO_VARIABLE : Int
  INT_DECREMENT_VARIABLE : Int
  INT_INCREMENT_VARIABLE : Int
  INT_SET_VARIABLE_ADD : Int
  INT_SET_VARIABLE_SUBTRACT : Int
  INT_SET_VARIABLE_MULTIPLY : Int
  INT_SET_VARIABLE_DIVIDE : Int
  INT_SET_VARIABLE_MOD : Int
  INT_IF_BIT_SET : Int
  INT_IF_BIT_CLEAR : Int
  INT_IF_VARIABLE_LES_LITERAL : Int
  INT_IF_GEQ : Int
  INT_IF_LEQ : Int
  INT_IF_NEQ : Int
  INT_IF_VARIABLE_EQUALS_VARIABLE : Int
  INT_IF_VARIABLE_GRT_VARIABLE : Int
  INT_ELSE : Int
  INT_END_OF_PROGRAM : Int
  INT_AllocFwdAddr : Int
  INT_AllocKnownAddr : Int
  INT_FwdAddrIsNow : Int

/-- The `case` labels of the `switch` of `InterpretOneCycle`, in source order. -/
def IntCodes.labels (c : IntCodes) : List Int :=
  [c.INT_SET_BIT, c.INT_CLEAR_BIT, c.INT_COPY_BIT_TO_BIT, c.INT_SET_VARIABLE_TO_LITERAL,
   c.INT_SET_VARIABLE_TO_VARIABLE, c.INT_DECREMENT_VARIABLE, c.INT_INCREMENT_VARIABLE,
   c.INT_SET_VARIABLE_ADD, c.INT_SET_VARIABLE_SUBTRACT, c.INT_SET_VARIABLE_MULTIPLY,
   c.INT_SET_VARIABLE_DIVIDE, c.INT_SET_VARIABLE_MOD, c.INT_IF_BIT_SET, c.INT_IF_BIT_CLEAR,
   c.INT_IF_VARIABLE_LES_LITERAL, c.INT_IF_GEQ, c.INT_IF_LEQ, c.INT_IF_NEQ,
   c.INT_IF_VARIABLE_EQUALS_VARIABLE, c.INT_IF_VARIABLE_GRT_VARIABLE, c.INT_ELSE,
   c.INT_END_OF_PROGRAM, c.INT_AllocFwdAddr, c.INT_AllocKnownAddr, c.INT_FwdAddrIsNow]

/-- A C `switch` only compiles when its `case` labels are pairwise different. -/
def IntCodes.Distinct (c : IntCodes) : Prop := c.labels.Nodup

instance (c : IntCodes) : Decidable c.Distinct := by unfold IntCodes.Distinct; infer_instance

/-- One admissible numbering of the opcodes, used for concrete runs. -/
def sampleCodes : IntCodes :=
  ⟨1, 2, 3, 4, 5, 6, 7, 8, 9, 10, 11, 12, 13, 14, 15, 16, 17, 18, 19, 20, 21, 22, 23, 24, 25⟩

/-- The branch of the `switch` an opcode value selects. -/
inductive Opcode
  | INT_SET_BIT | INT_CLEAR_BIT | INT_COPY_BIT_TO_BIT
  | INT_SET_VARIABLE_TO_LITERAL | INT_SET_VARIABLE_TO_VARIABLE
  | INT_DECREMENT_VARIABLE | INT_INCREMENT_VARIABLE
  | INT_SET_VARIABLE_ADD | INT_SET_VARIABLE_SUBTRACT | INT_SET_VARIABLE_MULTIPLY
  | INT_SET_VARIABLE_DIVIDE | INT_SET_VARIABLE_MOD
  | INT_IF_BIT_SET | INT_IF_BIT_CLEAR | INT_IF_VARIABLE_LES_LITERAL
  | INT_IF_GEQ | INT_IF_LEQ | INT_IF_NEQ
  | INT_IF_VARIABLE_EQUALS_VARIABLE | INT_IF_VARIABLE_GRT_VARIABLE
  | INT_ELSE | INT_END_OF_PROGRAM
  | INT_AllocFwdAddr | INT_AllocKnownAddr | INT_FwdAddrIsNow
  | unsupported
deriving DecidableEq, Repr

/-- Selection of the `case` for the value `op`: the labels are tried in source order and
`default:` is taken when none matches. -/
def IntCodes.decode (c : IntCodes) (op : Int) : Opcode :=
  if op = c.INT_SET_BIT then .INT_SET_BIT
  else if op = c.INT_CLEAR_BIT then .INT_CLEAR_BIT
  else if op = c.INT_COPY_BIT_TO_BIT then .INT_COPY_BIT_TO_BIT
  else if op = c.INT_SET_VARIABLE_TO_LITERAL then .INT_SET_VARIABLE_TO_LITERAL
  else if op = c.INT_SET_VARIABLE_TO_VARIABLE then .INT_SET_VARIABLE_TO_VARIABLE
  else if op = c.INT_DECREMENT_VARIABLE then .INT_DECREMENT_VARIABLE
  else if op = c.INT_INCREMENT_VARIABLE then .INT_INCREMENT_VARIABLE
  else if op = c.INT_SET_VARIABLE_ADD then .INT_SET_VARIABLE_ADD
  else if op = c.INT_SET_VARIABLE_SUBTRACT then .INT_SET_VARIABLE_SUBTRACT
  else if op = c.INT_SET_VARIABLE_MULTIPLY then .INT_SET_VARIABLE_MULTIPLY
  else if op = c.INT_SET_VARIABLE_DIVIDE then .INT_SET_VARIABLE_DIVIDE
  else if op = c.INT_SET_VARIABLE_MOD then .INT_SET_VARIABLE_MOD
  else if op = c.INT_IF_BIT_SET then .INT_IF_BIT_SET
  else if op = c.INT_IF_BIT_CLEAR then .INT_IF_BIT_CLEAR
  else if op = c.INT_IF_VARIABLE_LES_LITERAL then .INT_IF_VARIABLE_LES_LITERAL
  else if op = c.INT_IF_GEQ then .INT_IF_GEQ
  else if op = c.INT_IF_LEQ then .INT_IF_LEQ
  else if op = c.INT_IF_NEQ then .INT_IF_NEQ
  else if op = c.INT_IF_VARIABLE_EQUALS_VARIABLE then .INT_IF_VARIABLE_EQUALS_VARIABLE
  else if op = c.INT_IF_VARIABLE_GRT_VARIABLE then .INT_IF_VARIABLE_GRT_VARIABLE
  else if op = c.INT_ELSE then .INT_ELSE
  else if op = c.INT_END_OF_PROGRAM then .INT_END_OF_PROGRAM
  else if op = c.INT_AllocFwdAddr then .INT_AllocFwdAddr
  else if op = c.INT_AllocKnownAddr then .INT_AllocKnownAddr
  else if op = c.INT_FwdAddrIsNow then .INT_FwdAddrIsNow
  else .unsupported

/-! ## Array accesses -/

/-- What the C code leaves undefined: an index outside `Program`, `Bits` or `Integers`,
and the `int32_t` quotient that does not fit. -/
inductive Fault
  | program
  | bits
  | integers
  | quotient
deriving DecidableEq, Repr

/-- An index expression `a` into an array of `n` cells: the cell, when there is one. -/
def cell (n : Nat) (a : Int) : Option (Fin n) :=
  if h : 0 ≤ a ∧ a < n then some ⟨a.toNat, by omega⟩ else none

/-- What one pass through the body of the loop leads to: the loop goes on with the given
`pc`, the function returns, or the behaviour is undefined. -/
inductive Outcome
  | next (pc : Int) (m : Memory)
  | returned (m : Memory)
  | fault (f : Fault)

/-- Read of `Bits[a]`, then `k` with the value. -/
def withBit (m : Memory) (a : Int) (k : Nat → Outcome) : Outcome :=
  match cell MAX_INTERNAL_RELAYS a with
  | some i => k (m.Bits i)
  | none => .fault .bits

/-- Read of `Integers[a]`, then `k` with the value. -/
def withInt (m : Memory) (a : Int) (k : Int → Outcome) : Outcome :=
  match cell MAX_VARIABLES a with
  | some i => k (m.Integers i)
  | none => .fault .integers

/-- The assignment `Bits[a] = v;` followed by `break`. -/
def setBit (pc : Int) (m : Memory) (a : Int) (v : Nat) : Outcome :=
  match cell MAX_INTERNAL_RELAYS a with
  | some i => .next pc ⟨Function.update m.Bits i v, m.Integers⟩
  | none => .fault .bits

/-- The assignment `Integers[a] = v;` followed by `break`. -/
def setInt (pc : Int) (m : Memory) (a : Int) (v : Int) : Outcome :=
  match cell MAX_VARIABLES a with
  | some i => .next pc ⟨m.Bits, Function.update m.Integers i v⟩
  | none => .fault .integers

/-- The C quotient is undefined for `INT32_MIN / -1` (and so is the remainder). -/
def quotientFits (a b : Int) : Prop := ¬ (a = -(2 ^ 31) ∧ b = -1)

instance (a b : Int) : Decidable (quotientFits a b) := by unfold quotientFits; infer_instance

/-! ## The interpreter -/

/-- The body of the `switch` of `InterpretOneCycle` for the instruction `p`, entered
with the loop variable equal to `pc`.  `Outcome.next pc1 m1` is a `break` with the loop
variable equal to `pc1`; the increment of the `for` statement is applied by `step`. -/
def execOp (c : IntCodes) (p : BinOp) (pc : Int) (m : Memory) : Outcome :=
  match c.decode p.op with
  | .INT_SET_BIT => setBit pc m p.name1 1
  | .INT_CLEAR_BIT => setBit pc m p.name1 0
  | .INT_COPY_BIT_TO_BIT => withBit m p.name2 fun v => setBit pc m p.name1 v
  | .INT_SET_VARIABLE_TO_LITERAL => setInt pc m p.name1 p.literal1
  | .INT_SET_VARIABLE_TO_VARIABLE => withInt m p.name2 fun v => setInt pc m p.name1 v
  | .INT_DECREMENT_VARIABLE => withInt m p.name1 fun v => setInt pc m p.name1 (wrap32 (v - 1))
  | .INT_INCREMENT_VARIABLE => withInt m p.name1 fun v => setInt pc m p.name1 (wrap32 (v + 1))
  | .INT_SET_VARIABLE_ADD =>
      withInt m p.name2 fun a => withInt m p.name3 fun b =>
        setInt pc m p.name1 (wrap32 (a + b))
  | .INT_SET_VARIABLE_SUBTRACT =>
      withInt m p.name2 fun a => withInt m p.name3 fun b =>
        setInt pc m p.name1 (wrap32 (a - b))
  | .INT_SET_VARIABLE_MULTIPLY =>
      withInt m p.name2 fun a => withInt m p.name3 fun b =>
        setInt pc m p.name1 (wrap32 (a * b))
  | .INT_SET_VARIABLE_DIVIDE =>
      withInt m p.name3 fun b =>
        if b ≠ 0 then
          withInt m p.name2 fun a =>
            if quotientFits a b then setInt pc m p.name1 (Int.tdiv a b)
            else .fault .quotient
        else .next pc m
  | .INT_SET_VARIABLE_MOD =>
      withInt m p.name3 fun b =>
        if b ≠ 0 then
          withInt m p.name2 fun a =>
            if quotientFits a b then setInt pc m p.name1 (Int.tmod a b)
            else .fault .quotient
        else .next pc m
  | .INT_IF_BIT_SET =>
      withBit m p.name1 fun v => .next (if v = 0 then p.name3 else pc) m
  | .INT_IF_BIT_CLEAR =>
      withBit m p.name1 fun v => .next (if v ≠ 0 then p.name3 else pc) m
  | .INT_IF_VARIABLE_LES_LITERAL =>
      withInt m p.name1 fun a => .next (if ¬ (a < p.literal1) then p.name3 else pc) m
  | .INT_IF_GEQ =>
      withInt m p.name1 fun a => .next (if ¬ (a ≥ p.literal1) then p.name3 else pc) m
  | .INT_IF_LEQ =>
      withInt m p.name1 fun a => .next (if ¬ (a ≤ p.literal1) then p.name3 else pc) m
  | .INT_IF_NEQ =>
      -- no `break`: control runs on into `case INT_IF_VARIABLE_EQUALS_VARIABLE`
      withInt m p.name1 fun a => withInt m p.name2 fun b =>
        let pc1 := if ¬ (a ≠ b) then p.name3 else pc
        .next (if ¬ (a = b) then p.name3 else pc1) m
  | .INT_IF_VARIABLE_EQUALS_VARIABLE =>
      withInt m p.name1 fun a => withInt m p.name2 fun b =>
        .next (if ¬ (a = b) then p.name3 else pc) m
  | .INT_IF_VARIABLE_GRT_VARIABLE =>
      withInt m p.name1 fun a => withInt m p.name2 fun b =>
        .next (if ¬ (a > b) then p.name3 else pc) m
  | .INT_ELSE => .next p.name3 m
  | .INT_END_OF_PROGRAM => .returned m
  | .INT_AllocFwdAddr => .next pc m
  | .INT_AllocKnownAddr => .next pc m
  | .INT_FwdAddrIsNow => .next pc m
  | .unsupported => .next pc m

/-- The increment `pc++` of the `for` statement, which a `break` leads to. -/
def Outcome.increment : Outcome → Outcome
  | .next pc m => .next (pc + 1) m
  | o => o

/-- One iteration of `for(int pc = 0;; pc++) { BinOp *p = &Program[pc]; switch ... }`:
the fetch of `Program[pc]`, the `switch`, and after a `break` the increment `pc++`. -/
def step (c : IntCodes) (prog : ProgramT) (pc : Int) (m : Memory) : Outcome :=
  match cell MAX_OPS pc with
  | none => .fault .program
  | some i => (execOp c (prog i) pc m).increment

/-- At most `fuel` iterations of the loop of `InterpretOneCycle`, from loop variable `pc`.
`Outcome.next` as a result means that the loop has not ended after `fuel` iterations. -/
def run (c : IntCodes) (prog : ProgramT) : Nat → Int → Memory → Outcome
  | 0, pc, m => .next pc m
  | fuel + 1, pc, m =>
    match step c prog pc m with
    | .next pc1 m1 => run c prog fuel pc1 m1
    | o => o

/-- The function `InterpretOneCycle`: the loop started with `pc = 0`. -/
def InterpretOneCycle (c : IntCodes) (prog : ProgramT) (fuel : Nat) (m : Memory) : Outcome :=
  run c prog fuel 0 m

/-- The loop of `main` around `InterpretOneCycle` (`ReadInputs` and `WriteOutputs` have
empty bodies): `k` calls in a row, each given `fuel` iterations. -/
def runCycles (c : IntCodes) (prog : ProgramT) (fuel : Nat) : Nat → Memory → Outcome
  | 0, m => .returned m
  | k + 1, m =>
    match runCycles c prog fuel k m with
    | .returned m1 => InterpretOneCycle c prog fuel m1
    | o => o

/-- The array `Program` after the records `l` have been stored from slot 0 on; the slots
that are not written hold the zeros of static storage. -/
def programOf (l : List BinOp) : ProgramT := fun i => l.getD i.val ⟨0, 0, 0, 0, 0⟩

/-- The effect on memory of the `case` of the instruction `p`. -/
def effect (c : IntCodes) (p : BinOp) (m : Memory) : Except Fault Memory :=
  match execOp c p 0 m with
  | .next _ m1 => .ok m1
  | .returned m1 => .ok m1
  | .fault f => .error f

/-- The effect on memory of the instructions `l` executed one after the other, each one
once. -/
def applyOps (c : IntCodes) : List BinOp → Memory → Except Fault Memory
  | [], m => .ok m
  | p :: l, m =>
    match effect c p m with
    | .ok m1 => applyOps c l m1
    | .error f => .error f

/-- The outcome of a cycle that reaches its end marker after instructions of accumulated
effect `r`. -/
def cycleResult : Except Fault Memory → Outcome
  | .ok m => .returned m
  | .error f => .fault f

/-- The instructions in the `n` slots of `Program` from index `j` on. -/
def slots (prog : ProgramT) : Nat → Nat → List BinOp
  | _, 0 => []
  | j, n + 1 => if h : j < MAX_OPS then prog ⟨j, h⟩ :: slots prog (j + 1) n else []

/-- The opcodes whose `case` neither assigns `pc` nor returns: the bit and integer
assignments, the arithmetic, the three markers and the `default:` case. -/
def Opcode.straight : Opcode → Bool
  | .INT_IF_BIT_SET | .INT_IF_BIT_CLEAR | .INT_IF_VARIABLE_LES_LITERAL
  | .INT_IF_GEQ | .INT_IF_LEQ | .INT_IF_NEQ
  | .INT_IF_VARIABLE_EQUALS_VARIABLE | .INT_IF_VARIABLE_GRT_VARIABLE
  | .INT_ELSE | .INT_END_OF_PROGRAM => false
  | _ => true

/-! ## Programs and states used in concrete runs -/

/-- The program `int[0] := 5; int[1] := 0; int[2] := int[0] / int[1]; end`. -/
def divideByZeroProgram (c : IntCodes) : ProgramT :=
  programOf [⟨c.INT_SET_VARIABLE_TO_LITERAL, 0, 0, 0, 5⟩,
             ⟨c.INT_SET_VARIABLE_TO_LITERAL, 1, 0, 0, 0⟩,
             ⟨c.INT_SET_VARIABLE_DIVIDE, 2, 0, 1, 0⟩,
             ⟨c.INT_END_OF_PROGRAM, 0, 0, 0, 0⟩]

/-- A memory whose cells differ from one another: `Bits[k] = k % 2`, `Integers[k] = k`. -/
def Memory.ramp : Memory := ⟨fun i => i.val % 2, fun i => (i.val : Int)⟩

/-- The program `p; end`. -/
def singleProgram (c : IntCodes) (p : BinOp) : ProgramT :=
  programOf [p, ⟨c.INT_END_OF_PROGRAM, 0, 0, 0, 0⟩]

/-- The program `if-not-equal(int[0], int[1]) else jump 5; end`. -/
def ifNeqProgram (c : IntCodes) : ProgramT :=
  programOf [⟨c.INT_IF_NEQ, 0, 1, 5, 0⟩, ⟨c.INT_END_OF_PROGRAM, 0, 0, 0, 0⟩]

/-- The program `jump (name3 = 1); set-bit 0; end`. -/
def elseProgram (c : IntCodes) : ProgramT :=
  programOf [⟨c.INT_ELSE, 0, 0, 1, 0⟩, ⟨c.INT_SET_BIT, 0, 0, 0, 0⟩,
             ⟨c.INT_END_OF_PROGRAM, 0, 0, 0, 0⟩]

/-! ## Which cells a `case` may store to, and which indices it uses -/

/-- The opcodes whose `case` stores to `Bits[name1]`. -/
def Opcode.writesBits : Opcode → Bool
  | .INT_SET_BIT | .INT_CLEAR_BIT | .INT_COPY_BIT_TO_BIT => true
  | _ => false

/-- The opcodes whose `case` stores to `Integers[name1]`: the integer assignments and the
arithmetic. -/
def Opcode.writesIntegers : Opcode → Bool
  | .INT_SET_VARIABLE_TO_LITERAL | .INT_SET_VARIABLE_TO_VARIABLE
  | .INT_DECREMENT_VARIABLE | .INT_INCREMENT_VARIABLE
  | .INT_SET_VARIABLE_ADD | .INT_SET_VARIABLE_SUBTRACT | .INT_SET_VARIABLE_MULTIPLY
  | .INT_SET_VARIABLE_DIVIDE | .INT_SET_VARIABLE_MOD => true
  | _ => false

/-- A valid index of `Bits`. -/
def inBits (a : Int) : Prop := 0 ≤ a ∧ a < MAX_INTERNAL_RELAYS

/-- A valid index of `Integers`. -/
def inIntegers (a : Int) : Prop := 0 ≤ a ∧ a < MAX_VARIABLES

instance (a : Int) : Decidable (inBits a) := by unfold inBits; infer_instance

instance (a : Int) : Decidable (inIntegers a) := by unfold inIntegers; infer_instance

/-- Every operand that the `case` of the instruction uses as an index of `Bits` or of
`Integers` is a valid index of that array. -/
def addressesValid (c : IntCodes) (p : BinOp) : Prop :=
  match c.decode p.op with
  | .INT_SET_BIT | .INT_CLEAR_BIT | .INT_IF_BIT_SET | .INT_IF_BIT_CLEAR => inBits p.name1
  | .INT_COPY_BIT_TO_BIT => inBits p.name1 ∧ inBits p.name2
  | .INT_SET_VARIABLE_TO_LITERAL | .INT_DECREMENT_VARIABLE | .INT_INCREMENT_VARIABLE
  | .INT_IF_VARIABLE_LES_LITERAL | .INT_IF_GEQ | .INT_IF_LEQ => inIntegers p.name1
  | .INT_SET_VARIABLE_TO_VARIABLE | .INT_IF_NEQ | .INT_IF_VARIABLE_EQUALS_VARIABLE
  | .INT_IF_VARIABLE_GRT_VARIABLE => inIntegers p.name1 ∧ inIntegers p.name2
  | .INT_SET_VARIABLE_ADD | .INT_SET_VARIABLE_SUBTRACT | .INT_SET_VARIABLE_MULTIPLY
  | .INT_SET_VARIABLE_DIVIDE | .INT_SET_VARIABLE_MOD =>
      inIntegers p.name1 ∧ inIntegers p.name2 ∧ inIntegers p.name3
  | _ => True

instance (c : IntCodes) (p : BinOp) : Decidable (addressesValid c p) := by
  unfold addressesValid; split <;> infer_instance

/-! ## The loader: globals and library functions -/

/-- The limit `#define MAX_INPUT 16`. -/
abbrev MAX_INPUT : Nat := 16

/-- The limit `#define MAX_OUTPUT 2`. -/
abbrev MAX_OUTPUT : Nat := 2

/-- The limit `#define MAX_ANALOG 1`. -/
abbrev MAX_ANALOG : Nat := 1

/-- The size `sizeof(BinOp)`: four `int16_t` and one `int32_t`, which need no padding. -/
abbrev sizeofBinOp : Nat := 12

/-- The globals that `LoadProgram` stores to: `Program`, the `addr` fields of `InputMap`,
`OutputMap` and `AnalogMap`, and `CycleTime`. -/
structure Globals where
  Program : ProgramT
  InputMap : Fin MAX_INPUT → Int
  OutputMap : Fin MAX_OUTPUT → Int
  AnalogMap : Fin MAX_ANALOG → Int
  CycleTime : Int

/-- The globals at program start: static storage is zeroed and `int CycleTime = 10`. -/
def Globals.init : Globals :=
  ⟨fun _ => ⟨0, 0, 0, 0, 0⟩, fun _ => 0, fun _ => 0, fun _ => 0, 10⟩

/-- The ways `LoadProgram` does not return: `fopen` fails (`exit(-1)` after "couldn't
open"), `BadFormat()` is called, a store goes outside its array (undefined in C), or
`atoi` is called on a number that does not fit an `int` (undefined in C). -/
inductive LoadError
  | cannotOpen
  | badFormat
  | outOfBounds
  | overflow
deriving DecidableEq, Repr

/-- The library function `tolower` in the C locale, on character codes. -/
def tolower (c : Int) : Int := if 65 ≤ c ∧ c ≤ 90 then c + 32 else c

/-- The library function `isdigit`, on character codes. -/
def isdigit (c : Int) : Bool := decide (48 ≤ c ∧ c ≤ 57)

/-- The library function `isspace` in the C locale. -/
def isspace (c : Char) : Bool :=
  c = ' ' || c = '\t' || c = '\n' || c.toNat = 11 || c.toNat = 12 || c = '\r'

/-- The digits loop of `atoi`: the decimal number read so far is `acc`. -/
def atoiDigits (acc : Nat) : List Char → Nat
  | [] => acc
  | ch :: s => if isdigit ch.toNat then atoiDigits (acc * 10 + (ch.toNat - 48)) s else acc

/-- The number that the string `s` writes for `atoi`: white space is skipped, then an
optional sign and the decimal digits that follow are read. -/
def atoiValue (s : List Char) : Int :=
  match s.dropWhile isspace with
  | '-' :: r => -(atoiDigits 0 r : Int)
  | '+' :: r => (atoiDigits 0 r : Int)
  | r => (atoiDigits 0 r : Int)

/-- The library function `atoi`, which returns an `int`: the number written when it is a
value of that type; for any other number the C result is undefined (`none`). -/
def atoi (s : List Char) : Option Int :=
  if IsInt32 (atoiValue s) then some (atoiValue s) else none

/-- The string that a `char` array holds for `strlen`, `strcmp`, `strchr`, `memcmp` with a
NUL-free literal, and `atoi`: the characters of `buf` before its first NUL, all of them
when it has none. -/
def cString (buf : List Char) : List Char := buf.takeWhile fun ch => decide (ch.toNat ≠ 0)

/-- The call `strchr(line, ',')` followed by `*p = 0`: the string `line` then holds, and
the string at `p + 1`; `none` when `strchr` returns `NULL`. -/
def splitComma : List Char → Option (List Char × List Char)
  | [] => none
  | ch :: s =>
    if ch = ',' then some ([], s)
    else match splitComma s with
      | some (a, b) => some (ch :: a, b)
      | none => none

/-- The characters that successive calls `fgets(line, sizeof(line), f)` with
`char line[80]` store in `line` for the text `s` of the file (read in text mode): each
time the characters up to and including the next newline, but at most 79 of them, a NUL
of the text like any other character; `cur` is the part already read in the current
call. -/
def fgetsFrom : List Char → List Char → List (List Char)
  | [], cur => if cur = [] then [] else [cur]
  | ch :: s, cur =>
    if ch = '\n' ∨ cur.length + 1 = 79 then (cur ++ [ch]) :: fgetsFrom s []
    else fgetsFrom s (cur ++ [ch])

/-- All the strings `fgets` delivers for a file, in order. -/
def fgetsAll (s : List Char) : List (List Char) := fgetsFrom s []

/-! ## The loader: `HexDigit` and `LoadProgram` -/

/-- The function `HexDigit`; `none` is the call of `BadFormat()`. -/
def HexDigit (c : Int) : Option Nat :=
  let c := tolower c
  if isdigit c then some (c - 48).toNat
  else if c ≥ 97 ∧ c ≤ 102 then some ((c - 97) + 10).toNat
  else none

/-- The loop `for(i = 0; i < sizeof(BinOp); i++) { b[i] = HexDigit(t[1]) | (HexDigit(t[0])
<< 4); t += 2; }` run for `n` bytes on the characters at `t`: the bytes stored, or `none`
when `HexDigit` calls `BadFormat()`. -/
def decodeBytes : Nat → List Char → Option (List Nat)
  | 0, _ => some []
  | n + 1, t0 :: t1 :: t =>
    match HexDigit t1.toNat, HexDigit t0.toNat with
    | some lo, some hi =>
      match decodeBytes n t with
      | some bs => some ((lo ||| (hi <<< 4)) % 256 :: bs)
      | none => none
    | _, _ => none
  | _ + 1, _ => none

/-- The `int16_t` whose two bytes in memory are `b0`, `b1` (low byte first). -/
def int16OfBytes (b0 b1 : Nat) : Int :=
  if b0 + 256 * b1 < 2 ^ 15 then (b0 + 256 * b1 : Nat) else (b0 + 256 * b1 : Nat) - 2 ^ 16

/-- The `int32_t` whose four bytes in memory are `b0 .. b3` (low byte first). -/
def int32OfBytes (b0 b1 b2 b3 : Nat) : Int :=
  if b0 + 256 * b1 + 65536 * b2 + 16777216 * b3 < 2 ^ 31
  then (b0 + 256 * b1 + 65536 * b2 + 16777216 * b3 : Nat)
  else (b0 + 256 * b1 + 65536 * b2 + 16777216 * b3 : Nat) - 2 ^ 32

/-- The record whose `sizeof(BinOp)` bytes in memory are `bs`: the fields `op`, `name1`,
`name2`, `name3`, `literal1` in this order. -/
def BinOp.ofBytes : List Nat → BinOp
  | [a0, a1, b0, b1, c0, c1, d0, d1, e0, e1, e2, e3] =>
    ⟨int16OfBytes a0 a1, int16OfBytes b0 b1, int16OfBytes c0 c1, int16OfBytes d0 d1,
     int32OfBytes e0 e1 e2 e3⟩
  | _ => ⟨0, 0, 0, 0, 0⟩

/-- The stores `b[i] = ...` through `b = (BYTE *)&Program[pc]` for one line.  No bound on
`pc` is checked: for `pc` past the array the first byte stored already goes outside. -/
def storeLine (pc : Nat) (line : List Char) (prog : ProgramT) : Except LoadError ProgramT :=
  if h : pc < MAX_OPS then
    match decodeBytes sizeofBinOp line with
    | some bs => .ok (Function.update prog ⟨pc, h⟩ (BinOp.ofBytes bs))
    | none => .error .badFormat
  else
    match decodeBytes 1 line with
    | some _ => .error .outOfBounds
    | none => .error .badFormat

/-- The loop `for(int pc = 0;; pc++)` of `LoadProgram` on what the calls of `fgets` still
have to deliver: the array `Program` and the lines left when the loop is left by `break`.
`strcmp` and `strlen` take the string in `line`, and so does the decoding, which reads
its first 24 characters after `strlen` has found 25. -/
def loadCode : List (List Char) → Nat → ProgramT →
    Except LoadError (ProgramT × List (List Char))
  | [], _, _ => .error .badFormat
  | line :: rest, pc, prog =>
    if cString line = "$$bits\n".toList then .ok (prog, rest)
    else if cString line = "$$int16s\n".toList then .ok (prog, rest)
    else if cString line = "$$cycle\n".toList then .ok (prog, rest)
    else if (cString line).length ≠ sizeofBinOp * 2 + 1 then .error .badFormat
    else
      match storeLine pc (cString line) prog with
      | .ok prog1 => loadCode rest (pc + 1) prog1
      | .error e => .error e

/-- The body of `if (*line == 'X') { ... }` on the string in `line`: both calls of `atoi`
come before the test of `reg`. -/
def inputLine (line : List Char) (g : Globals) : Except LoadError Globals :=
  match splitComma line with
  | none => .error .badFormat
  | some (before, after) =>
    match atoi (before.drop 1), atoi after with
    | some reg, some addr =>
      if reg < MAX_INPUT then
        match cell MAX_INPUT reg with
        | some i => .ok { g with InputMap := Function.update g.InputMap i addr }
        | none => .error .outOfBounds
      else .ok g
    | _, _ => .error .overflow

/-- The body of `while(fgets(line, sizeof(line), f))` for one line read.  The three tests
`memcmp(line, "X", 1)`, `memcmp(line, "Y", 1)`, `memcmp(line, "A", 1)` have empty bodies;
`*p = 0` leaves the first character of `line` as it is, so the last test sees what it
would see on the string read. -/
def mapLine (line : List Char) (g : Globals) : Except LoadError Globals :=
  match (if (cString line).head? = some 'X' then inputLine (cString line) g else .ok g) with
  | .error e => .error e
  | .ok g1 =>
    if (cString line).take 7 = "$$cycle".toList then
      match atoi ((cString line).drop 7) with
      | some k => .ok { g1 with CycleTime := k }
      | none => .error .overflow
    else .ok g1

/-- The loop `while(fgets(line, sizeof(line), f))` on the lines left. -/
def loadMaps : List (List Char) → Globals → Except LoadError Globals
  | [], g => .ok g
  | line :: rest, g =>
    match mapLine line g with
    | .ok g1 => loadMaps rest g1
    | .error e => .error e

/-- The function `LoadProgram` after `fopen`, on what the calls of `fgets` deliver. -/
def loadLines (lines : List (List Char)) (g : Globals) : Except LoadError Globals :=
  match lines with
  | [] => .error .badFormat
  | first :: rest =>
    if cString first ≠ "$$LDcode\n".toList then .error .badFormat
    else
      match loadCode rest 0 g.Program with
      | .error e => .error e
      | .ok (prog, tail) => loadMaps tail { g with Program := prog }

/-- The function `LoadProgram`; `file` is the text of the file named, `none` when `fopen`
fails. -/
def LoadProgram (file : Option (List Char)) (g : Globals) : Except LoadError Globals :=
  match file with
  | none => .error .cannotOpen
  | some text => loadLines (fgetsAll text) g

/-! ## Writing a container -/

/-- The hexadecimal digit of value `v`, upper case when `upper`. -/
def hexChar (upper : Bool) (v : Nat) : Char :=
  (if upper then "0123456789ABCDEF".toList else "0123456789abcdef".toList).getD v '0'

/-- The bytes `bs` written as hexadecimal digits, two per byte with the high nibble first;
`up j` tells whether the digit at position `j` of the line is upper case. -/
def hexDigits (up : Nat → Bool) : Nat → List Nat → List Char
  | _, [] => []
  | j, b :: bs => hexChar (up j) (b / 16) :: hexChar (up (j + 1)) (b % 16) :: hexDigits up (j + 2) bs

/-- The two bytes in memory of the `int16_t` value `x`, low byte first. -/
def bytesOfInt16 (x : Int) : List Nat :=
  [(x % 2 ^ 16).toNat % 256, (x % 2 ^ 16).toNat / 256]

/-- The four bytes in memory of the `int32_t` value `x`, low byte first. -/
def bytesOfInt32 (x : Int) : List Nat :=
  [(x % 2 ^ 32).toNat % 256, (x % 2 ^ 32).toNat / 256 % 256,
   (x % 2 ^ 32).toNat / 65536 % 256, (x % 2 ^ 32).toNat / 16777216]

/-- The `sizeof(BinOp)` raw bytes of a record, in field order `op`, `name1`, `name2`,
`name3`, `literal1`. -/
def BinOp.toBytes (r : BinOp) : List Nat :=
  bytesOfInt16 r.op ++ bytesOfInt16 r.name1 ++ bytesOfInt16 r.name2 ++ bytesOfInt16 r.name3 ++
    bytesOfInt32 r.literal1

/-- The values an `int16_t` can hold. -/
def IsInt16 (x : Int) : Prop := -(2 ^ 15) ≤ x ∧ x < 2 ^ 15

instance (x : Int) : Decidable (IsInt16 x) := by unfold IsInt16; infer_instance

/-- A record whose fields hold values of their C types. -/
def BinOp.InRange (r : BinOp) : Prop :=
  IsInt16 r.op ∧ IsInt16 r.name1 ∧ IsInt16 r.name2 ∧ IsInt16 r.name3 ∧ IsInt32 r.literal1

instance (r : BinOp) : Decidable r.InRange := by unfold BinOp.InRange; infer_instance

/-- The line of a record: its raw bytes as 24 hexadecimal digits, then a newline. -/
def recordLine (up : Nat → Bool) (r : BinOp) : List Char :=
  hexDigits up 0 r.toBytes ++ ['\n']

/-- The lines of the records `rs`, one after the other; `ups k` gives the letter case of
the digits of line `k`. -/
def recordLines (ups : Nat → Nat → Bool) : Nat → List BinOp → List (List Char)
  | _, [] => []
  | k, r :: rs => recordLine (ups k) r :: recordLines ups (k + 1) rs

/-- The text of a container: the header line, the lines of the instruction section `code`,
the line `sentinel` and the text `tail` after it. -/
def containerText (code : List (List Char)) (sentinel : List Char) (tail : List Char) :
    List Char :=
  "$$LDcode\n".toList ++ code.flatten ++ sentinel ++ tail

/-- The array `Program` after the records `rs` have been stored from slot `pc` on. -/
def storeRecords : List BinOp → Nat → ProgramT → ProgramT
  | [], _, prog => prog
  | r :: rs, pc, prog =>
    storeRecords rs (pc + 1) (if h : pc < MAX_OPS then Function.update prog ⟨pc, h⟩ r else prog)

/-- The record a line of the instruction section is decoded to, when all its digits are
hexadecimal. -/
def decodeLine (line : List Char) : Option BinOp :=
  match decodeBytes sizeofBinOp line with
  | some bs => some (BinOp.ofBytes bs)
  | none => none

/-- The three lines that end the instruction section. -/
def sentinelLines : List (List Char) :=
  ["$$bits\n".toList, "$$int16s\n".toList, "$$cycle\n".toList]

/-- The mapping line `X<n>,<addr>` (or `Y`, `A` for the letter), decimal and ended by a
newline. -/
def mappingLine (letter : Char) (n addr : Nat) : List Char :=
  letter :: (Nat.toDigits 10 n ++ ',' :: (Nat.toDigits 10 addr ++ ['\n']))

/-- A string that `fgets` delivers whole: it ends with its only newline and has at most 79
characters. -/
def IsLine (l : List Char) : Prop :=
  ∃ body, l = body ++ ['\n'] ∧ '\n' ∉ body ∧ body.length + 1 ≤ 79

/-- A line that the last test of the mapping loop takes for a cycle-time line: the first
seven characters of its string are `$$cycle`. -/
def isCycleLine (l : List Char) : Prop := (cString l).take 7 = "$$cycle".toList

instance (l : List Char) : Decidable (isCycleLine l) := by unfold isCycleLine; infer_instance

/-- A line on which the body of `if (*line == 'X')` goes through when it is entered: a
comma is found, the numbers before and after it fit an `int`, and the one before it is
not negative. -/
def inputLineOk (l : List Char) : Prop :=
  (cString l).head? = some 'X' →
    ∃ before after reg addr, splitComma (cString l) = some (before, after) ∧
      atoi (before.drop 1) = some reg ∧ atoi after = some addr ∧ 0 ≤ reg

/-- A line on which the assignment to `CycleTime` goes through when it is reached: the
number after `$$cycle` fits an `int`. -/
def cycleLineOk (l : List Char) : Prop :=
  isCycleLine l → ∃ k, atoi ((cString l).drop 7) = some k

/-- The eight conditional opcodes. -/
def Opcode.isConditional : Opcode → Bool
  | .INT_IF_BIT_SET | .INT_IF_BIT_CLEAR | .INT_IF_VARIABLE_LES_LITERAL
  | .INT_IF_GEQ | .INT_IF_LEQ | .INT_IF_NEQ
  | .INT_IF_VARIABLE_EQUALS_VARIABLE | .INT_IF_VARIABLE_GRT_VARIABLE => true
  | _ => false

/-- The opcodes whose `case` may assign `pc`: the conditionals and `INT_ELSE`. -/
def Opcode.transfers : Opcode → Bool
  | .INT_ELSE => true
  | o => o.isConditional

/-- The program `if-greater-or-equal(name1 = 0, name2 = 1, name3 = 5, literal1); end`. -/
def ifGeqProgram (c : IntCodes) (literal1 : Int) : ProgramT :=
  singleProgram c ⟨c.INT_IF_GEQ, 0, 1, 5, literal1⟩

/-- The program `if-less-or-equal(name1 = 1, name2 = 0, name3 = 5, literal1); end`. -/
def ifLeqProgram (c : IntCodes) (literal1 : Int) : ProgramT :=
  singleProgram c ⟨c.INT_IF_LEQ, 1, 0, 5, literal1⟩

/-- The program `set-bit 0; jump (name3 = 0); end`. -/
def loopProgram (c : IntCodes) : ProgramT :=
  programOf [⟨c.INT_SET_BIT, 0, 0, 0, 0⟩, ⟨c.INT_ELSE, 0, 0, 0, 0⟩,
             ⟨c.INT_END_OF_PROGRAM, 0, 0, 0, 0⟩]

/-! ## The disassembler -/

/-- What a call of `Disassemble` leads to: it returns, it calls `BadFormat` (which prints
the diagnostic and exits), or it reads `Program[pc]` outside the array. -/
inductive DisasmOutcome
  | returned
  | badFormat
  | outOfBounds
deriving DecidableEq, Repr

/-- The statement `bad_codes++` on `char bad_codes`, an 8-bit cell.  Whether plain `char`
is signed is the compiler's choice (it is with the Visual C++ defaults that `stdafx.h`
points to); the sum is formed in `int` and converted back to the 8-bit type. -/
def charIncrement (signedChar : Bool) (x : Int) : Int :=
  if signedChar then (x + 1 + 128) % 256 - 128 else (x + 1) % 256

/-- The loop of `Disassemble` over the instructions still in the array, with the current
value of `bad_codes`; the printed text is not represented.  `INT_END_OF_PROGRAM` tests
`bad_codes > 0` and returns, the `default:` case counts, every other case only prints. -/
def disassembleList (signedChar : Bool) (c : IntCodes) : List BinOp → Int → DisasmOutcome
  | [], _ => .outOfBounds
  | p :: rest, bad =>
    match c.decode p.op with
    | .INT_END_OF_PROGRAM => if bad > 0 then .badFormat else .returned
    | .unsupported => disassembleList signedChar c rest (charIncrement signedChar bad)
    | _ => disassembleList signedChar c rest bad

/-- The function `Disassemble`: `bad_codes = 0`, then the loop from `pc = 0`. -/
def Disassemble (signedChar : Bool) (c : IntCodes) (prog : ProgramT) : DisasmOutcome :=
  disassembleList signedChar c (slots prog 0 MAX_OPS) 0

/-- How many of the instructions have an opcode that no `case` label names. -/
def badCodes (c : IntCodes) : List BinOp → Nat
  | [] => 0
  | p :: rest =>
    match c.decode p.op with
    | .unsupported => badCodes c rest + 1
    | _ => badCodes c rest

/-- The program of `k` instructions with opcode 0 followed by the end marker. -/
def badProgram (c : IntCodes) (k : Nat) : ProgramT :=
  programOf (List.replicate k ⟨0, 0, 0, 0, 0⟩ ++ [⟨c.INT_END_OF_PROGRAM, 0, 0, 0, 0⟩])

/-- Every cell of `Bits` holds 0 or 1. -/
def bitsBoolean (m : Memory) : Prop := ∀ k : Fin MAX_INTERNAL_RELAYS, m.Bits k = 0 ∨ m.Bits k = 1

/-- The program `bits[4] := 1; bits[5] := 0; bits[6] := bits[7]; end` in the sample
numbering. -/
def bitsProgram : ProgramT :=
  programOf [⟨sampleCodes.INT_SET_BIT, 4, 0, 0, 0⟩, ⟨sampleCodes.INT_CLEAR_BIT, 5, 0, 0, 0⟩,
             ⟨sampleCodes.INT_COPY_BIT_TO_BIT, 6, 7, 0, 0⟩,
             ⟨sampleCodes.INT_END_OF_PROGRAM, 0, 0, 0, 0⟩]

/-- The program `int[0] := -2147483648; int[1] := -1; int[2] := int[0] / int[1]; end`. -/
def overflowProgram (c : IntCodes) : ProgramT :=
  programOf [⟨c.INT_SET_VARIABLE_TO_LITERAL, 0, 0, 0, -2147483648⟩,
             ⟨c.INT_SET_VARIABLE_TO_LITERAL, 1, 0, 0, -1⟩,
             ⟨c.INT_SET_VARIABLE_DIVIDE, 2, 0, 1, 0⟩,
             ⟨c.INT_END_OF_PROGRAM, 0, 0, 0, 0⟩]

/-! # Lemmas -/

/-! ## Decoding under pairwise different labels -/

theorem distinct_pairs (c : IntCodes) (h : c.Distinct) :
    c.labels.Pairwise (fun a b => a ≠ b ∧ b ≠ a) := by
  unfold IntCodes.Distinct List.Nodup at h
  exact h.imp (fun hab => ⟨hab, Ne.symm hab⟩)

theorem decode_INT_SET_BIT (c : IntCodes) (h : c.Distinct) (op : Int)
    (hop : op = c.INT_SET_BIT) : c.decode op = .INT_SET_BIT := by
  have H := distinct_pairs c h
  simp only [IntCodes.labels, List.pairwise_cons, List.mem_cons, forall_eq_or_imp,
    List.not_mem_nil, IsEmpty.forall_iff, forall_eq, List.Pairwise.nil, and_true,
    implies_true, List.mem_singleton, ne_eq] at H
  subst hop
  simp [IntCodes.decode, H]

theorem decode_INT_CLEAR_BIT (c : IntCodes) (h : c.Distinct) (op : Int)
    (hop : op = c.INT_CLEAR_BIT) : c.decode op = .INT_CLEAR_BIT := by
  have H := distinct_pairs c h
  simp only [IntCodes.labels, List.pairwise_cons, List.mem_cons, forall_eq_or_imp,
    List.not_mem_nil, IsEmpty.forall_iff, forall_eq, List.Pairwise.nil, and_true,
    implies_true, List.mem_singleton, ne_eq] at H
  subst hop
  simp [IntCodes.decode, H]

theorem decode_INT_COPY_BIT_TO_BIT (c : IntCodes) (h : c.Distinct) (op : Int)
    (hop : op = c.INT_COPY_BIT_TO_BIT) : c.decode op = .INT_COPY_BIT_TO_BIT := by
  have H := distinct_pairs c h
  simp only [IntCodes.labels, List.pairwise_cons, List.mem_cons, forall_eq_or_imp,
    List.not_mem_nil, IsEmpty.forall_iff, forall_eq, List.Pairwise.nil, and_true,
    implies_true, List.mem_singleton, ne_eq] at H
  subst hop
  simp [IntCodes.decode, H]

theorem decode_INT_SET_VARIABLE_TO_LITERAL (c : IntCodes) (h : c.Distinct) (op : Int)
    (hop : op = c.INT_SET_VARIABLE_TO_LITERAL) : c.decode op = .INT_SET_VARIABLE_TO_LITERAL := by
  have H := distinct_pairs c h
  simp only [IntCodes.labels, List.pairwise_cons, List.mem_cons, forall_eq_or_imp,
    List.not_mem_nil, IsEmpty.forall_iff, forall_eq, List.Pairwise.nil, and_true,
    implies_true, List.mem_singleton, ne_eq] at H
  subst hop
  simp [IntCodes.decode, H]

theorem decode_INT_INCREMENT_VARIABLE (c : IntCodes) (h : c.Distinct) (op : Int)
    (hop : op = c.INT_INCREMENT_VARIABLE) : c.decode op = .INT_INCREMENT_VARIABLE := by
  have H := distinct_pairs c h
  simp only [IntCodes.labels, List.pairwise_cons, List.mem_cons, forall_eq_or_imp,
    List.not_mem_nil, IsEmpty.forall_iff, forall_eq, List.Pairwise.nil, and_true,
    implies_true, List.mem_singleton, ne_eq] at H
  subst hop
  simp [IntCodes.decode, H]

theorem decode_INT_SET_VARIABLE_ADD (c : IntCodes) (h : c.Distinct) (op : Int)
    (hop : op = c.INT_SET_VARIABLE_ADD) : c.decode op = .INT_SET_VARIABLE_ADD := by
  have H := distinct_pairs c h
  simp only [IntCodes.labels, List.pairwise_cons, List.mem_cons, forall_eq_or_imp,
    List.not_mem_nil, IsEmpty.forall_iff, forall_eq, List.Pairwise.nil, and_true,
    implies_true, List.mem_singleton, ne_eq] at H
  subst hop
  simp [IntCodes.decode, H]

theorem decode_INT_SET_VARIABLE_SUBTRACT (c : IntCodes) (h : c.Distinct) (op : Int)
    (hop : op = c.INT_SET_VARIABLE_SUBTRACT) : c.decode op = .INT_SET_VARIABLE_SUBTRACT := by
  have H := distinct_pairs c h
  simp only [IntCodes.labels, List.pairwise_cons, List.mem_cons, forall_eq_or_imp,
    List.not_mem_nil, IsEmpty.forall_iff, forall_eq, List.Pairwise.nil, and_true,
    implies_true, List.mem_singleton, ne_eq] at H
  subst hop
  simp [IntCodes.decode, H]

theorem decode_INT_SET_VARIABLE_MULTIPLY (c : IntCodes) (h : c.Distinct) (op : Int)
    (hop : op = c.INT_SET_VARIABLE_MULTIPLY) : c.decode op = .INT_SET_VARIABLE_MULTIPLY := by
  have H := distinct_pairs c h
  simp only [IntCodes.labels, List.pairwise_cons, List.mem_cons, forall_eq_or_imp,
    List.not_mem_nil, IsEmpty.forall_iff, forall_eq, List.Pairwise.nil, and_true,
    implies_true, List.mem_singleton, ne_eq] at H
  subst hop
  simp [IntCodes.decode, H]

theorem decode_INT_SET_VARIABLE_DIVIDE (c : IntCodes) (h : c.Distinct) (op : Int)
    (hop : op = c.INT_SET_VARIABLE_DIVIDE) : c.decode op = .INT_SET_VARIABLE_DIVIDE := by
  have H := distinct_pairs c h
  simp only [IntCodes.labels, List.pairwise_cons, List.mem_cons, forall_eq_or_imp,
    List.not_mem_nil, IsEmpty.forall_iff, forall_eq, List.Pairwise.nil, and_true,
    implies_true, List.mem_singleton, ne_eq] at H
  subst hop
  simp [IntCodes.decode, H]

theorem decode_INT_SET_VARIABLE_MOD (c : IntCodes) (h : c.Distinct) (op : Int)
    (hop : op = c.INT_SET_VARIABLE_MOD) : c.decode op = .INT_SET_VARIABLE_MOD := by
  have H := distinct_pairs c h
  simp only [IntCodes.labels, List.pairwise_cons, List.mem_cons, forall_eq_or_imp,
    List.not_mem_nil, IsEmpty.forall_iff, forall_eq, List.Pairwise.nil, and_true,
    implies_true, List.mem_singleton, ne_eq] at H
  subst hop
  simp [IntCodes.decode, H]

theorem decode_INT_IF_BIT_SET (c : IntCodes) (h : c.Distinct) (op : Int)
    (hop : op = c.INT_IF_BIT_SET) : c.decode op = .INT_IF_BIT_SET := by
  have H := distinct_pairs c h
  simp only [IntCodes.labels, List.pairwise_cons, List.mem_cons, forall_eq_or_imp,
    List.not_mem_nil, IsEmpty.forall_iff, forall_eq, List.Pairwise.nil, and_true,
    implies_true, List.mem_singleton, ne_eq] at H
  subst hop
  simp [IntCodes.decode, H]

theorem decode_INT_IF_BIT_CLEAR (c : IntCodes) (h : c.Distinct) (op : Int)
    (hop : op = c.INT_IF_BIT_CLEAR) : c.decode op = .INT_IF_BIT_CLEAR := by
  have H := distinct_pairs c h
  simp only [IntCodes.labels, List.pairwise_cons, List.mem_cons, forall_eq_or_imp,
    List.not_mem_nil, IsEmpty.forall_iff, forall_eq, List.Pairwise.nil, and_true,
    implies_true, List.mem_singleton, ne_eq] at H
  subst hop
  simp [IntCodes.decode, H]

theorem decode_INT_IF_VARIABLE_LES_LITERAL (c : IntCodes) (h : c.Distinct) (op : Int)
    (hop : op = c.INT_IF_VARIABLE_LES_LITERAL) : c.decode op = .INT_IF_VARIABLE_LES_LITERAL := by
  have H := distinct_pairs c h
  simp only [IntCodes.labels, List.pairwise_cons, List.mem_cons, forall_eq_or_imp,
    List.not_mem_nil, IsEmpty.forall_iff, forall_eq, List.Pairwise.nil, and_true,
    implies_true, List.mem_singleton, ne_eq] at H
  subst hop
  simp [IntCodes.decode, H]

theorem decode_INT_IF_GEQ (c : IntCodes) (h : c.Distinct) (op : Int)
    (hop : op = c.INT_IF_GEQ) : c.decode op = .INT_IF_GEQ := by
  have H := distinct_pairs c h
  simp only [IntCodes.labels, List.pairwise_cons, List.mem_cons, forall_eq_or_imp,
    List.not_mem_nil, IsEmpty.forall_iff, forall_eq, List.Pairwise.nil, and_true,
    implies_true, List.mem_singleton, ne_eq] at H
  subst hop
  simp [IntCodes.decode, H]

theorem decode_INT_IF_LEQ (c : IntCodes) (h : c.Distinct) (op : Int)
    (hop : op = c.INT_IF_LEQ) : c.decode op = .INT_IF_LEQ := by
  have H := distinct_pairs c h
  simp only [IntCodes.labels, List.pairwise_cons, List.mem_cons, forall_eq_or_imp,
    List.not_mem_nil, IsEmpty.forall_iff, forall_eq, List.Pairwise.nil, and_true,
    implies_true, List.mem_singleton, ne_eq] at H
  subst hop
  simp [IntCodes.decode, H]

theorem decode_INT_IF_NEQ (c : IntCodes) (h : c.Distinct) (op : Int)
    (hop : op = c.INT_IF_NEQ) : c.decode op = .INT_IF_NEQ := by
  have H := distinct_pairs c h
  simp only [IntCodes.labels, List.pairwise_cons, List.mem_cons, forall_eq_or_imp,
    List.not_mem_nil, IsEmpty.forall_iff, forall_eq, List.Pairwise.nil, and_true,
    implies_true, List.mem_singleton, ne_eq] at H
  subst hop
  simp [IntCodes.decode, H]

theorem decode_INT_IF_VARIABLE_EQUALS_VARIABLE (c : IntCodes) (h : c.Distinct) (op : Int)
    (hop : op = c.INT_IF_VARIABLE_EQUALS_VARIABLE) : c.decode op = .INT_IF_VARIABLE_EQUALS_VARIABLE := by
  have H := distinct_pairs c h
  simp only [IntCodes.labels, List.pairwise_cons, List.mem_cons, forall_eq_or_imp,
    List.not_mem_nil, IsEmpty.forall_iff, forall_eq, List.Pairwise.nil, and_true,
    implies_true, List.mem_singleton, ne_eq] at H
  subst hop
  simp [IntCodes.decode, H]

theorem decode_INT_IF_VARIABLE_GRT_VARIABLE (c : IntCodes) (h : c.Distinct) (op : Int)
    (hop : op = c.INT_IF_VARIABLE_GRT_VARIABLE) : c.decode op = .INT_IF_VARIABLE_GRT_VARIABLE := by
  have H := distinct_pairs c h
  simp only [IntCodes.labels, List.pairwise_cons, List.mem_cons, forall_eq_or_imp,
    List.not_mem_nil, IsEmpty.forall_iff, forall_eq, List.Pairwise.nil, and_true,
    implies_true, List.mem_singleton, ne_eq] at H
  subst hop
  simp [IntCodes.decode, H]

theorem decode_INT_ELSE (c : IntCodes) (h : c.Distinct) (op : Int)
    (hop : op = c.INT_ELSE) : c.decode op = .INT_ELSE := by
  have H := distinct_pairs c h
  simp only [IntCodes.labels, List.pairwise_cons, List.mem_cons, forall_eq_or_imp,
    List.not_mem_nil, IsEmpty.forall_iff, forall_eq, List.Pairwise.nil, and_true,
    implies_true, List.mem_singleton, ne_eq] at H
  subst hop
  simp [IntCodes.decode, H]

theorem decode_INT_END_OF_PROGRAM (c : IntCodes) (h : c.Distinct) (op : Int)
    (hop : op = c.INT_END_OF_PROGRAM) : c.decode op = .INT_END_OF_PROGRAM := by
  have H := distinct_pairs c h
  simp only [IntCodes.labels, List.pairwise_cons, List.mem_cons, forall_eq_or_imp,
    List.not_mem_nil, IsEmpty.forall_iff, forall_eq, List.Pairwise.nil, and_true,
    implies_true, List.mem_singleton, ne_eq] at H
  subst hop
  simp [IntCodes.decode, H]

theorem decode_INT_AllocFwdAddr (c : IntCodes) (h : c.Distinct) (op : Int)
    (hop : op = c.INT_AllocFwdAddr) : c.decode op = .INT_AllocFwdAddr := by
  have H := distinct_pairs c h
  simp only [IntCodes.labels, List.pairwise_cons, List.mem_cons, forall_eq_or_imp,
    List.not_mem_nil, IsEmpty.forall_iff, forall_eq, List.Pairwise.nil, and_true,
    implies_true, List.mem_singleton, ne_eq] at H
  subst hop
  simp [IntCodes.decode, H]

theorem decode_INT_AllocKnownAddr (c : IntCodes) (h : c.Distinct) (op : Int)
    (hop : op = c.INT_AllocKnownAddr) : c.decode op = .INT_AllocKnownAddr := by
  have H := distinct_pairs c h
  simp only [IntCodes.labels, List.pairwise_cons, List.mem_cons, forall_eq_or_imp,
    List.not_mem_nil, IsEmpty.forall_iff, forall_eq, List.Pairwise.nil, and_true,
    implies_true, List.mem_singleton, ne_eq] at H
  subst hop
  simp [IntCodes.decode, H]

theorem decode_INT_FwdAddrIsNow (c : IntCodes) (h : c.Distinct) (op : Int)
    (hop : op = c.INT_FwdAddrIsNow) : c.decode op = .INT_FwdAddrIsNow := by
  have H := distinct_pairs c h
  simp only [IntCodes.labels, List.pairwise_cons, List.mem_cons, forall_eq_or_imp,
    List.not_mem_nil, IsEmpty.forall_iff, forall_eq, List.Pairwise.nil, and_true,
    implies_true, List.mem_singleton, ne_eq] at H
  subst hop
  simp [IntCodes.decode, H]

theorem decode_unsupported (c : IntCodes) (op : Int) (h : op ∉ c.labels) :
    c.decode op = .unsupported := by
  simp only [IntCodes.labels, List.mem_cons, List.mem_singleton, List.not_mem_nil, or_false,
    not_or] at h
  simp [IntCodes.decode, h]

/-! ## Index expressions -/

theorem cell_fin (n : Nat) (i : Fin n) : cell n (i : Int) = some i := by
  have h : (0 : Int) ≤ (i : Int) ∧ ((i : Nat) : Int) < (n : Int) := by
    constructor
    · exact Int.ofNat_nonneg _
    · exact_mod_cast i.isLt
  simp [cell, h]

theorem cell_of_eq (n : Nat) (a : Int) (i : Fin n) (h : a = (i : Int)) : cell n a = some i := by
  subst h
  exact cell_fin n i

theorem cell_some (n : Nat) (a : Int) (i : Fin n) (h : cell n a = some i) : a = (i : Int) := by
  unfold cell at h
  split at h
  · injection h with h
    subst h
    simp
    omega
  · exact absurd h (by simp)

theorem wrap32_isInt32 (x : Int) : IsInt32 (wrap32 x) := by
  unfold IsInt32 wrap32
  omega

theorem wrap32_congr (x : Int) : (wrap32 x - x) % 2 ^ 32 = 0 := by
  unfold wrap32
  omega

theorem wrap32_of_isInt32 (x : Int) (h : IsInt32 x) : wrap32 x = x := by
  unfold IsInt32 at h
  unfold wrap32
  omega

theorem wrap32_add_wrap32 (x y : Int) : wrap32 (wrap32 x + y) = wrap32 (x + y) := by
  unfold wrap32
  omega

/-! ## Truncating division -/

theorem tmod_natAbs (a b : Int) : (Int.tmod a b).natAbs = a.natAbs % b.natAbs := by
  cases a <;> cases b <;> simp [Int.tmod, Int.natAbs_neg] <;> rfl

theorem tmod_abs_lt (a b : Int) (hb : b ≠ 0) : |Int.tmod a b| < |b| := by
  rw [Int.abs_eq_natAbs, Int.abs_eq_natAbs, tmod_natAbs]
  have : 0 < b.natAbs := Int.natAbs_pos.mpr hb
  exact_mod_cast Nat.mod_lt _ this

theorem tmod_nonpos (a b : Int) (ha : a ≤ 0) : Int.tmod a b ≤ 0 := by
  have h := Int.tmod_nonneg b (a := -a) (by omega)
  have e : Int.tmod (-a) b = - Int.tmod a b := by
    rw [Int.tmod_def, Int.tmod_def, Int.neg_tdiv]
    ring
  omega

theorem tdiv_isInt32 (a b : Int) (ha : IsInt32 a) (hq : quotientFits a b) :
    IsInt32 (Int.tdiv a b) := by
  unfold IsInt32 at *
  unfold quotientFits at hq
  have hn : (Int.tdiv a b).natAbs = a.natAbs / b.natAbs := Int.natAbs_tdiv a b
  by_cases hb1 : b = 1
  · subst hb1; simpa using ha
  by_cases hb2 : b = -1
  · subst hb2
    have : Int.tdiv a (-1) = -a := by
      rw [Int.tdiv_neg, Int.tdiv_one]
    rw [this]
    have : a ≠ -(2 ^ 31) := fun h => hq ⟨h, rfl⟩
    omega
  · by_cases hb0 : b = 0
    · subst hb0; simp
    · have hb : 2 ≤ b.natAbs := by omega
      have h2 : a.natAbs / b.natAbs ≤ a.natAbs / 2 := Nat.div_le_div_left hb (by decide)
      have h3 : a.natAbs ≤ 2 ^ 31 := by omega
      omega

theorem tmod_isInt32 (a b : Int) (ha : IsInt32 a) : IsInt32 (Int.tmod a b) := by
  unfold IsInt32 at *
  have hn := tmod_natAbs a b
  have hle : a.natAbs % b.natAbs ≤ a.natAbs := Nat.mod_le _ _
  rcases Int.le_total 0 a with h | h
  · have := Int.tmod_nonneg b h
    omega
  · have := tmod_nonpos a b h
    omega

/-! ## Single accesses and single iterations -/

theorem withInt_eq (m : Memory) (a : Int) (i : Fin MAX_VARIABLES) (h : a = (i : Int))
    (k : Int → Outcome) : withInt m a k = k (m.Integers i) := by
  simp [withInt, cell_of_eq _ a i h]

theorem withBit_eq (m : Memory) (a : Int) (i : Fin MAX_INTERNAL_RELAYS) (h : a = (i : Int))
    (k : Nat → Outcome) : withBit m a k = k (m.Bits i) := by
  simp [withBit, cell_of_eq _ a i h]

theorem setInt_eq (pc : Int) (m : Memory) (a : Int) (i : Fin MAX_VARIABLES) (h : a = (i : Int))
    (v : Int) : setInt pc m a v = .next pc ⟨m.Bits, Function.update m.Integers i v⟩ := by
  simp [setInt, cell_of_eq _ a i h]

theorem setBit_eq (pc : Int) (m : Memory) (a : Int) (i : Fin MAX_INTERNAL_RELAYS)
    (h : a = (i : Int)) (v : Nat) :
    setBit pc m a v = .next pc ⟨Function.update m.Bits i v, m.Integers⟩ := by
  simp [setBit, cell_of_eq _ a i h]

theorem step_at (c : IntCodes) (prog : ProgramT) (pc : Int) (i : Fin MAX_OPS)
    (hpc : pc = (i : Int)) (m : Memory) :
    step c prog pc m = (execOp c (prog i) pc m).increment := by
  simp [step, cell_of_eq _ pc i hpc]

theorem step_of_next (c : IntCodes) (prog : ProgramT) (pc : Int) (i : Fin MAX_OPS)
    (hpc : pc = (i : Int)) (m m1 : Memory) (pc1 : Int)
    (h : execOp c (prog i) pc m = .next pc1 m1) :
    step c prog pc m = .next (pc1 + 1) m1 := by
  rw [step_at c prog pc i hpc, h]; rfl

theorem step_of_returned (c : IntCodes) (prog : ProgramT) (pc : Int) (i : Fin MAX_OPS)
    (hpc : pc = (i : Int)) (m m1 : Memory)
    (h : execOp c (prog i) pc m = .returned m1) :
    step c prog pc m = .returned m1 := by
  rw [step_at c prog pc i hpc, h]; rfl

theorem step_of_fault (c : IntCodes) (prog : ProgramT) (pc : Int) (i : Fin MAX_OPS)
    (hpc : pc = (i : Int)) (m : Memory) (f : Fault)
    (h : execOp c (prog i) pc m = .fault f) :
    step c prog pc m = .fault f := by
  rw [step_at c prog pc i hpc, h]; rfl

theorem run_of_next (c : IntCodes) (prog : ProgramT) (fuel : Nat) (pc pc1 : Int)
    (m m1 : Memory) (h : step c prog pc m = .next pc1 m1) :
    run c prog (fuel + 1) pc m = run c prog fuel pc1 m1 := by
  simp [run, h]

theorem run_of_returned (c : IntCodes) (prog : ProgramT) (fuel : Nat) (pc : Int)
    (m m1 : Memory) (h : step c prog pc m = .returned m1) :
    run c prog (fuel + 1) pc m = .returned m1 := by
  simp [run, h]

theorem run_of_fault (c : IntCodes) (prog : ProgramT) (fuel : Nat) (pc : Int)
    (m : Memory) (f : Fault) (h : step c prog pc m = .fault f) :
    run c prog (fuel + 1) pc m = .fault f := by
  simp [run, h]

/-! ## The cases of the `switch`, one by one -/

theorem execOp_div_mod_zero (c : IntCodes) (hc : c.Distinct) (p : BinOp) (pc : Int)
    (m : Memory)
    (hop : p.op = c.INT_SET_VARIABLE_DIVIDE ∨ p.op = c.INT_SET_VARIABLE_MOD)
    (j : Fin MAX_VARIABLES) (hj : p.name3 = (j : Int)) (hz : m.Integers j = 0) :
    execOp c p pc m = .next pc m := by
  rcases hop with hop | hop
  · simp [execOp, decode_INT_SET_VARIABLE_DIVIDE c hc _ hop, withInt_eq m _ j hj, hz]
  · simp [execOp, decode_INT_SET_VARIABLE_MOD c hc _ hop, withInt_eq m _ j hj, hz]

theorem execOp_set_literal (c : IntCodes) (hc : c.Distinct) (p : BinOp) (pc : Int)
    (m : Memory) (hop : p.op = c.INT_SET_VARIABLE_TO_LITERAL)
    (i : Fin MAX_VARIABLES) (hi : p.name1 = (i : Int)) :
    execOp c p pc m = .next pc ⟨m.Bits, Function.update m.Integers i p.literal1⟩ := by
  simp [execOp, decode_INT_SET_VARIABLE_TO_LITERAL c hc _ hop, setInt_eq pc m _ i hi]

theorem execOp_end (c : IntCodes) (hc : c.Distinct) (p : BinOp) (pc : Int)
    (m : Memory) (hop : p.op = c.INT_END_OF_PROGRAM) :
    execOp c p pc m = .returned m := by
  simp [execOp, decode_INT_END_OF_PROGRAM c hc _ hop]

theorem execOp_else (c : IntCodes) (hc : c.Distinct) (p : BinOp) (pc : Int)
    (m : Memory) (hop : p.op = c.INT_ELSE) :
    execOp c p pc m = .next p.name3 m := by
  simp [execOp, decode_INT_ELSE c hc _ hop]

theorem execOp_set_bit (c : IntCodes) (hc : c.Distinct) (p : BinOp) (pc : Int)
    (m : Memory) (hop : p.op = c.INT_SET_BIT)
    (i : Fin MAX_INTERNAL_RELAYS) (hi : p.name1 = (i : Int)) :
    execOp c p pc m = .next pc ⟨Function.update m.Bits i 1, m.Integers⟩ := by
  simp [execOp, decode_INT_SET_BIT c hc _ hop, setBit_eq pc m _ i hi]

theorem execOp_clear_bit (c : IntCodes) (hc : c.Distinct) (p : BinOp) (pc : Int)
    (m : Memory) (hop : p.op = c.INT_CLEAR_BIT)
    (i : Fin MAX_INTERNAL_RELAYS) (hi : p.name1 = (i : Int)) :
    execOp c p pc m = .next pc ⟨Function.update m.Bits i 0, m.Integers⟩ := by
  simp [execOp, decode_INT_CLEAR_BIT c hc _ hop, setBit_eq pc m _ i hi]

theorem execOp_copy_bit (c : IntCodes) (hc : c.Distinct) (p : BinOp) (pc : Int)
    (m : Memory) (hop : p.op = c.INT_COPY_BIT_TO_BIT)
    (i : Fin MAX_INTERNAL_RELAYS) (hi : p.name1 = (i : Int))
    (j : Fin MAX_INTERNAL_RELAYS) (hj : p.name2 = (j : Int)) :
    execOp c p pc m = .next pc ⟨Function.update m.Bits i (m.Bits j), m.Integers⟩ := by
  simp [execOp, decode_INT_COPY_BIT_TO_BIT c hc _ hop, withBit_eq m _ j hj,
    setBit_eq pc m _ i hi]

theorem execOp_increment (c : IntCodes) (hc : c.Distinct) (p : BinOp) (pc : Int)
    (m : Memory) (hop : p.op = c.INT_INCREMENT_VARIABLE)
    (i : Fin MAX_VARIABLES) (hi : p.name1 = (i : Int)) :
    execOp c p pc m =
      .next pc ⟨m.Bits, Function.update m.Integers i (wrap32 (m.Integers i + 1))⟩ := by
  simp [execOp, decode_INT_INCREMENT_VARIABLE c hc _ hop, withInt_eq m _ i hi,
    setInt_eq pc m _ i hi]

theorem execOp_add (c : IntCodes) (hc : c.Distinct) (p : BinOp) (pc : Int)
    (m : Memory) (hop : p.op = c.INT_SET_VARIABLE_ADD)
    (i1 : Fin MAX_VARIABLES) (h1 : p.name1 = (i1 : Int))
    (i2 : Fin MAX_VARIABLES) (h2 : p.name2 = (i2 : Int))
    (i3 : Fin MAX_VARIABLES) (h3 : p.name3 = (i3 : Int)) :
    execOp c p pc m = .next pc
      ⟨m.Bits, Function.update m.Integers i1 (wrap32 (m.Integers i2 + m.Integers i3))⟩ := by
  simp [execOp, decode_INT_SET_VARIABLE_ADD c hc _ hop, withInt_eq m _ i2 h2,
    withInt_eq m _ i3 h3, setInt_eq pc m _ i1 h1]

theorem execOp_subtract (c : IntCodes) (hc : c.Distinct) (p : BinOp) (pc : Int)
    (m : Memory) (hop : p.op = c.INT_SET_VARIABLE_SUBTRACT)
    (i1 : Fin MAX_VARIABLES) (h1 : p.name1 = (i1 : Int))
    (i2 : Fin MAX_VARIABLES) (h2 : p.name2 = (i2 : Int))
    (i3 : Fin MAX_VARIABLES) (h3 : p.name3 = (i3 : Int)) :
    execOp c p pc m = .next pc
      ⟨m.Bits, Function.update m.Integers i1 (wrap32 (m.Integers i2 - m.Integers i3))⟩ := by
  simp [execOp, decode_INT_SET_VARIABLE_SUBTRACT c hc _ hop, withInt_eq m _ i2 h2,
    withInt_eq m _ i3 h3, setInt_eq pc m _ i1 h1]

theorem execOp_multiply (c : IntCodes) (hc : c.Distinct) (p : BinOp) (pc : Int)
    (m : Memory) (hop : p.op = c.INT_SET_VARIABLE_MULTIPLY)
    (i1 : Fin MAX_VARIABLES) (h1 : p.name1 = (i1 : Int))
    (i2 : Fin MAX_VARIABLES) (h2 : p.name2 = (i2 : Int))
    (i3 : Fin MAX_VARIABLES) (h3 : p.name3 = (i3 : Int)) :
    execOp c p pc m = .next pc
      ⟨m.Bits, Function.update m.Integers i1 (wrap32 (m.Integers i2 * m.Integers i3))⟩ := by
  simp [execOp, decode_INT_SET_VARIABLE_MULTIPLY c hc _ hop, withInt_eq m _ i2 h2,
    withInt_eq m _ i3 h3, setInt_eq pc m _ i1 h1]

theorem execOp_divide (c : IntCodes) (hc : c.Distinct) (p : BinOp) (pc : Int)
    (m : Memory) (hop : p.op = c.INT_SET_VARIABLE_DIVIDE)
    (i1 : Fin MAX_VARIABLES) (h1 : p.name1 = (i1 : Int))
    (i2 : Fin MAX_VARIABLES) (h2 : p.name2 = (i2 : Int))
    (i3 : Fin MAX_VARIABLES) (h3 : p.name3 = (i3 : Int))
    (hnz : m.Integers i3 ≠ 0) (hq : quotientFits (m.Integers i2) (m.Integers i3)) :
    execOp c p pc m = .next pc
      ⟨m.Bits, Function.update m.Integers i1 (Int.tdiv (m.Integers i2) (m.Integers i3))⟩ := by
  simp [execOp, decode_INT_SET_VARIABLE_DIVIDE c hc _ hop, withInt_eq m _ i2 h2,
    withInt_eq m _ i3 h3, setInt_eq pc m _ i1 h1, hnz, hq]

theorem execOp_modulo (c : IntCodes) (hc : c.Distinct) (p : BinOp) (pc : Int)
    (m : Memory) (hop : p.op = c.INT_SET_VARIABLE_MOD)
    (i1 : Fin MAX_VARIABLES) (h1 : p.name1 = (i1 : Int))
    (i2 : Fin MAX_VARIABLES) (h2 : p.name2 = (i2 : Int))
    (i3 : Fin MAX_VARIABLES) (h3 : p.name3 = (i3 : Int))
    (hnz : m.Integers i3 ≠ 0) (hq : quotientFits (m.Integers i2) (m.Integers i3)) :
    execOp c p pc m = .next pc
      ⟨m.Bits, Function.update m.Integers i1 (Int.tmod (m.Integers i2) (m.Integers i3))⟩ := by
  simp [execOp, decode_INT_SET_VARIABLE_MOD c hc _ hop, withInt_eq m _ i2 h2,
    withInt_eq m _ i3 h3, setInt_eq pc m _ i1 h1, hnz, hq]

theorem execOp_marker (c : IntCodes) (hc : c.Distinct) (p : BinOp) (pc : Int)
    (m : Memory)
    (hop : p.op = c.INT_AllocFwdAddr ∨ p.op = c.INT_AllocKnownAddr ∨
      p.op = c.INT_FwdAddrIsNow) :
    execOp c p pc m = .next pc m := by
  rcases hop with hop | hop | hop
  · simp [execOp, decode_INT_AllocFwdAddr c hc _ hop]
  · simp [execOp, decode_INT_AllocKnownAddr c hc _ hop]
  · simp [execOp, decode_INT_FwdAddrIsNow c hc _ hop]

theorem execOp_unsupported (c : IntCodes) (p : BinOp) (pc : Int) (m : Memory)
    (hop : p.op ∉ c.labels) : execOp c p pc m = .next pc m := by
  simp [execOp, decode_unsupported c _ hop]

/-! ## Straight-line code -/

theorem execOp_straight (c : IntCodes) (p : BinOp) (pc : Int) (m : Memory)
    (h : (c.decode p.op).straight = true) :
    execOp c p pc m =
      match effect c p m with
      | .ok m1 => .next pc m1
      | .error f => .fault f := by
  unfold effect execOp
  cases hd : c.decode p.op <;> rw [hd] at h <;> simp [Opcode.straight] at h ⊢ <;>
    simp only [setBit, setInt, withBit, withInt] <;>
    repeat' split
  all_goals simp_all

theorem slots_succ (prog : ProgramT) (j n : Nat) (h : j < MAX_OPS) :
    slots prog j (n + 1) = prog ⟨j, h⟩ :: slots prog (j + 1) n := by
  simp [slots, h]

theorem slots_congr (prog prog1 : ProgramT) :
    ∀ (n j : Nat), (∀ i : Fin MAX_OPS, j ≤ i.val → i.val < j + n → prog1 i = prog i) →
      slots prog1 j n = slots prog j n := by
  intro n
  induction n with
  | zero => intro j _; rfl
  | succ n ih =>
    intro j h
    by_cases hj : j < MAX_OPS
    · rw [slots_succ _ _ _ hj, slots_succ _ _ _ hj, h ⟨j, hj⟩ (Nat.le_refl _) (by simp),
        ih (j + 1) (fun i h1 h2 => h i (by omega) (by omega))]
    · simp [slots, hj]

/-- From index `j`, through `n` straight instructions, to the end marker at `j + n`. -/
theorem run_straight (c : IntCodes) (hc : c.Distinct) (prog : ProgramT) (k : Fin MAX_OPS)
    (hend : (prog k).op = c.INT_END_OF_PROGRAM) :
    ∀ (n j : Nat), j + n = k.val →
      (∀ i : Fin MAX_OPS, j ≤ i.val → i.val < k.val → (c.decode (prog i).op).straight = true) →
      ∀ (m : Memory) (fuel : Nat), n < fuel →
        run c prog fuel (j : Int) m = cycleResult (applyOps c (slots prog j n) m) := by
  intro n
  induction n with
  | zero =>
    intro j hj _ m fuel hfuel
    obtain ⟨f, rfl⟩ : ∃ f, fuel = f + 1 := ⟨fuel - 1, by omega⟩
    have hjk : (j : Int) = ((k : Nat) : Int) := by
      have : j = k.val := by omega
      rw [this]
    have hs := step_of_returned c prog (j : Int) k hjk m m (execOp_end c hc _ _ m hend)
    rw [run_of_returned c prog f _ m m hs]
    rfl
  | succ n ih =>
    intro j hj hst m fuel hfuel
    obtain ⟨f, rfl⟩ : ∃ f, fuel = f + 1 := ⟨fuel - 1, by omega⟩
    have hj256 : j < MAX_OPS := by have := k.isLt; omega
    have hx := execOp_straight c (prog ⟨j, hj256⟩) (j : Int) m
      (hst ⟨j, hj256⟩ (Nat.le_refl _) (by simp; omega))
    rw [slots_succ prog j n hj256]
    simp only [applyOps]
    cases he : effect c (prog ⟨j, hj256⟩) m with
    | error e =>
      rw [he] at hx
      have hs := step_of_fault c prog (j : Int) ⟨j, hj256⟩ rfl m e hx
      rw [run_of_fault c prog f _ m e hs]
      rfl
    | ok m1 =>
      rw [he] at hx
      have hs := step_of_next c prog (j : Int) ⟨j, hj256⟩ rfl m m1 _ hx
      rw [run_of_next c prog f _ _ m m1 hs]
      have hcast : (j : Int) + 1 = ((j + 1 : Nat) : Int) := by push_cast; rfl
      rw [hcast]
      exact ih (j + 1) (by omega) (fun i h1 h2 => hst i (by omega) h2) m1 f (by omega)

/-! ## Concrete runs -/

theorem divideByZeroProgram_run (c : IntCodes) (hc : c.Distinct) (n : Nat) :
    InterpretOneCycle c (divideByZeroProgram c) (n + 4) Memory.zero =
      .returned ⟨fun _ => 0, Function.update (Function.update (fun _ => 0) 0 5) 1 0⟩ := by
  have s0 := step_of_next c (divideByZeroProgram c) 0 0 rfl Memory.zero _ _
    (execOp_set_literal c hc _ 0 Memory.zero rfl 0 rfl)
  have s1 := step_of_next c (divideByZeroProgram c) 1 1 rfl _ _ _
    (execOp_set_literal c hc _ 1
      ⟨fun _ => 0, Function.update (fun _ => 0) 0 5⟩ rfl 1 rfl)
  have s2 := step_of_next c (divideByZeroProgram c) 2 2 rfl _ _ _
    (execOp_div_mod_zero c hc ((divideByZeroProgram c) 2) 2
      ⟨fun _ => 0, Function.update (Function.update (fun _ => 0) 0 5) 1 0⟩
      (Or.inl rfl) 1 rfl rfl)
  have s3 := step_of_returned c (divideByZeroProgram c) 3 3 rfl _ _
    (execOp_end c hc ((divideByZeroProgram c) 3) 3
      ⟨fun _ => 0, Function.update (Function.update (fun _ => 0) 0 5) 1 0⟩ rfl)
  calc InterpretOneCycle c (divideByZeroProgram c) (n + 4) Memory.zero
      = run c (divideByZeroProgram c) (n + 3) 1 ⟨fun _ => 0, Function.update (fun _ => 0) 0 5⟩ :=
        run_of_next c _ (n + 3) 0 _ _ _ s0
    _ = run c (divideByZeroProgram c) (n + 2) 2
          ⟨fun _ => 0, Function.update (Function.update (fun _ => 0) 0 5) 1 0⟩ :=
        run_of_next c _ (n + 2) 1 _ _ _ s1
    _ = run c (divideByZeroProgram c) (n + 1) 3
          ⟨fun _ => 0, Function.update (Function.update (fun _ => 0) 0 5) 1 0⟩ :=
        run_of_next c _ (n + 1) 2 _ _ _ s2
    _ = _ := run_of_returned c _ n 3 _ _ s3

theorem increment_cycle (c : IntCodes) (hc : c.Distinct) (p : BinOp)
    (hop : p.op = c.INT_INCREMENT_VARIABLE) (a : Fin MAX_VARIABLES) (ha : p.name1 = (a : Int))
    (m : Memory) (n : Nat) :
    InterpretOneCycle c (singleProgram c p) (n + 2) m =
      .returned ⟨m.Bits, Function.update m.Integers a (wrap32 (m.Integers a + 1))⟩ := by
  have s0 := step_of_next c (singleProgram c p) 0 0 rfl m _ 0
    (execOp_increment c hc _ 0 m hop a ha)
  have s1 := step_of_returned c (singleProgram c p) 1 1 rfl
    ⟨m.Bits, Function.update m.Integers a (wrap32 (m.Integers a + 1))⟩ _
    (execOp_end c hc _ 1 _ rfl)
  calc InterpretOneCycle c (singleProgram c p) (n + 2) m
      = run c (singleProgram c p) (n + 1) 1
          ⟨m.Bits, Function.update m.Integers a (wrap32 (m.Integers a + 1))⟩ :=
        run_of_next c _ (n + 1) 0 1 m _ s0
    _ = _ := run_of_returned c _ n 1 _ _ s1

/-! # Properties of the interpreter -/

/-- C1: a divide or modulo instruction whose divisor cell `Integers[name3]` is zero
raises no fault and changes no cell, and the loop goes on with the next instruction
(this needs neither `name1` nor `name2` to be valid indices); and the program
`int[0] := 5; int[1] := 0; int[2] := int[0] / int[1]; end`, run for one cycle from
zeroed memory, returns with `Integers[2] = 0`, `Integers[0] = 5` and every other cell
zero. -/
theorem C1_divide_modulo_by_zero (c : IntCodes) (hc : c.Distinct) (prog : ProgramT)
    (i : Fin MAX_OPS) (m : Memory)
    (hop : (prog i).op = c.INT_SET_VARIABLE_DIVIDE ∨ (prog i).op = c.INT_SET_VARIABLE_MOD)
    (j : Fin MAX_VARIABLES) (hj : (prog i).name3 = (j : Int)) (hz : m.Integers j = 0) :
    execOp c (prog i) (i : Int) m = .next (i : Int) m ∧
    step c prog (i : Int) m = .next ((i : Int) + 1) m ∧
    (∀ fuel, run c prog (fuel + 1) (i : Int) m = run c prog fuel ((i : Int) + 1) m) ∧
    ∀ fuel, 4 ≤ fuel →
      ∃ m1, InterpretOneCycle c (divideByZeroProgram c) fuel Memory.zero = .returned m1 ∧
        m1.Integers 2 = 0 ∧ m1.Integers 0 = 5 ∧
        (∀ k, k ≠ 0 → m1.Integers k = 0) ∧ ∀ b, m1.Bits b = 0 := by
  have he := execOp_div_mod_zero c hc (prog i) (i : Int) m hop j hj hz
  have hs := step_of_next c prog (i : Int) i rfl m m _ he
  refine ⟨he, hs, fun fuel => run_of_next c prog fuel _ _ m m hs, ?_⟩
  intro fuel hfuel
  obtain ⟨n, rfl⟩ : ∃ n, fuel = n + 4 := ⟨fuel - 4, by omega⟩
  refine ⟨_, divideByZeroProgram_run c hc n, ?_, ?_, ?_, ?_⟩
  · decide
  · decide
  · intro k hk
    by_cases h1 : k = 1
    · subst h1; decide
    · simp [Function.update, hk, h1]
  · intro b; rfl

theorem C1_divide_modulo_by_zero_witness :
    sampleCodes.Distinct ∧
    ((divideByZeroProgram sampleCodes) 2).op = sampleCodes.INT_SET_VARIABLE_DIVIDE ∧
    ((divideByZeroProgram sampleCodes) 2).name3 = ((1 : Fin MAX_VARIABLES) : Int) ∧
    Memory.zero.Integers 1 = 0 ∧
    step sampleCodes (divideByZeroProgram sampleCodes) ((2 : Fin MAX_OPS) : Int) Memory.zero =
      .next (((2 : Fin MAX_OPS) : Int) + 1) Memory.zero :=
  ⟨by decide, rfl, rfl, rfl,
    (C1_divide_modulo_by_zero sampleCodes (by decide) (divideByZeroProgram sampleCodes) 2
      Memory.zero (Or.inl rfl) 1 rfl rfl).2.1⟩

/-- C2: `INT_IF_NEQ` with `Integers[0] = 0` and `Integers[1] = 1`, so that its condition
`int[name1] != int[name2]` is true: the `switch` leaves index 0 with `pc` assigned
`name3 = 5` (the loop goes on at 6) where the inversion rule asks for a fall-through
to index 1. -/
theorem C2_if_neq_true_condition_jumps :
    Memory.ramp.Integers 0 ≠ Memory.ramp.Integers 1 ∧
    execOp sampleCodes ((ifNeqProgram sampleCodes) 0) 0 Memory.ramp = .next 5 Memory.ramp ∧
    step sampleCodes (ifNeqProgram sampleCodes) 0 Memory.ramp = .next 6 Memory.ramp := by
  refine ⟨by decide, rfl, rfl⟩

/-- C3, as stated, fails: for `jump (name3 = 1); set-bit 0; end` the iteration at index 0
leaves the loop variable at 2, not at `name3 = 1`; the instruction at index 1 is never
executed and the cycle returns with `Bits[0]` still 0. -/
theorem C3_else_counterexample :
    ((elseProgram sampleCodes) 0).op = sampleCodes.INT_ELSE ∧
    ((elseProgram sampleCodes) 0).name3 = 1 ∧
    step sampleCodes (elseProgram sampleCodes) 0 Memory.zero = .next 2 Memory.zero ∧
    step sampleCodes (elseProgram sampleCodes) 0 Memory.zero ≠
      .next ((elseProgram sampleCodes) 0).name3 Memory.zero ∧
    InterpretOneCycle sampleCodes (elseProgram sampleCodes) 2 Memory.zero =
      .returned Memory.zero := by
  refine ⟨rfl, rfl, rfl, ?_, rfl⟩
  intro h
  have h2 : step sampleCodes (elseProgram sampleCodes) 0 Memory.zero = .next 2 Memory.zero := rfl
  rw [h2] at h
  injection h with h _
  exact absurd h (by decide)

/-- C3, amended: an `INT_ELSE` instruction at any index, with any operands and in any
memory state, assigns `pc := name3` and leaves memory alone; the increment of the `for`
statement then applies, so the next instruction executed is the one at index
`name3 + 1`. -/
theorem C3_else_jumps_past_name3 (c : IntCodes) (hc : c.Distinct) (prog : ProgramT)
    (i : Fin MAX_OPS) (m : Memory) (hop : (prog i).op = c.INT_ELSE) :
    execOp c (prog i) (i : Int) m = .next (prog i).name3 m ∧
    step c prog (i : Int) m = .next ((prog i).name3 + 1) m ∧
    ∀ fuel, run c prog (fuel + 1) (i : Int) m = run c prog fuel ((prog i).name3 + 1) m := by
  have he := execOp_else c hc (prog i) (i : Int) m hop
  have hs := step_of_next c prog (i : Int) i rfl m m _ he
  exact ⟨he, hs, fun fuel => run_of_next c prog fuel _ _ m m hs⟩

theorem C3_else_jumps_past_name3_witness :
    sampleCodes.Distinct ∧
    ((elseProgram sampleCodes) 0).op = sampleCodes.INT_ELSE ∧
    step sampleCodes (elseProgram sampleCodes) ((0 : Fin MAX_OPS) : Int) Memory.zero =
      .next (((elseProgram sampleCodes) 0).name3 + 1) Memory.zero :=
  ⟨by decide, rfl,
    (C3_else_jumps_past_name3 sampleCodes (by decide) (elseProgram sampleCodes) 0
      Memory.zero rfl).2.1⟩

/-- C4: with `name1`, `name2`, `name3` valid indices of `Integers`, add, subtract and
multiply store in `Integers[name1]` the exact result on the prior values of
`Integers[name2]` and `Integers[name3]` reduced to 32-bit two's complement (`wrap32 x`
is the value of the `int32_t` range congruent to `x` modulo `2^32`, and is `x` when `x`
is in range); divide and modulo with a nonzero divisor, the pair `INT32_MIN / -1` apart,
store the quotient `q` and the remainder `r` with `a = q * b + r`, `|r| < |b|` and `r` of
the sign of the dividend `a`.  Both sources are read in the prior memory, whichever cells
`name1` aliases. -/
theorem C4_arithmetic (c : IntCodes) (hc : c.Distinct) (prog : ProgramT) (i : Fin MAX_OPS)
    (m : Memory)
    (i1 : Fin MAX_VARIABLES) (h1 : (prog i).name1 = (i1 : Int))
    (i2 : Fin MAX_VARIABLES) (h2 : (prog i).name2 = (i2 : Int))
    (i3 : Fin MAX_VARIABLES) (h3 : (prog i).name3 = (i3 : Int)) :
    (∀ x, IsInt32 (wrap32 x) ∧ (wrap32 x - x) % 2 ^ 32 = 0 ∧ (IsInt32 x → wrap32 x = x)) ∧
    ((prog i).op = c.INT_SET_VARIABLE_ADD →
      step c prog (i : Int) m = .next ((i : Int) + 1)
        ⟨m.Bits, Function.update m.Integers i1 (wrap32 (m.Integers i2 + m.Integers i3))⟩) ∧
    ((prog i).op = c.INT_SET_VARIABLE_SUBTRACT →
      step c prog (i : Int) m = .next ((i : Int) + 1)
        ⟨m.Bits, Function.update m.Integers i1 (wrap32 (m.Integers i2 - m.Integers i3))⟩) ∧
    ((prog i).op = c.INT_SET_VARIABLE_MULTIPLY →
      step c prog (i : Int) m = .next ((i : Int) + 1)
        ⟨m.Bits, Function.update m.Integers i1 (wrap32 (m.Integers i2 * m.Integers i3))⟩) ∧
    (m.Integers i3 ≠ 0 → quotientFits (m.Integers i2) (m.Integers i3) →
      ∃ q r : Int,
        m.Integers i2 = q * m.Integers i3 + r ∧ |r| < |m.Integers i3| ∧
        (0 ≤ m.Integers i2 → 0 ≤ r) ∧ (m.Integers i2 ≤ 0 → r ≤ 0) ∧
        (IsInt32 (m.Integers i2) → IsInt32 q ∧ IsInt32 r) ∧
        ((prog i).op = c.INT_SET_VARIABLE_DIVIDE →
          step c prog (i : Int) m = .next ((i : Int) + 1)
            ⟨m.Bits, Function.update m.Integers i1 q⟩) ∧
        ((prog i).op = c.INT_SET_VARIABLE_MOD →
          step c prog (i : Int) m = .next ((i : Int) + 1)
            ⟨m.Bits, Function.update m.Integers i1 r⟩)) := by
  refine ⟨fun x => ⟨wrap32_isInt32 x, wrap32_congr x, wrap32_of_isInt32 x⟩, ?_, ?_, ?_, ?_⟩
  · intro hop
    exact step_of_next c prog _ i rfl m _ _ (execOp_add c hc _ _ m hop i1 h1 i2 h2 i3 h3)
  · intro hop
    exact step_of_next c prog _ i rfl m _ _ (execOp_subtract c hc _ _ m hop i1 h1 i2 h2 i3 h3)
  · intro hop
    exact step_of_next c prog _ i rfl m _ _ (execOp_multiply c hc _ _ m hop i1 h1 i2 h2 i3 h3)
  · intro hnz hq
    refine ⟨Int.tdiv (m.Integers i2) (m.Integers i3), Int.tmod (m.Integers i2) (m.Integers i3),
      ?_, tmod_abs_lt _ _ hnz, Int.tmod_nonneg _, tmod_nonpos _ _,
      fun ha => ⟨tdiv_isInt32 _ _ ha hq, tmod_isInt32 _ _ ha⟩, ?_, ?_⟩
    · exact (Int.tdiv_add_tmod' _ _).symm
    · intro hop
      exact step_of_next c prog _ i rfl m _ _
        (execOp_divide c hc _ _ m hop i1 h1 i2 h2 i3 h3 hnz hq)
    · intro hop
      exact step_of_next c prog _ i rfl m _ _
        (execOp_modulo c hc _ _ m hop i1 h1 i2 h2 i3 h3 hnz hq)

theorem C4_arithmetic_witness :
    sampleCodes.Distinct ∧
    ((singleProgram sampleCodes ⟨sampleCodes.INT_SET_VARIABLE_ADD, 0, 1, 2, 0⟩) 0).name1
      = ((0 : Fin MAX_VARIABLES) : Int) ∧
    ((singleProgram sampleCodes ⟨sampleCodes.INT_SET_VARIABLE_ADD, 0, 1, 2, 0⟩) 0).name2
      = ((1 : Fin MAX_VARIABLES) : Int) ∧
    ((singleProgram sampleCodes ⟨sampleCodes.INT_SET_VARIABLE_ADD, 0, 1, 2, 0⟩) 0).name3
      = ((2 : Fin MAX_VARIABLES) : Int) ∧
    step sampleCodes (singleProgram sampleCodes ⟨sampleCodes.INT_SET_VARIABLE_ADD, 0, 1, 2, 0⟩)
        ((0 : Fin MAX_OPS) : Int) Memory.ramp =
      .next (((0 : Fin MAX_OPS) : Int) + 1)
        ⟨Memory.ramp.Bits, Function.update Memory.ramp.Integers 0
          (wrap32 (Memory.ramp.Integers 1 + Memory.ramp.Integers 2))⟩ :=
  ⟨by decide, rfl, rfl, rfl,
    (C4_arithmetic sampleCodes (by decide)
      (singleProgram sampleCodes ⟨sampleCodes.INT_SET_VARIABLE_ADD, 0, 1, 2, 0⟩) 0 Memory.ramp
      0 rfl 1 rfl 2 rfl).2.1 rfl⟩

/-- C5: with valid indices of `Bits`, `INT_SET_BIT` stores 1 and `INT_CLEAR_BIT` stores 0
in `Bits[name1]`, `INT_COPY_BIT_TO_BIT` stores there the value `Bits[name2]` had before the
instruction; nothing else changes and the loop goes on with the next instruction. -/
theorem C5_bit_assignment (c : IntCodes) (hc : c.Distinct) (prog : ProgramT) (i : Fin MAX_OPS)
    (m : Memory) (i1 : Fin MAX_INTERNAL_RELAYS) (h1 : (prog i).name1 = (i1 : Int)) :
    ((prog i).op = c.INT_SET_BIT →
      step c prog (i : Int) m = .next ((i : Int) + 1) ⟨Function.update m.Bits i1 1, m.Integers⟩) ∧
    ((prog i).op = c.INT_CLEAR_BIT →
      step c prog (i : Int) m = .next ((i : Int) + 1) ⟨Function.update m.Bits i1 0, m.Integers⟩) ∧
    ((prog i).op = c.INT_COPY_BIT_TO_BIT →
      ∀ i2 : Fin MAX_INTERNAL_RELAYS, (prog i).name2 = (i2 : Int) →
        step c prog (i : Int) m =
          .next ((i : Int) + 1) ⟨Function.update m.Bits i1 (m.Bits i2), m.Integers⟩) := by
  refine ⟨?_, ?_, ?_⟩
  · intro hop
    exact step_of_next c prog _ i rfl m _ _ (execOp_set_bit c hc _ _ m hop i1 h1)
  · intro hop
    exact step_of_next c prog _ i rfl m _ _ (execOp_clear_bit c hc _ _ m hop i1 h1)
  · intro hop i2 h2
    exact step_of_next c prog _ i rfl m _ _ (execOp_copy_bit c hc _ _ m hop i1 h1 i2 h2)

theorem C5_bit_assignment_witness :
    sampleCodes.Distinct ∧
    ((singleProgram sampleCodes ⟨sampleCodes.INT_COPY_BIT_TO_BIT, 4, 7, 0, 0⟩) 0).name1
      = ((4 : Fin MAX_INTERNAL_RELAYS) : Int) ∧
    step sampleCodes (singleProgram sampleCodes ⟨sampleCodes.INT_COPY_BIT_TO_BIT, 4, 7, 0, 0⟩)
        ((0 : Fin MAX_OPS) : Int) Memory.ramp =
      .next (((0 : Fin MAX_OPS) : Int) + 1)
        ⟨Function.update Memory.ramp.Bits 4 (Memory.ramp.Bits 7), Memory.ramp.Integers⟩ :=
  ⟨by decide, rfl,
    (C5_bit_assignment sampleCodes (by decide)
      (singleProgram sampleCodes ⟨sampleCodes.INT_COPY_BIT_TO_BIT, 4, 7, 0, 0⟩) 0 Memory.ramp
      4 rfl).2.2 rfl 7 rfl⟩

/-- C7: `INT_AllocFwdAddr`, `INT_AllocKnownAddr` and `INT_FwdAddrIsNow`, with any values
of `name1`, `name2`, `name3` and `literal1` (no operand is used as an index) and in any
memory state, leave `Bits` and `Integers` as they are and move `pc` on by exactly one. -/
theorem C7_markers_are_no_ops (c : IntCodes) (hc : c.Distinct) (prog : ProgramT)
    (i : Fin MAX_OPS) (m : Memory)
    (hop : (prog i).op = c.INT_AllocFwdAddr ∨ (prog i).op = c.INT_AllocKnownAddr ∨
      (prog i).op = c.INT_FwdAddrIsNow) :
    step c prog (i : Int) m = .next ((i : Int) + 1) m :=
  step_of_next c prog _ i rfl m _ _ (execOp_marker c hc _ _ m hop)

theorem C7_markers_are_no_ops_witness :
    sampleCodes.Distinct ∧
    ((singleProgram sampleCodes ⟨sampleCodes.INT_AllocKnownAddr, -5, 9999, -32768, 123456⟩) 0).op
      = sampleCodes.INT_AllocKnownAddr ∧
    step sampleCodes
        (singleProgram sampleCodes ⟨sampleCodes.INT_AllocKnownAddr, -5, 9999, -32768, 123456⟩)
        ((0 : Fin MAX_OPS) : Int) Memory.ramp =
      .next (((0 : Fin MAX_OPS) : Int) + 1) Memory.ramp :=
  ⟨by decide, rfl,
    C7_markers_are_no_ops sampleCodes (by decide)
      (singleProgram sampleCodes ⟨sampleCodes.INT_AllocKnownAddr, -5, 9999, -32768, 123456⟩) 0
      Memory.ramp (Or.inr (Or.inl rfl))⟩

/-- C8: an instruction whose opcode is none of the `case` labels, with any operands and in
any memory state, raises no fault, leaves `Bits` and `Integers` as they are and moves `pc`
on by one; and the program made of such an instruction followed by `INT_END_OF_PROGRAM`
returns from its cycle with the memory it started with. -/
theorem C8_unrecognized_opcode (c : IntCodes) (hc : c.Distinct) (prog : ProgramT)
    (i : Fin MAX_OPS) (m : Memory) (hop : (prog i).op ∉ c.labels) :
    step c prog (i : Int) m = .next ((i : Int) + 1) m ∧
    ∀ fuel, 2 ≤ fuel →
      InterpretOneCycle c (singleProgram c (prog i)) fuel m = .returned m := by
  refine ⟨step_of_next c prog _ i rfl m _ _ (execOp_unsupported c _ _ m hop), ?_⟩
  intro fuel hfuel
  obtain ⟨n, rfl⟩ : ∃ n, fuel = n + 2 := ⟨fuel - 2, by omega⟩
  have s0 : step c (singleProgram c (prog i)) 0 m = .next 1 m :=
    step_of_next c (singleProgram c (prog i)) 0 0 rfl m m 0
      (execOp_unsupported c _ 0 m hop)
  have s1 : step c (singleProgram c (prog i)) 1 m = .returned m :=
    step_of_returned c (singleProgram c (prog i)) 1 1 rfl m m
      (execOp_end c hc _ 1 m rfl)
  calc InterpretOneCycle c (singleProgram c (prog i)) (n + 2) m
      = run c (singleProgram c (prog i)) (n + 1) 1 m := run_of_next c _ (n + 1) 0 1 m m s0
    _ = .returned m := run_of_returned c _ n 1 m m s1

theorem C8_unrecognized_opcode_witness :
    sampleCodes.Distinct ∧
    ((singleProgram sampleCodes ⟨99, -1, 500, 7, 3⟩) 0).op ∉ sampleCodes.labels ∧
    InterpretOneCycle sampleCodes
      (singleProgram sampleCodes ((singleProgram sampleCodes ⟨99, -1, 500, 7, 3⟩) 0)) 2
      Memory.ramp = .returned Memory.ramp :=
  ⟨by decide, by decide,
    (C8_unrecognized_opcode sampleCodes (by decide)
      (singleProgram sampleCodes ⟨99, -1, 500, 7, 3⟩) 0 Memory.ramp (by decide)).2 2
      (Nat.le_refl 2)⟩

/-- C9: a call of `InterpretOneCycle` starts at `pc = 0`, and when the instructions at the
indices below `k` are straight ones (bit or integer assignment, arithmetic, marker or
unrecognized: no conditional, no jump, and no end marker, which would end the cycle
there) and the instruction at `k` is `INT_END_OF_PROGRAM`, the cycle returns with the
memory that results from the instructions `0 .. k-1` applied once each, in order (or
stops at the first of them that is undefined in C).  The outcome is the same for every
program with the same instructions at `0 .. k`; with `k = 0` it is the starting memory. -/
theorem C9_cycle_runs_to_first_end (c : IntCodes) (hc : c.Distinct) (prog : ProgramT)
    (k : Fin MAX_OPS)
    (hstraight : ∀ i : Fin MAX_OPS, i.val < k.val → (c.decode (prog i).op).straight = true)
    (hend : (prog k).op = c.INT_END_OF_PROGRAM) (m : Memory) (fuel : Nat)
    (hfuel : k.val < fuel) :
    InterpretOneCycle c prog fuel m = run c prog fuel 0 m ∧
    InterpretOneCycle c prog fuel m = cycleResult (applyOps c (slots prog 0 k.val) m) ∧
    (∀ m1, applyOps c (slots prog 0 k.val) m = .ok m1 →
      InterpretOneCycle c prog fuel m = .returned m1) ∧
    (∀ prog1 : ProgramT, (∀ i : Fin MAX_OPS, i.val ≤ k.val → prog1 i = prog i) →
      InterpretOneCycle c prog1 fuel m = InterpretOneCycle c prog fuel m) ∧
    (k.val = 0 → InterpretOneCycle c prog fuel m = .returned m) := by
  have main : ∀ prog1 : ProgramT, (∀ i : Fin MAX_OPS, i.val ≤ k.val → prog1 i = prog i) →
      InterpretOneCycle c prog1 fuel m = cycleResult (applyOps c (slots prog 0 k.val) m) := by
    intro prog1 h1
    have e := run_straight c hc prog1 k (by rw [h1 k (Nat.le_refl _)]; exact hend) k.val 0
      (by simp) (fun i _ h2 => by rw [h1 i (by omega)]; exact hstraight i h2) m fuel hfuel
    rw [slots_congr prog prog1 k.val 0 (fun i _ h2 => h1 i (by omega))] at e
    exact e
  have h0 := main prog (fun _ _ => rfl)
  refine ⟨rfl, h0, ?_, ?_, ?_⟩
  · intro m1 hm1
    rw [h0, hm1]
    rfl
  · intro prog1 h1
    rw [main prog1 h1, h0]
  · intro hk
    rw [h0, hk]
    rfl

theorem C9_cycle_runs_to_first_end_witness :
    sampleCodes.Distinct ∧
    (∀ i : Fin MAX_OPS, i.val < (3 : Fin MAX_OPS).val →
      (sampleCodes.decode ((divideByZeroProgram sampleCodes) i).op).straight = true) ∧
    ((divideByZeroProgram sampleCodes) 3).op = sampleCodes.INT_END_OF_PROGRAM ∧
    (3 : Fin MAX_OPS).val < 4 ∧
    InterpretOneCycle sampleCodes (divideByZeroProgram sampleCodes) 4 Memory.zero =
      cycleResult (applyOps sampleCodes
        (slots (divideByZeroProgram sampleCodes) 0 (3 : Fin MAX_OPS).val) Memory.zero) :=
  have hst : ∀ i : Fin MAX_OPS, i.val < (3 : Fin MAX_OPS).val →
      (sampleCodes.decode ((divideByZeroProgram sampleCodes) i).op).straight = true := by
    intro i hi
    obtain ⟨v, hv⟩ := i
    have hv3 : v < 3 := hi
    interval_cases v <;> rfl
  ⟨by decide, hst, rfl, by decide,
    (C9_cycle_runs_to_first_end sampleCodes (by decide) (divideByZeroProgram sampleCodes) 3
      hst rfl Memory.zero 4 (by decide)).2.1⟩

/-- C10: for the program `[INT_INCREMENT_VARIABLE name1 = a; INT_END_OF_PROGRAM]` with `a` a
valid index of `Integers`, any starting memory (its cell `a` an `int32_t` value) and any
`k`, `k` calls of `InterpretOneCycle` in a row all return, and leave in `Integers[a]` its
starting value plus `k` reduced to 32 bits and in every other cell what it held; from
zeroed memory ten cycles give `Integers[a] = 10`. -/
theorem C10_memory_persists_across_cycles (c : IntCodes) (hc : c.Distinct) (p : BinOp)
    (hop : p.op = c.INT_INCREMENT_VARIABLE) (a : Fin MAX_VARIABLES) (ha : p.name1 = (a : Int))
    (fuel : Nat) (hfuel : 2 ≤ fuel) :
    (∀ (m : Memory) (k : Nat), IsInt32 (m.Integers a) →
      runCycles c (singleProgram c p) fuel k m =
        .returned ⟨m.Bits, Function.update m.Integers a (wrap32 (m.Integers a + k))⟩) ∧
    (∀ (m : Memory) (k : Nat), IsInt32 (m.Integers a) →
      ∃ m1, runCycles c (singleProgram c p) fuel k m = .returned m1 ∧
        m1.Integers a = wrap32 (m.Integers a + k) ∧
        (∀ j, j ≠ a → m1.Integers j = m.Integers j) ∧ m1.Bits = m.Bits) ∧
    ∃ m1, runCycles c (singleProgram c p) fuel 10 Memory.zero = .returned m1 ∧
      m1.Integers a = 10 := by
  obtain ⟨n, rfl⟩ : ∃ n, fuel = n + 2 := ⟨fuel - 2, by omega⟩
  have main : ∀ (m : Memory) (k : Nat), IsInt32 (m.Integers a) →
      runCycles c (singleProgram c p) (n + 2) k m =
        .returned ⟨m.Bits, Function.update m.Integers a (wrap32 (m.Integers a + k))⟩ := by
    intro m k hm
    induction k with
    | zero =>
      simp only [runCycles, Nat.cast_zero, add_zero]
      rw [wrap32_of_isInt32 _ hm, Function.update_eq_self]
    | succ k ih =>
      simp only [runCycles, ih]
      rw [increment_cycle c hc p hop a ha _ n]
      simp only [Function.update_same, Function.update_idem]
      rw [wrap32_add_wrap32]
      push_cast
      rw [add_assoc]
  refine ⟨main, ?_, ?_⟩
  · intro m k hm
    refine ⟨_, main m k hm, ?_, ?_, rfl⟩
    · simp
    · intro j hj
      simp [Function.update, hj]
  · have hz : Memory.zero.Integers a = 0 := rfl
    refine ⟨_, main Memory.zero 10 (by rw [hz]; decide), ?_⟩
    simp only [Function.update_same]
    rw [hz]
    decide

theorem C10_memory_persists_across_cycles_witness :
    sampleCodes.Distinct ∧ 2 ≤ 2 ∧
    ∃ m1, runCycles sampleCodes
        (singleProgram sampleCodes ⟨sampleCodes.INT_INCREMENT_VARIABLE, 5, 0, 0, 0⟩) 2 10
        Memory.zero = .returned m1 ∧ m1.Integers 5 = 10 :=
  ⟨by decide, by decide,
    (C10_memory_persists_across_cycles sampleCodes (by decide)
      ⟨sampleCodes.INT_INCREMENT_VARIABLE, 5, 0, 0, 0⟩ rfl 5 rfl 2 (by decide)).2.2⟩

/-! ## Frame of one instruction -/

theorem update_frame {n : Nat} {α : Type} (f : Fin n → α) (i : Fin n) (v : α) (a : Int)
    (ha : a = (i : Int)) (k : Fin n) (hk : (k : Int) ≠ a) : Function.update f i v k = f k := by
  have : k ≠ i := by
    intro h
    subst h
    exact hk ha.symm
  simp [Function.update, this]

theorem setBit_frame (pc : Int) (m : Memory) (a : Int) (v : Nat) (pc1 : Int) (m1 : Memory)
    (h : setBit pc m a v = .next pc1 m1) :
    pc1 = pc ∧ m1.Integers = m.Integers ∧ ∀ k : Fin MAX_INTERNAL_RELAYS, (k : Int) ≠ a →
      m1.Bits k = m.Bits k := by
  unfold setBit at h
  split at h
  · rename_i i hi
    injection h with h1 h2
    subst h2
    exact ⟨h1.symm, rfl, fun k hk => update_frame _ i v a (cell_some _ _ _ hi) k hk⟩
  · exact absurd h (by simp)

theorem setInt_frame (pc : Int) (m : Memory) (a : Int) (v : Int) (pc1 : Int) (m1 : Memory)
    (h : setInt pc m a v = .next pc1 m1) :
    pc1 = pc ∧ m1.Bits = m.Bits ∧ ∀ k : Fin MAX_VARIABLES, (k : Int) ≠ a →
      m1.Integers k = m.Integers k := by
  unfold setInt at h
  split at h
  · rename_i i hi
    injection h with h1 h2
    subst h2
    exact ⟨h1.symm, rfl, fun k hk => update_frame _ i v a (cell_some _ _ _ hi) k hk⟩
  · exact absurd h (by simp)

theorem setBit_not_returned (pc : Int) (m : Memory) (a : Int) (v : Nat) (m1 : Memory) :
    setBit pc m a v ≠ .returned m1 := by
  unfold setBit; split <;> simp

theorem setInt_not_returned (pc : Int) (m : Memory) (a : Int) (v : Int) (m1 : Memory) :
    setInt pc m a v ≠ .returned m1 := by
  unfold setInt; split <;> simp

/-- The memory a `case` leaves, when it leaves one. -/
theorem execOp_frame (c : IntCodes) (p : BinOp) (pc : Int) (m m1 : Memory)
    (h : (∃ pc1, execOp c p pc m = .next pc1 m1) ∨ execOp c p pc m = .returned m1) :
    ((c.decode p.op).writesBits = true →
      m1.Integers = m.Integers ∧
      ∀ k : Fin MAX_INTERNAL_RELAYS, (k : Int) ≠ p.name1 → m1.Bits k = m.Bits k) ∧
    ((c.decode p.op).writesIntegers = true →
      m1.Bits = m.Bits ∧
      ∀ k : Fin MAX_VARIABLES, (k : Int) ≠ p.name1 → m1.Integers k = m.Integers k) ∧
    ((c.decode p.op).writesBits = false → (c.decode p.op).writesIntegers = false →
      m1 = m) := by
  unfold execOp at h
  cases hd : c.decode p.op <;> rw [hd] at h <;>
    simp only [Opcode.writesBits, Opcode.writesIntegers, withBit, withInt] at h ⊢ <;>
    simp only [true_implies, false_implies, and_true, true_and, Bool.false_eq_true,
      Bool.true_eq_false, IsEmpty.forall_iff, implies_true] <;>
    (rcases h with ⟨pc1, h⟩ | h) <;>
    (repeat' split at h) <;>
    first
    | exact (setBit_frame _ _ _ _ _ _ h).2
    | exact (setInt_frame _ _ _ _ _ _ h).2
    | exact absurd h (setBit_not_returned _ _ _ _ _)
    | exact absurd h (setInt_not_returned _ _ _ _ _)
    | (cases h <;> first | rfl | exact ⟨rfl, fun _ _ => rfl⟩)

theorem cell_inRange (n : Nat) (a : Int) (h : 0 ≤ a ∧ a < (n : Int)) :
    ∃ i : Fin n, cell n a = some i := by
  unfold cell
  rw [dif_pos h]
  exact ⟨_, rfl⟩

/-- With valid indices a `case` leaves a memory, the quotient that does not fit apart. -/
theorem execOp_defined (c : IntCodes) (p : BinOp) (pc : Int) (m : Memory)
    (h : addressesValid c p) :
    (∃ pc1 m1, execOp c p pc m = .next pc1 m1) ∨ (∃ m1, execOp c p pc m = .returned m1) ∨
      execOp c p pc m = .fault .quotient := by
  unfold addressesValid at h
  unfold execOp
  cases hd : c.decode p.op <;> rw [hd] at h <;>
    simp only [inBits, inIntegers, MAX_INTERNAL_RELAYS, MAX_VARIABLES, Nat.cast_ofNat] at h <;>
    simp only [withBit, withInt, setBit, setInt]
  all_goals simp [cell, h]
  all_goals (split_ifs <;> simp)

theorem increment_next (o : Outcome) (pc1 : Int) (m1 : Memory)
    (h : o.increment = .next pc1 m1) : ∃ pc0, o = .next pc0 m1 := by
  cases o with
  | next pc0 m0 =>
    simp only [Outcome.increment] at h
    injection h with _ h2
    exact ⟨pc0, by rw [h2]⟩
  | returned m0 => simp [Outcome.increment] at h
  | fault f => simp [Outcome.increment] at h

theorem increment_returned (o : Outcome) (m1 : Memory)
    (h : o.increment = .returned m1) : o = .returned m1 := by
  cases o with
  | next pc0 m0 => simp [Outcome.increment] at h
  | returned m0 => simpa [Outcome.increment] using h
  | fault f => simp [Outcome.increment] at h

theorem setBit_cycle (c : IntCodes) (hc : c.Distinct) (p : BinOp)
    (hop : p.op = c.INT_SET_BIT) (a : Fin MAX_INTERNAL_RELAYS) (ha : p.name1 = (a : Int))
    (m : Memory) (n : Nat) :
    InterpretOneCycle c (singleProgram c p) (n + 2) m =
      .returned ⟨Function.update m.Bits a 1, m.Integers⟩ := by
  have s0 := step_of_next c (singleProgram c p) 0 0 rfl m _ 0
    (execOp_set_bit c hc _ 0 m hop a ha)
  have s1 := step_of_returned c (singleProgram c p) 1 1 rfl
    ⟨Function.update m.Bits a 1, m.Integers⟩ _ (execOp_end c hc _ 1 _ rfl)
  calc InterpretOneCycle c (singleProgram c p) (n + 2) m
      = run c (singleProgram c p) (n + 1) 1 ⟨Function.update m.Bits a 1, m.Integers⟩ :=
        run_of_next c _ (n + 1) 0 1 m _ s0
    _ = _ := run_of_returned c _ n 1 _ _ s1

/-- C11: an instruction changes at most its destination cell, and the two arrays are
apart.  Whenever the iteration for the instruction at index `i` leaves a memory `m1`: for
a bit assignment, `Integers` is as before and so is every cell of `Bits` other than
`Bits[name1]`; for an integer assignment or an arithmetic instruction, `Bits` is as before
and so is every cell of `Integers` other than `Integers[name1]`; for every other opcode
(conditional, jump, end, marker, unrecognized) `m1` is the memory before.  With valid
indices the iteration does leave a memory (the quotient `INT32_MIN / -1` apart).  The
program `set-bit(addr = 0); end-of-program`, run for one cycle from zeroed memory, returns
with `Bits[0] = 1` and every other cell of `Bits` and `Integers` zero. -/
theorem C11_one_destination_cell (c : IntCodes) (hc : c.Distinct) (prog : ProgramT)
    (i : Fin MAX_OPS) (m : Memory) :
    (∀ m1, ((∃ pc1, step c prog (i : Int) m = .next pc1 m1) ∨
        step c prog (i : Int) m = .returned m1) →
      ((c.decode (prog i).op).writesBits = true →
        m1.Integers = m.Integers ∧
        ∀ k : Fin MAX_INTERNAL_RELAYS, (k : Int) ≠ (prog i).name1 → m1.Bits k = m.Bits k) ∧
      ((c.decode (prog i).op).writesIntegers = true →
        m1.Bits = m.Bits ∧
        ∀ k : Fin MAX_VARIABLES, (k : Int) ≠ (prog i).name1 → m1.Integers k = m.Integers k) ∧
      ((c.decode (prog i).op).writesBits = false →
        (c.decode (prog i).op).writesIntegers = false → m1 = m)) ∧
    (addressesValid c (prog i) →
      (∃ pc1 m1, step c prog (i : Int) m = .next pc1 m1) ∨
      (∃ m1, step c prog (i : Int) m = .returned m1) ∨
      step c prog (i : Int) m = .fault .quotient) ∧
    ∀ fuel, 2 ≤ fuel →
      ∃ m1, InterpretOneCycle c (singleProgram c ⟨c.INT_SET_BIT, 0, 0, 0, 0⟩) fuel Memory.zero =
          .returned m1 ∧
        m1.Bits 0 = 1 ∧ (∀ k, k ≠ 0 → m1.Bits k = 0) ∧ ∀ k, m1.Integers k = 0 := by
  refine ⟨?_, ?_, ?_⟩
  · intro m1 h
    apply execOp_frame c (prog i) (i : Int) m m1
    rw [step_at c prog _ i rfl] at h
    rcases h with ⟨pc1, h⟩ | h
    · exact Or.inl (increment_next _ _ _ h)
    · exact Or.inr (increment_returned _ _ h)
  · intro hv
    rw [step_at c prog _ i rfl]
    rcases execOp_defined c (prog i) (i : Int) m hv with ⟨pc1, m1, h⟩ | ⟨m1, h⟩ | h
    · exact Or.inl ⟨pc1 + 1, m1, by rw [h]; rfl⟩
    · exact Or.inr (Or.inl ⟨m1, by rw [h]; rfl⟩)
    · exact Or.inr (Or.inr (by rw [h]; rfl))
  · intro fuel hfuel
    obtain ⟨n, rfl⟩ : ∃ n, fuel = n + 2 := ⟨fuel - 2, by omega⟩
    refine ⟨_, setBit_cycle c hc _ rfl 0 rfl Memory.zero n, ?_, ?_, ?_⟩
    · simp
    · intro k hk
      simp [Function.update, hk, Memory.zero]
    · intro k
      rfl

theorem C11_one_destination_cell_witness :
    sampleCodes.Distinct ∧
    ∃ m1, InterpretOneCycle sampleCodes
        (singleProgram sampleCodes ⟨sampleCodes.INT_SET_BIT, 0, 0, 0, 0⟩) 2 Memory.zero =
          .returned m1 ∧
        m1.Bits 0 = 1 ∧ (∀ k, k ≠ 0 → m1.Bits k = 0) ∧ ∀ k, m1.Integers k = 0 :=
  ⟨by decide,
    (C11_one_destination_cell sampleCodes (by decide)
      (singleProgram sampleCodes ⟨sampleCodes.INT_SET_BIT, 0, 0, 0, 0⟩) 0 Memory.zero).2.2 2
      (Nat.le_refl 2)⟩

/-! # Properties of the loader -/

/-! ## Hexadecimal digits -/

theorem HexDigit_spec (c : Int) :
    (48 ≤ c ∧ c ≤ 57 → HexDigit c = some (c - 48).toNat) ∧
    (97 ≤ c ∧ c ≤ 102 → HexDigit c = some (c - 87).toNat) ∧
    (65 ≤ c ∧ c ≤ 70 → HexDigit c = some (c - 55).toNat) ∧
    (¬ (48 ≤ c ∧ c ≤ 57) → ¬ (97 ≤ c ∧ c ≤ 102) → ¬ (65 ≤ c ∧ c ≤ 70) → HexDigit c = none) := by
  refine ⟨?_, ?_, ?_, ?_⟩
  · intro h
    have h1 : ¬ (65 ≤ c ∧ c ≤ 90) := by omega
    simp [HexDigit, tolower, isdigit, h1, h]
  · intro h
    have h1 : ¬ (65 ≤ c ∧ c ≤ 90) := by omega
    have h2 : ¬ (48 ≤ c ∧ c ≤ 57) := by omega
    simp only [HexDigit, tolower, isdigit, h1, h2, if_false, decide_False, h, ge_iff_le,
      and_self, if_true, Bool.false_eq_true]
    congr 1
    omega
  · intro h
    have h1 : (65 ≤ c ∧ c ≤ 90) := by omega
    have h2 : ¬ (48 ≤ c + 32 ∧ c + 32 ≤ 57) := by omega
    have h3 : 97 ≤ c + 32 ∧ c + 32 ≤ 102 := by omega
    simp only [HexDigit, tolower, isdigit, h1, h2, h3, if_false, decide_False, ge_iff_le,
      and_self, if_true, Bool.false_eq_true]
    congr 1
    omega
  · intro h1 h2 h3
    by_cases hu : 65 ≤ c ∧ c ≤ 90
    · have h4 : ¬ (48 ≤ c + 32 ∧ c + 32 ≤ 57) := by omega
      have h5 : ¬ (97 ≤ c + 32 ∧ c + 32 ≤ 102) := by omega
      simp [HexDigit, tolower, isdigit, hu, h4, h5]
    · simp [HexDigit, tolower, isdigit, hu, h1, h2]

theorem HexDigit_lt (c : Int) (v : Nat) (h : HexDigit c = some v) : v < 16 := by
  by_cases h1 : 48 ≤ c ∧ c ≤ 57
  · rw [(HexDigit_spec c).1 h1] at h
    injection h with h
    omega
  by_cases h2 : 97 ≤ c ∧ c ≤ 102
  · rw [(HexDigit_spec c).2.1 h2] at h
    injection h with h
    omega
  by_cases h3 : 65 ≤ c ∧ c ≤ 70
  · rw [(HexDigit_spec c).2.2.1 h3] at h
    injection h with h
    omega
  · rw [(HexDigit_spec c).2.2.2 h1 h2 h3] at h
    exact absurd h (by simp)

theorem nibbles (lo hi : Nat) (hlo : lo < 16) (hhi : hi < 16) :
    (lo ||| (hi <<< 4)) % 256 = 16 * hi + lo := by
  interval_cases hi <;> interval_cases lo <;> rfl

/-! ## Lines of a text -/

theorem fgetsFrom_line (body rest : List Char) :
    ∀ cur : List Char, '\n' ∉ body → cur.length + body.length + 1 ≤ 79 →
      fgetsFrom (body ++ '\n' :: rest) cur = (cur ++ body ++ ['\n']) :: fgetsFrom rest [] := by
  induction body with
  | nil =>
    intro cur _ _
    simp [fgetsFrom]
  | cons ch b ih =>
    intro cur hnl hlen
    have hch : ch ≠ '\n' := fun h => hnl (by simp [h])
    have hb : '\n' ∉ b := fun h => hnl (by simp [h])
    have h79 : ¬ (cur.length + 1 = 79) := by
      simp only [List.length_cons] at hlen
      omega
    simp only [List.cons_append, fgetsFrom, hch, h79, or_self, if_false]
    have hl2 : (cur ++ [ch]).length + b.length + 1 ≤ 79 := by
      simp only [List.length_append, List.length_cons, List.length_nil] at hlen ⊢
      omega
    have e := ih (cur ++ [ch]) hb hl2
    show fgetsFrom (b ++ '\n' :: rest) (cur ++ [ch]) = _
    rw [e]
    simp

theorem fgetsAll_lines (lines : List (List Char)) (rest : List Char)
    (h : ∀ l ∈ lines, IsLine l) :
    fgetsAll (lines.flatten ++ rest) = lines ++ fgetsAll rest := by
  induction lines with
  | nil => simp
  | cons l ls ih =>
    obtain ⟨body, rfl, hnl, hlen⟩ := h l (by simp)
    have e : fgetsAll ((body ++ ['\n']) ++ (ls.flatten ++ rest)) =
        (body ++ ['\n']) :: fgetsAll (ls.flatten ++ rest) := by
      have := fgetsFrom_line body (ls.flatten ++ rest) [] hnl (by simpa using hlen)
      simpa [fgetsAll] using this
    simp only [List.flatten_cons, List.append_assoc, List.cons_append]
    rw [← ih (fun x hx => h x (by simp [hx]))]
    simpa [List.append_assoc] using e

/-! ## The string in the array -/

theorem cString_eq_self (l : List Char) (h : ∀ ch ∈ l, ch.toNat ≠ 0) : cString l = l := by
  unfold cString
  rw [List.takeWhile_eq_self_iff]
  intro ch hch
  simpa using h ch hch

theorem cString_append_nul (l rest : List Char) (h : ∀ ch ∈ l, ch.toNat ≠ 0) :
    cString (l ++ Char.ofNat 0 :: rest) = l := by
  unfold cString
  induction l with
  | nil => simp [List.takeWhile]
  | cons a l ih =>
    have ha : a.toNat ≠ 0 := h a (by simp)
    simp only [List.cons_append, List.takeWhile_cons, ha, ne_eq, not_false_eq_true,
      decide_True, if_true]
    rw [ih (fun ch hch => h ch (by simp [hch]))]

theorem cString_append (l r : List Char) (h : ∀ ch ∈ l, ch.toNat ≠ 0) :
    cString (l ++ r) = l ++ cString r := by
  unfold cString
  induction l with
  | nil => rfl
  | cons a l ih =>
    have ha : a.toNat ≠ 0 := h a (by simp)
    simp only [List.cons_append, List.takeWhile_cons, ha, ne_eq, not_false_eq_true,
      decide_True, if_true]
    rw [ih (fun ch hch => h ch (by simp [hch]))]

theorem cString_prefix (l : List Char) : ∃ rest, l = cString l ++ rest :=
  ⟨l.dropWhile fun ch => decide (ch.toNat ≠ 0), (List.takeWhile_append_dropWhile _ l).symm⟩

theorem cString_no_nul (l : List Char) : ∀ ch ∈ cString l, ch.toNat ≠ 0 := by
  intro ch hch
  have := List.mem_takeWhile_imp hch
  simpa using this

theorem cString_header : cString "$$LDcode\n".toList = "$$LDcode\n".toList := by decide

theorem cString_sentinel (s : List Char) (hs : s ∈ sentinelLines) : cString s = s := by
  simp only [sentinelLines, List.mem_cons, List.mem_singleton, List.not_mem_nil, or_false] at hs
  rcases hs with rfl | rfl | rfl <;> decide

/-! ## The instruction section -/

theorem not_sentinel_of_length (line : List Char) (h : line.length = sizeofBinOp * 2 + 1) :
    line ≠ "$$bits\n".toList ∧ line ≠ "$$int16s\n".toList ∧ line ≠ "$$cycle\n".toList := by
  refine ⟨?_, ?_, ?_⟩ <;> intro e <;> rw [e] at h <;> exact absurd h (by decide)

theorem storeLine_of_decodeLine (pc : Nat) (hpc : pc < MAX_OPS) (line : List Char) (r : BinOp)
    (prog : ProgramT) (h : decodeLine line = some r) :
    storeLine pc line prog = .ok (Function.update prog ⟨pc, hpc⟩ r) := by
  unfold decodeLine at h
  unfold storeLine
  rw [dif_pos hpc]
  cases hd : decodeBytes sizeofBinOp line with
  | none => rw [hd] at h; exact absurd h (by simp)
  | some bs =>
    rw [hd] at h
    injection h with h
    simp [h]

/-- One valid line of the instruction section: the record is stored at `pc` and the loop
goes on with the next string. -/
theorem loadCode_line (line : List Char) (r : BinOp) (rest : List (List Char)) (pc : Nat)
    (hpc : pc < MAX_OPS) (prog : ProgramT)
    (hlen : (cString line).length = sizeofBinOp * 2 + 1)
    (hdec : decodeLine (cString line) = some r) :
    loadCode (line :: rest) pc prog =
      loadCode rest (pc + 1) (Function.update prog ⟨pc, hpc⟩ r) := by
  obtain ⟨h1, h2, h3⟩ := not_sentinel_of_length (cString line) hlen
  simp only [loadCode, h1, h2, h3, if_false, hlen, ne_eq, not_true_eq_false,
    storeLine_of_decodeLine pc hpc (cString line) r prog hdec]

theorem loadCode_lines (lines : List (List Char)) (rs : List BinOp)
    (h : List.Forall₂ (fun l r => (cString l).length = sizeofBinOp * 2 + 1 ∧
      decodeLine (cString l) = some r)
      lines rs) :
    ∀ (rest : List (List Char)) (pc : Nat) (prog : ProgramT), pc + lines.length ≤ MAX_OPS →
      loadCode (lines ++ rest) pc prog =
        loadCode rest (pc + lines.length) (storeRecords rs pc prog) := by
  induction h with
  | nil => intro rest pc prog _; rfl
  | @cons l r ls rs' hlr _ ih =>
    intro rest pc prog hpc
    have hpc1 : pc < MAX_OPS := by simp only [List.length_cons] at hpc; omega
    rw [List.cons_append, loadCode_line l r _ pc hpc1 prog hlr.1 hlr.2,
      ih rest (pc + 1) _ (by simp only [List.length_cons] at hpc; omega)]
    simp only [storeRecords, dif_pos hpc1, List.length_cons]
    congr 1
    omega

theorem storeRecords_get (rs : List BinOp) :
    ∀ (pc : Nat) (prog : ProgramT), pc + rs.length ≤ MAX_OPS → ∀ i : Fin MAX_OPS,
      storeRecords rs pc prog i =
        if pc ≤ i.val ∧ i.val < pc + rs.length then rs.getD (i.val - pc) ⟨0, 0, 0, 0, 0⟩
        else prog i := by
  induction rs with
  | nil =>
    intro pc prog _ i
    have : ¬ (pc ≤ i.val ∧ i.val < pc) := by omega
    simp [storeRecords, this]
  | cons r rs ih =>
    intro pc prog hpc i
    have hpc1 : pc < MAX_OPS := by simp only [List.length_cons] at hpc; omega
    simp only [storeRecords, dif_pos hpc1]
    rw [ih (pc + 1) _ (by simp only [List.length_cons] at hpc; omega) i]
    by_cases h1 : pc + 1 ≤ i.val ∧ i.val < pc + 1 + rs.length
    · have h2 : pc ≤ i.val ∧ i.val < pc + (r :: rs).length := by
        simp only [List.length_cons]; omega
      have h3 : i.val - pc = (i.val - (pc + 1)) + 1 := by omega
      rw [if_pos h1, if_pos h2, h3]
      rfl
    · rw [if_neg h1]
      by_cases h4 : i.val = pc
      · have h2 : pc ≤ i.val ∧ i.val < pc + (r :: rs).length := by
          simp only [List.length_cons]; omega
        have hi : i = ⟨pc, hpc1⟩ := Fin.ext h4
        rw [if_pos h2, hi]
        simp
      · have h2 : ¬ (pc ≤ i.val ∧ i.val < pc + (r :: rs).length) := by
          simp only [List.length_cons]; omega
        have hi : i ≠ ⟨pc, hpc1⟩ := fun e => h4 (by rw [e])
        rw [if_neg h2]
        simp [Function.update, hi]

theorem inputLine_frame (l : List Char) (g g1 : Globals) (h : inputLine l g = .ok g1) :
    g1.Program = g.Program ∧ g1.OutputMap = g.OutputMap ∧ g1.AnalogMap = g.AnalogMap ∧
      g1.CycleTime = g.CycleTime := by
  unfold inputLine at h
  split at h
  · cases h
  · split at h
    · split at h
      · split at h
        · injection h with h
          subst h
          exact ⟨rfl, rfl, rfl, rfl⟩
        · cases h
      · injection h with h
        subst h
        exact ⟨rfl, rfl, rfl, rfl⟩
    · cases h

theorem mapLine_frame (l : List Char) (g g1 : Globals) (h : mapLine l g = .ok g1) :
    g1.Program = g.Program ∧ g1.OutputMap = g.OutputMap ∧ g1.AnalogMap = g.AnalogMap := by
  unfold mapLine at h
  have key : ∀ g2 : Globals,
      (if (cString l).head? = some 'X' then inputLine (cString l) g else .ok g) = .ok g2 →
      g2.Program = g.Program ∧ g2.OutputMap = g.OutputMap ∧ g2.AnalogMap = g.AnalogMap := by
    intro g2 h2
    by_cases hX : (cString l).head? = some 'X'
    · rw [if_pos hX] at h2
      have := inputLine_frame (cString l) g g2 h2
      exact ⟨this.1, this.2.1, this.2.2.1⟩
    · rw [if_neg hX] at h2
      injection h2 with h2
      subst h2
      exact ⟨rfl, rfl, rfl⟩
  cases hm : (if (cString l).head? = some 'X' then inputLine (cString l) g else .ok g) with
  | error e => rw [hm] at h; exact absurd h (by simp)
  | ok g2 =>
    rw [hm] at h
    have k := key g2 hm
    dsimp only at h
    split at h
    · split at h
      · injection h with h
        subst h
        exact k
      · cases h
    · injection h with h
      subst h
      exact k

/-- The loop over the mapping lines stores neither to `Program` nor to `OutputMap` nor to
`AnalogMap`. -/
theorem loadMaps_frame (lines : List (List Char)) :
    ∀ g g1 : Globals, loadMaps lines g = .ok g1 →
      g1.Program = g.Program ∧ g1.OutputMap = g.OutputMap ∧ g1.AnalogMap = g.AnalogMap := by
  induction lines with
  | nil =>
    intro g g1 h
    simp only [loadMaps] at h
    injection h with h
    subst h
    exact ⟨rfl, rfl, rfl⟩
  | cons l ls ih =>
    intro g g1 h
    simp only [loadMaps] at h
    cases hm : mapLine l g with
    | error e => rw [hm] at h; exact absurd h (by simp)
    | ok g2 =>
      rw [hm] at h
      have h2 := ih g2 g1 h
      have h3 := mapLine_frame l g g2 hm
      exact ⟨h2.1.trans h3.1, h2.2.1.trans h3.2.1, h2.2.2.trans h3.2.2⟩

/-! ## Writing and reading back a record -/

theorem hexChar_decode (up : Bool) (v : Nat) (hv : v < 16) :
    HexDigit ((hexChar up v).toNat : Int) = some v := by
  interval_cases v <;> cases up <;> rfl

theorem hexChar_ne_newline (up : Bool) (v : Nat) : hexChar up v ≠ '\n' := by
  by_cases hv : v < 16
  · interval_cases v <;> cases up <;> decide
  · have h1 : ∀ l : List Char, l.length = 16 → l.getD v '0' = '0' := by
      intro l hl
      simp [List.getD, List.getElem?_eq_none (by omega : l.length ≤ v)]
    unfold hexChar
    cases up
    · rw [if_neg (by simp), h1 "0123456789abcdef".toList rfl]; decide
    · rw [if_pos rfl, h1 "0123456789ABCDEF".toList rfl]; decide

theorem hexChar_ne_nul (up : Bool) (v : Nat) : (hexChar up v).toNat ≠ 0 := by
  by_cases hv : v < 16
  · interval_cases v <;> cases up <;> decide
  · have h1 : ∀ l : List Char, l.length = 16 → l.getD v '0' = '0' := by
      intro l hl
      simp [List.getD, List.getElem?_eq_none (by omega : l.length ≤ v)]
    unfold hexChar
    cases up
    · rw [if_neg (by simp), h1 "0123456789abcdef".toList rfl]; decide
    · rw [if_pos rfl, h1 "0123456789ABCDEF".toList rfl]; decide

theorem hexDigits_no_nul (up : Nat → Bool) (bs : List Nat) :
    ∀ j, ∀ ch ∈ hexDigits up j bs, ch.toNat ≠ 0 := by
  induction bs with
  | nil => intro j ch h; simp [hexDigits] at h
  | cons b bs ih =>
    intro j ch h
    simp only [hexDigits, List.mem_cons] at h
    rcases h with rfl | rfl | h
    · exact hexChar_ne_nul _ _
    · exact hexChar_ne_nul _ _
    · exact ih (j + 2) ch h

theorem hexDigits_length (up : Nat → Bool) (bs : List Nat) :
    ∀ j, (hexDigits up j bs).length = 2 * bs.length := by
  induction bs with
  | nil => intro j; rfl
  | cons b bs ih =>
    intro j
    simp only [hexDigits, List.length_cons, ih (j + 2)]
    omega

theorem hexDigits_no_newline (up : Nat → Bool) (bs : List Nat) :
    ∀ j, '\n' ∉ hexDigits up j bs := by
  induction bs with
  | nil => intro j; simp [hexDigits]
  | cons b bs ih =>
    intro j
    simp only [hexDigits, List.mem_cons, not_or]
    exact ⟨(hexChar_ne_newline _ _).symm, (hexChar_ne_newline _ _).symm, ih (j + 2)⟩

theorem decodeBytes_hexDigits (up : Nat → Bool) (bs : List Nat) (rest : List Char) :
    ∀ j, (∀ b ∈ bs, b < 256) →
      decodeBytes bs.length (hexDigits up j bs ++ rest) = some bs := by
  induction bs with
  | nil => intro j _; rfl
  | cons b bs ih =>
    intro j hb
    have hb256 : b < 256 := hb b (by simp)
    have hhi : b / 16 < 16 := by omega
    have hlo : b % 16 < 16 := by omega
    have ih2 := ih (j + 2) (fun x hx => hb x (by simp [hx]))
    have e : 16 * (b / 16) + b % 16 = b := by omega
    show decodeBytes (bs.length + 1) (hexChar (up j) (b / 16) ::
      hexChar (up (j + 1)) (b % 16) :: (hexDigits up (j + 2) bs ++ rest)) = some (b :: bs)
    simp only [decodeBytes, hexChar_decode _ _ hhi, hexChar_decode _ _ hlo, ih2,
      nibbles _ _ hlo hhi, e]

theorem int16_roundtrip (x : Int) (h : IsInt16 x) :
    int16OfBytes ((x % 2 ^ 16).toNat % 256) ((x % 2 ^ 16).toNat / 256) = x := by
  unfold IsInt16 at h
  unfold int16OfBytes
  have e : (x % 2 ^ 16).toNat % 256 + 256 * ((x % 2 ^ 16).toNat / 256) = (x % 2 ^ 16).toNat := by
    omega
  rw [e]
  split_ifs with hlt <;> omega

theorem int32_roundtrip (x : Int) (h : IsInt32 x) :
    int32OfBytes ((x % 2 ^ 32).toNat % 256) ((x % 2 ^ 32).toNat / 256 % 256)
      ((x % 2 ^ 32).toNat / 65536 % 256) ((x % 2 ^ 32).toNat / 16777216) = x := by
  unfold IsInt32 at h
  unfold int32OfBytes
  have e : (x % 2 ^ 32).toNat % 256 + 256 * ((x % 2 ^ 32).toNat / 256 % 256) +
      65536 * ((x % 2 ^ 32).toNat / 65536 % 256) + 16777216 * ((x % 2 ^ 32).toNat / 16777216) =
      (x % 2 ^ 32).toNat := by
    omega
  rw [e]
  split_ifs with hlt <;> omega

theorem ofBytes_toBytes (r : BinOp) (h : r.InRange) : BinOp.ofBytes r.toBytes = r := by
  obtain ⟨h0, h1, h2, h3, h4⟩ := h
  cases r with
  | mk op n1 n2 n3 lit =>
    simp only [BinOp.toBytes, bytesOfInt16, bytesOfInt32, List.cons_append, List.nil_append,
      BinOp.ofBytes, int16_roundtrip _ h0, int16_roundtrip _ h1, int16_roundtrip _ h2,
      int16_roundtrip _ h3, int32_roundtrip _ h4]

theorem toBytes_length (r : BinOp) : r.toBytes.length = sizeofBinOp := rfl

theorem toBytes_lt (r : BinOp) : ∀ b ∈ r.toBytes, b < 256 := by
  intro b hb
  have h16 : ∀ x : Int, (x % 2 ^ 16).toNat / 256 < 256 := by intro x; omega
  have h32 : ∀ x : Int, (x % 2 ^ 32).toNat / 16777216 < 256 := by intro x; omega
  simp only [BinOp.toBytes, bytesOfInt16, bytesOfInt32, List.cons_append, List.nil_append,
    List.mem_cons, List.mem_singleton, List.not_mem_nil, or_false] at hb
  have := h16 r.op
  have := h16 r.name1
  have := h16 r.name2
  have := h16 r.name3
  have := h32 r.literal1
  rcases hb with h | h | h | h | h | h | h | h | h | h | h | h <;> subst h <;> omega

theorem recordLine_length (up : Nat → Bool) (r : BinOp) :
    (recordLine up r).length = sizeofBinOp * 2 + 1 := by
  simp only [recordLine, List.length_append, hexDigits_length, toBytes_length,
    List.length_cons, List.length_nil]
  decide

theorem recordLine_cString (up : Nat → Bool) (r : BinOp) :
    cString (recordLine up r) = recordLine up r := by
  apply cString_eq_self
  intro ch hch
  simp only [recordLine, List.mem_append, List.mem_singleton] at hch
  rcases hch with hch | rfl
  · exact hexDigits_no_nul up _ 0 ch hch
  · decide

theorem recordLine_decode (up : Nat → Bool) (r : BinOp) (h : r.InRange) :
    decodeLine (recordLine up r) = some r := by
  unfold decodeLine recordLine
  rw [← toBytes_length r, decodeBytes_hexDigits up r.toBytes ['\n'] 0 (toBytes_lt r)]
  simp [ofBytes_toBytes r h]

theorem recordLine_isLine (up : Nat → Bool) (r : BinOp) : IsLine (recordLine up r) :=
  ⟨hexDigits up 0 r.toBytes, rfl, hexDigits_no_newline up _ 0, by
    rw [hexDigits_length, toBytes_length]; decide⟩

theorem recordLines_forall₂ (ups : Nat → Nat → Bool) (rs : List BinOp)
    (h : ∀ r ∈ rs, r.InRange) :
    ∀ k, List.Forall₂ (fun l r => (cString l).length = sizeofBinOp * 2 + 1 ∧
      decodeLine (cString l) = some r)
      (recordLines ups k rs) rs := by
  induction rs with
  | nil => intro k; exact List.Forall₂.nil
  | cons r rs ih =>
    intro k
    exact List.Forall₂.cons
      ⟨by rw [recordLine_cString]; exact recordLine_length _ r,
        by rw [recordLine_cString]; exact recordLine_decode _ r (h r (by simp))⟩
      (ih (fun x hx => h x (by simp [hx])) (k + 1))

theorem recordLines_isLine (ups : Nat → Nat → Bool) (rs : List BinOp) :
    ∀ k, ∀ l ∈ recordLines ups k rs, IsLine l := by
  induction rs with
  | nil => intro k l hl; simp [recordLines] at hl
  | cons r rs ih =>
    intro k l hl
    simp only [recordLines, List.mem_cons] at hl
    rcases hl with rfl | hl
    · exact recordLine_isLine _ r
    · exact ih (k + 1) l hl

theorem recordLines_length (ups : Nat → Nat → Bool) (rs : List BinOp) :
    ∀ k, (recordLines ups k rs).length = rs.length := by
  induction rs with
  | nil => intro k; rfl
  | cons r rs ih => intro k; simp [recordLines, ih (k + 1)]

/-! ## The loader on a whole container -/

theorem header_isLine : IsLine "$$LDcode\n".toList :=
  ⟨"$$LDcode".toList, rfl, by decide, by decide⟩

theorem sentinel_isLine (s : List Char) (hs : s ∈ sentinelLines) : IsLine s := by
  simp only [sentinelLines, List.mem_cons, List.mem_singleton, List.not_mem_nil, or_false] at hs
  rcases hs with rfl | rfl | rfl
  · exact ⟨"$$bits".toList, rfl, by decide, by decide⟩
  · exact ⟨"$$int16s".toList, rfl, by decide, by decide⟩
  · exact ⟨"$$cycle".toList, rfl, by decide, by decide⟩

theorem loadCode_sentinel (s : List Char) (hs : s ∈ sentinelLines) (rest : List (List Char))
    (pc : Nat) (prog : ProgramT) : loadCode (s :: rest) pc prog = .ok (prog, rest) := by
  have hc := cString_sentinel s hs
  simp only [sentinelLines, List.mem_cons, List.mem_singleton, List.not_mem_nil, or_false] at hs
  rcases hs with rfl | rfl | rfl
  · simp only [loadCode, hc, if_true]
  · simp only [loadCode, hc, if_true]
    rw [if_neg (by decide)]
  · simp only [loadCode, hc, if_true]
    rw [if_neg (by decide), if_neg (by decide)]

/-- The strings `fgets` delivers for the text of a container. -/
theorem fgetsAll_container (code : List (List Char)) (hL : ∀ l ∈ code, IsLine l)
    (s : List Char) (hs : s ∈ sentinelLines) (tail : List Char) :
    fgetsAll (containerText code s tail) =
      "$$LDcode\n".toList :: (code ++ s :: fgetsAll tail) := by
  have e : containerText code s tail =
      (["$$LDcode\n".toList] ++ code ++ [s]).flatten ++ tail := by
    simp [containerText]
  rw [e, fgetsAll_lines]
  · simp
  · intro l hl
    simp only [List.append_assoc, List.mem_append, List.mem_singleton] at hl
    rcases hl with rfl | hl | rfl
    · exact header_isLine
    · exact hL l hl
    · exact sentinel_isLine _ hs

/-- The loader on a header, valid instruction lines within the capacity of `Program`, a
sentinel and the strings after it. -/
theorem loadLines_container (code : List (List Char)) (rs : List BinOp)
    (hF : List.Forall₂ (fun l r => (cString l).length = sizeofBinOp * 2 + 1 ∧
      decodeLine (cString l) = some r)
      code rs)
    (hn : code.length ≤ MAX_OPS) (s : List Char) (hs : s ∈ sentinelLines)
    (tl : List (List Char)) (g : Globals) :
    loadLines ("$$LDcode\n".toList :: (code ++ s :: tl)) g =
      loadMaps tl { g with Program := storeRecords rs 0 g.Program } := by
  simp only [loadLines, cString_header, ne_eq, not_true_eq_false, if_false]
  rw [loadCode_lines code rs hF (s :: tl) 0 g.Program (by omega), loadCode_sentinel s hs]

theorem recordLines_line_length (ups : Nat → Nat → Bool) (rs : List BinOp) :
    ∀ k, ∀ l ∈ recordLines ups k rs, l.length = sizeofBinOp * 2 + 1 := by
  induction rs with
  | nil => intro k l hl; simp [recordLines] at hl
  | cons r rs ih =>
    intro k l hl
    simp only [recordLines, List.mem_cons] at hl
    rcases hl with rfl | hl
    · exact recordLine_length _ r
    · exact ih (k + 1) l hl

theorem LoadProgram_container (code : List (List Char)) (rs : List BinOp)
    (hF : List.Forall₂ (fun l r => (cString l).length = sizeofBinOp * 2 + 1 ∧
      decodeLine (cString l) = some r)
      code rs)
    (hL : ∀ l ∈ code, IsLine l)
    (hn : code.length ≤ MAX_OPS) (s : List Char) (hs : s ∈ sentinelLines)
    (tail : List Char) (g : Globals) :
    LoadProgram (some (containerText code s tail)) g =
      loadMaps (fgetsAll tail) { g with Program := storeRecords rs 0 g.Program } := by
  show loadLines (fgetsAll (containerText code s tail)) g = _
  rw [fgetsAll_container code hL s hs tail, loadLines_container code rs hF hn s hs]

/-- C12: round trip.  For at most `MAX_OPS` records with fields of their C types, the text
made of the header line, one line of 24 hexadecimal digits plus newline per record (the
12 raw bytes in field order, high nibble first, each digit in upper or lower case) and a
sentinel line is loaded without error, and `Program` then holds the records, field for
field and in order, in its first slots; the other slots and the other globals are as
before. -/
theorem C12_round_trip (ups : Nat → Nat → Bool) (rs : List BinOp)
    (hn : rs.length ≤ MAX_OPS) (hr : ∀ r ∈ rs, r.InRange)
    (s : List Char) (hs : s ∈ sentinelLines) (g : Globals) :
    (∀ l ∈ recordLines ups 0 rs, l.length = 2 * sizeofBinOp + 1) ∧
    ∃ g1, LoadProgram (some (containerText (recordLines ups 0 rs) s [])) g = .ok g1 ∧
      (∀ i : Fin MAX_OPS, i.val < rs.length → some (g1.Program i) = rs.get? i.val) ∧
      (∀ i : Fin MAX_OPS, rs.length ≤ i.val → g1.Program i = g.Program i) ∧
      g1.InputMap = g.InputMap ∧ g1.OutputMap = g.OutputMap ∧ g1.AnalogMap = g.AnalogMap ∧
      g1.CycleTime = g.CycleTime := by
  have hF := recordLines_forall₂ ups rs hr 0
  have hlen := recordLines_length ups rs 0
  refine ⟨?_, { g with Program := storeRecords rs 0 g.Program }, ?_, ?_, ?_, rfl, rfl, rfl, rfl⟩
  · intro l hl
    rw [recordLines_line_length ups rs 0 l hl, Nat.mul_comm]
  · rw [LoadProgram_container _ rs hF (recordLines_isLine ups rs 0) (by omega) s hs [] g]
    rfl
  · intro i hi
    show some (storeRecords rs 0 g.Program i) = _
    rw [storeRecords_get rs 0 g.Program (by omega) i]
    have h1 : 0 ≤ i.val ∧ i.val < 0 + rs.length := by omega
    rw [if_pos h1]
    simp [List.getD, List.getElem?_eq_getElem hi]
  · intro i hi
    show storeRecords rs 0 g.Program i = _
    rw [storeRecords_get rs 0 g.Program (by omega) i]
    have h1 : ¬ (0 ≤ i.val ∧ i.val < 0 + rs.length) := by omega
    rw [if_neg h1]

theorem C12_round_trip_witness :
    [(⟨1, -2, 300, -32768, -2147483648⟩ : BinOp), ⟨255, 0, 127, 32767, 2147483647⟩].length
      ≤ MAX_OPS ∧
    (∀ r ∈ [(⟨1, -2, 300, -32768, -2147483648⟩ : BinOp), ⟨255, 0, 127, 32767, 2147483647⟩],
      r.InRange) ∧
    "$$bits\n".toList ∈ sentinelLines ∧
    ∃ g1, LoadProgram (some (containerText
        (recordLines (fun k j => decide ((k + j) % 3 = 0)) 0
          [⟨1, -2, 300, -32768, -2147483648⟩, ⟨255, 0, 127, 32767, 2147483647⟩])
        "$$bits\n".toList [])) Globals.init = .ok g1 ∧
      (∀ i : Fin MAX_OPS, i.val <
          [(⟨1, -2, 300, -32768, -2147483648⟩ : BinOp), ⟨255, 0, 127, 32767, 2147483647⟩].length →
        some (g1.Program i) =
          [(⟨1, -2, 300, -32768, -2147483648⟩ : BinOp),
            ⟨255, 0, 127, 32767, 2147483647⟩].get? i.val) ∧
      (∀ i : Fin MAX_OPS,
        [(⟨1, -2, 300, -32768, -2147483648⟩ : BinOp), ⟨255, 0, 127, 32767, 2147483647⟩].length
          ≤ i.val → g1.Program i = Globals.init.Program i) ∧
      g1.InputMap = Globals.init.InputMap ∧ g1.OutputMap = Globals.init.OutputMap ∧
      g1.AnalogMap = Globals.init.AnalogMap ∧ g1.CycleTime = Globals.init.CycleTime :=
  ⟨by decide, by decide, by decide,
    (C12_round_trip (fun k j => decide ((k + j) % 3 = 0))
      [⟨1, -2, 300, -32768, -2147483648⟩, ⟨255, 0, 127, 32767, 2147483647⟩]
      (by decide) (by decide) "$$bits\n".toList (by decide) Globals.init).2⟩

/-! ## Malformed containers -/

theorem fgetsFrom_head (s : List Char) :
    ∀ (cur l : List Char) (ls : List (List Char)), fgetsFrom s cur = l :: ls →
      ∃ rest, cur ++ s = l ++ rest := by
  induction s with
  | nil =>
    intro cur l ls h
    simp only [fgetsFrom] at h
    split at h
    · exact absurd h (by simp)
    · injection h with h1 _
      exact ⟨[], by rw [h1]⟩
  | cons ch s ih =>
    intro cur l ls h
    simp only [fgetsFrom] at h
    split at h
    · injection h with h1 _
      exact ⟨s, by rw [← h1]; simp⟩
    · obtain ⟨rest, hr⟩ := ih (cur ++ [ch]) l ls h
      exact ⟨rest, by rw [← hr]; simp⟩

theorem loadCode_wrong_length (line : List Char) (rest : List (List Char)) (pc : Nat)
    (prog : ProgramT) (hns : cString line ∉ sentinelLines)
    (hlen : (cString line).length ≠ 2 * sizeofBinOp + 1) :
    loadCode (line :: rest) pc prog = .error .badFormat := by
  simp only [sentinelLines, List.mem_cons, List.mem_singleton, List.not_mem_nil, or_false,
    not_or] at hns
  have hlen2 : (cString line).length ≠ sizeofBinOp * 2 + 1 := by rw [Nat.mul_comm]; exact hlen
  rw [loadCode, if_neg hns.1, if_neg hns.2.1, if_neg hns.2.2, if_pos hlen2]

theorem decodeBytes_none (n : Nat) :
    ∀ (ln : List Char) (j : Nat) (ch : Char), j < 2 * n → ln[j]? = some ch →
      HexDigit (ch.toNat : Int) = none → decodeBytes n ln = none := by
  induction n with
  | zero => intro ln j ch hj; omega
  | succ n ih =>
    intro ln j ch hj hget hbad
    match ln, hget with
    | [], hget => simp at hget
    | [t0], hget => rfl
    | t0 :: t1 :: t, hget =>
      simp only [decodeBytes]
      match j, hj, hget with
      | 0, _, hget =>
        simp only [List.getElem?_cons_zero, Option.some.injEq] at hget
        subst hget
        rw [hbad]
        cases HexDigit (t1.toNat : Int) <;> rfl
      | 1, _, hget =>
        simp only [List.getElem?_cons_succ, List.getElem?_cons_zero, Option.some.injEq] at hget
        subst hget
        rw [hbad]
      | j + 2, hj, hget =>
        simp only [List.getElem?_cons_succ] at hget
        rw [ih t j ch (by omega) hget hbad]
        cases HexDigit (t1.toNat : Int) <;> cases HexDigit (t0.toNat : Int) <;> rfl

theorem decodeBytes_some (n : Nat) :
    ∀ (ln : List Char) (bs : List Nat), decodeBytes n ln = some bs →
      bs.length = n ∧ ∀ i, i < n → ∃ c0 c1 hi lo, ln[2 * i]? = some c0 ∧
        ln[2 * i + 1]? = some c1 ∧ HexDigit (c0.toNat : Int) = some hi ∧
        HexDigit (c1.toNat : Int) = some lo ∧ bs[i]? = some (16 * hi + lo) := by
  induction n with
  | zero =>
    intro ln bs h
    simp only [decodeBytes] at h
    injection h with h
    subst h
    exact ⟨rfl, fun i hi => absurd hi (by omega)⟩
  | succ n ih =>
    intro ln bs h
    match ln, h with
    | [], h => simp [decodeBytes] at h
    | [t0], h => simp [decodeBytes] at h
    | t0 :: t1 :: t, h =>
      simp only [decodeBytes] at h
      cases h1 : HexDigit (t1.toNat : Int) with
      | none => rw [h1] at h; simp at h
      | some lo =>
        cases h0 : HexDigit (t0.toNat : Int) with
        | none => rw [h1, h0] at h; simp at h
        | some hi =>
          cases hd : decodeBytes n t with
          | none => rw [h1, h0, hd] at h; simp at h
          | some bs1 =>
            rw [h1, h0, hd] at h
            simp only [Option.some.injEq] at h
            subst h
            obtain ⟨hl, hb⟩ := ih t bs1 hd
            refine ⟨by simp [hl], ?_⟩
            intro i hi2
            match i, hi2 with
            | 0, _ =>
              exact ⟨t0, t1, hi, lo, by simp, by simp, h0, h1, by
                simp [nibbles lo hi (HexDigit_lt _ _ h1) (HexDigit_lt _ _ h0)]⟩
            | i + 1, hi2 =>
              obtain ⟨c0, c1, hi', lo', g0, g1, e0, e1, e⟩ := hb i (by omega)
              refine ⟨c0, c1, hi', lo', ?_, ?_, e0, e1, by simpa using e⟩
              · have : 2 * (i + 1) = 2 * i + 1 + 1 := by omega
                rw [this]; simpa using g0
              · have : 2 * (i + 1) + 1 = 2 * i + 1 + 1 + 1 := by omega
                rw [this]; simpa using g1

theorem decodeBytes_exists (n : Nat) :
    ∀ ln : List Char, 2 * n ≤ ln.length →
      (∀ j ch, j < 2 * n → ln[j]? = some ch → HexDigit (ch.toNat : Int) ≠ none) →
      ∃ bs, decodeBytes n ln = some bs := by
  induction n with
  | zero => intro ln _ _; exact ⟨[], rfl⟩
  | succ n ih =>
    intro ln hlen hhex
    match ln, hlen, hhex with
    | [], hlen, _ => simp at hlen
    | [t0], hlen, _ => simp at hlen; omega
    | t0 :: t1 :: t, hlen, hhex =>
      obtain ⟨bs, hbs⟩ := ih t (by simp only [List.length_cons] at hlen; omega)
        (fun j ch hj hg => hhex (j + 2) ch (by omega) (by simpa using hg))
      have h0 := hhex 0 t0 (by omega) (by simp)
      have h1 := hhex 1 t1 (by omega) (by simp)
      obtain ⟨hi, e0⟩ := Option.ne_none_iff_exists'.mp h0
      obtain ⟨lo, e1⟩ := Option.ne_none_iff_exists'.mp h1
      exact ⟨(lo ||| (hi <<< 4)) % 256 :: bs, by simp only [decodeBytes, e0, e1, hbs]⟩

theorem loadCode_no_sentinel (lines : List (List Char)) :
    ∀ (pc : Nat) (prog : ProgramT), (∀ l ∈ lines, cString l ∉ sentinelLines) →
      pc + lines.length ≤ MAX_OPS → loadCode lines pc prog = .error .badFormat := by
  induction lines with
  | nil => intro pc prog _ _; rfl
  | cons l ls ih =>
    intro pc prog hns hpc
    have hl := hns l (by simp)
    by_cases hlen : (cString l).length = 2 * sizeofBinOp + 1
    · have hpc1 : pc < MAX_OPS := by simp only [List.length_cons] at hpc; omega
      have hlen2 : (cString l).length = sizeofBinOp * 2 + 1 := by
        rw [Nat.mul_comm]; exact hlen
      cases hd : decodeLine (cString l) with
      | some r =>
        rw [loadCode_line l r ls pc hpc1 prog hlen2 hd]
        exact ih (pc + 1) _ (fun x hx => hns x (by simp [hx]))
          (by simp only [List.length_cons] at hpc; omega)
      | none =>
        obtain ⟨h1, h2, h3⟩ := not_sentinel_of_length (cString l) hlen2
        have hs : storeLine pc (cString l) prog = .error .badFormat := by
          unfold decodeLine at hd
          unfold storeLine
          rw [dif_pos hpc1]
          cases hb : decodeBytes sizeofBinOp (cString l) with
          | none => rfl
          | some bs => rw [hb] at hd; exact absurd hd (by simp)
        simp only [loadCode, h1, h2, h3, if_false, hlen2, ne_eq, not_true_eq_false, hs]
    · exact loadCode_wrong_length l ls pc prog hl hlen

/-- C13, as stated, fails: the line of 24 hexadecimal digits followed by `x`, a NUL, `y`
and the newline has 28 characters and is no sentinel line, yet `LoadProgram` decodes it
into `Program[0]`: `strlen` stops at the NUL and finds 25. -/
theorem C13_embedded_nul_counterexample :
    ("010002000300040005000000x".toList ++ [Char.ofNat 0, 'y', '\n']).length = 28 ∧
    IsLine ("010002000300040005000000x".toList ++ [Char.ofNat 0, 'y', '\n']) ∧
    "010002000300040005000000x".toList ++ [Char.ofNat 0, 'y', '\n'] ∉ sentinelLines ∧
    (cString ("010002000300040005000000x".toList ++ [Char.ofNat 0, 'y', '\n'])).length = 25 ∧
    LoadProgram (some ("$$LDcode\n".toList ++
        ("010002000300040005000000x".toList ++ [Char.ofNat 0, 'y', '\n']) ++
        "$$bits\n".toList)) Globals.init =
      .ok { Globals.init with
            Program := Function.update Globals.init.Program 0 ⟨1, 2, 3, 4, 5⟩ } := by
  refine ⟨by decide, ⟨"010002000300040005000000x".toList ++ [Char.ofNat 0, 'y'], by decide,
    by decide, by decide⟩, by decide, by decide, ?_⟩
  rfl

/-- C13, amended: in the instruction section a line whose string (the characters before
its first NUL, all of them when it has none) is none of the three sentinel lines and has
not 2 x `sizeof(BinOp)` + 1 = 25 characters makes the load fail with `BadFormat`, whatever
the state of the loop; so after a header and valid instruction lines the load fails at
that line, which is not decoded.  A line without NUL is its own string. -/
theorem C13_wrong_string_length_is_bad_format (code : List (List Char)) (rs : List BinOp)
    (hF : List.Forall₂ (fun l r => (cString l).length = sizeofBinOp * 2 + 1 ∧
      decodeLine (cString l) = some r)
      code rs)
    (hn : code.length ≤ MAX_OPS) (ln : List Char) (hns : cString ln ∉ sentinelLines)
    (hlen : (cString ln).length ≠ 2 * sizeofBinOp + 1) (rest : List (List Char))
    (g : Globals) :
    2 * sizeofBinOp + 1 = 25 ∧
    ((∀ ch ∈ ln, ch.toNat ≠ 0) → cString ln = ln) ∧
    (∀ pc prog, loadCode (ln :: rest) pc prog = .error .badFormat) ∧
    loadLines ("$$LDcode\n".toList :: (code ++ ln :: rest)) g = .error .badFormat ∧
    ∀ text, fgetsAll text = "$$LDcode\n".toList :: (code ++ ln :: rest) →
      LoadProgram (some text) g = .error .badFormat := by
  have h1 : ∀ pc prog, loadCode (ln :: rest) pc prog = .error .badFormat :=
    fun pc prog => loadCode_wrong_length ln rest pc prog hns hlen
  have h2 : loadLines ("$$LDcode\n".toList :: (code ++ ln :: rest)) g = .error .badFormat := by
    simp only [loadLines, cString_header, ne_eq, not_true_eq_false, if_false]
    rw [loadCode_lines code rs hF (ln :: rest) 0 g.Program (by omega), h1]
  refine ⟨rfl, cString_eq_self ln, h1, h2, ?_⟩
  intro text ht
  show loadLines (fgetsAll text) g = _
  rw [ht, h2]

theorem C13_wrong_string_length_is_bad_format_witness :
    List.Forall₂ (fun l r => (cString l).length = sizeofBinOp * 2 + 1 ∧
      decodeLine (cString l) = some r)
      [recordLine (fun _ => false) ⟨1, 2, 3, 4, 5⟩] [⟨1, 2, 3, 4, 5⟩] ∧
    [recordLine (fun _ => false) ⟨1, 2, 3, 4, 5⟩].length ≤ MAX_OPS ∧
    cString "0102030405060708090a0b\n".toList ∉ sentinelLines ∧
    (cString "0102030405060708090a0b\n".toList).length ≠ 2 * sizeofBinOp + 1 ∧
    loadLines ("$$LDcode\n".toList :: ([recordLine (fun _ => false) ⟨1, 2, 3, 4, 5⟩] ++
      "0102030405060708090a0b\n".toList :: ["$$bits\n".toList])) Globals.init =
        .error .badFormat :=
  ⟨List.Forall₂.cons ⟨by decide, by decide⟩ List.Forall₂.nil, by decide, by decide, by decide,
    (C13_wrong_string_length_is_bad_format [recordLine (fun _ => false) ⟨1, 2, 3, 4, 5⟩]
      [⟨1, 2, 3, 4, 5⟩] (List.Forall₂.cons ⟨by decide, by decide⟩ List.Forall₂.nil)
      (by decide) "0102030405060708090a0b\n".toList (by decide) (by decide)
      ["$$bits\n".toList] Globals.init).2.2.2.1⟩

/-- C14: a text that does not begin with the line `$$LDcode` and its newline (the empty
text among them) makes `LoadProgram` fail with `BadFormat`, at the first string read and
before the instruction loop is entered. -/
theorem C14_header_required (text : List Char) (g : Globals)
    (h : ∀ rest, text ≠ "$$LDcode\n".toList ++ rest) :
    LoadProgram (some text) g = .error .badFormat := by
  show loadLines (fgetsAll text) g = _
  cases hf : fgetsAll text with
  | nil => rfl
  | cons l ls =>
    by_cases hl : cString l = "$$LDcode\n".toList
    · obtain ⟨rest, hr⟩ := fgetsFrom_head text [] l ls hf
      obtain ⟨rest1, hr1⟩ := cString_prefix l
      refine absurd ?_ (h (rest1 ++ rest))
      rw [← List.append_assoc, ← hl, ← hr1, ← hr]
      rfl
    · simp only [loadLines, ne_eq, hl, not_false_eq_true, if_true]

theorem C14_header_required_witness :
    (∀ rest, "$$LDcodE\n$$bits\n".toList ≠ "$$LDcode\n".toList ++ rest) ∧
    LoadProgram (some "$$LDcodE\n$$bits\n".toList) Globals.init = .error .badFormat :=
  have h : ∀ rest, "$$LDcodE\n$$bits\n".toList ≠ "$$LDcode\n".toList ++ rest := by
    intro rest e
    simp at e
  ⟨h, C14_header_required "$$LDcodE\n$$bits\n".toList Globals.init h⟩

/-- C15: `HexDigit` returns 0..9 for `'0'..'9'` (codes 48..57), 10..15 for `'a'..'f'`
(97..102) and for `'A'..'F'` (65..70), and calls `BadFormat` for every other code.  So a
line of the instruction section whose string has 25 characters, one among the first 24
being no hexadecimal digit, makes the load fail with `BadFormat`; and when all 24 are
hexadecimal digits the line is decoded, byte `i` being
`16 * HexDigit(char 2i) + HexDigit(char 2i+1)`.  A line without NUL is its own string. -/
theorem C15_hex_digits (c : Int) (code : List (List Char)) (rs : List BinOp)
    (hF : List.Forall₂ (fun l r => (cString l).length = sizeofBinOp * 2 + 1 ∧
      decodeLine (cString l) = some r)
      code rs)
    (hn : code.length < MAX_OPS) (ln : List Char)
    (hlen : (cString ln).length = 2 * sizeofBinOp + 1)
    (rest : List (List Char)) (g : Globals) :
    ((48 ≤ c ∧ c ≤ 57 → HexDigit c = some (c - 48).toNat) ∧
     (97 ≤ c ∧ c ≤ 102 → HexDigit c = some (c - 87).toNat) ∧
     (65 ≤ c ∧ c ≤ 70 → HexDigit c = some (c - 55).toNat) ∧
     (¬ (48 ≤ c ∧ c ≤ 57) → ¬ (97 ≤ c ∧ c ≤ 102) → ¬ (65 ≤ c ∧ c ≤ 70) →
       HexDigit c = none)) ∧
    ((∀ ch ∈ ln, ch.toNat ≠ 0) → cString ln = ln) ∧
    (∀ j ch, j < 2 * sizeofBinOp → (cString ln)[j]? = some ch →
      HexDigit (ch.toNat : Int) = none →
      loadLines ("$$LDcode\n".toList :: (code ++ ln :: rest)) g = .error .badFormat) ∧
    (∀ bs, decodeBytes sizeofBinOp (cString ln) = some bs →
      ∀ i, i < sizeofBinOp → ∃ c0 c1 hi lo, (cString ln)[2 * i]? = some c0 ∧
        (cString ln)[2 * i + 1]? = some c1 ∧
        HexDigit (c0.toNat : Int) = some hi ∧ HexDigit (c1.toNat : Int) = some lo ∧
        bs[i]? = some (16 * hi + lo)) ∧
    ((∀ j ch, j < 2 * sizeofBinOp → (cString ln)[j]? = some ch →
        HexDigit (ch.toNat : Int) ≠ none) →
      ∃ bs, decodeBytes sizeofBinOp (cString ln) = some bs ∧
        ∀ prog, storeLine code.length (cString ln) prog =
          .ok (Function.update prog ⟨code.length, hn⟩ (BinOp.ofBytes bs))) := by
  have hlen2 : (cString ln).length = sizeofBinOp * 2 + 1 := by rw [Nat.mul_comm]; exact hlen
  refine ⟨HexDigit_spec c, cString_eq_self ln, ?_, ?_, ?_⟩
  · intro j ch hj hget hbad
    have hd := decodeBytes_none sizeofBinOp (cString ln) j ch hj hget hbad
    obtain ⟨h1, h2, h3⟩ := not_sentinel_of_length (cString ln) hlen2
    have hs : ∀ prog, storeLine code.length (cString ln) prog = .error .badFormat := by
      intro prog
      unfold storeLine
      rw [dif_pos hn, hd]
    simp only [loadLines, cString_header, ne_eq, not_true_eq_false, if_false]
    rw [loadCode_lines code rs hF (ln :: rest) 0 g.Program (by omega)]
    simp only [loadCode, h1, h2, h3, if_false, hlen2, ne_eq, not_true_eq_false, Nat.zero_add,
      hs]
  · intro bs hbs
    exact (decodeBytes_some sizeofBinOp (cString ln) bs hbs).2
  · intro hhex
    obtain ⟨bs, hbs⟩ := decodeBytes_exists sizeofBinOp (cString ln) (by omega) hhex
    refine ⟨bs, hbs, ?_⟩
    intro prog
    unfold storeLine
    rw [dif_pos hn, hbs]

theorem C15_hex_digits_witness :
    List.Forall₂ (fun l r => (cString l).length = sizeofBinOp * 2 + 1 ∧
      decodeLine (cString l) = some r) [] [] ∧
    ([] : List (List Char)).length < MAX_OPS ∧
    (cString "0100020003000400ffFFffxf\n".toList).length = 2 * sizeofBinOp + 1 ∧
    (cString "0100020003000400ffFFffxf\n".toList)[22]? = some 'x' ∧
    HexDigit (('x').toNat : Int) = none ∧
    loadLines ("$$LDcode\n".toList :: ([] ++ "0100020003000400ffFFffxf\n".toList ::
      ["$$bits\n".toList])) Globals.init = .error .badFormat :=
  ⟨List.Forall₂.nil, by decide, by decide, by decide, by decide,
    (C15_hex_digits 0 [] [] List.Forall₂.nil (by decide) "0100020003000400ffFFffxf\n".toList
      (by decide) ["$$bits\n".toList] Globals.init).2.2.1 22 'x' (by decide) (by decide)
      (by decide)⟩

/-- C16: after the header and `n` valid instruction lines (`n` within the capacity of
`Program`), the first string equal to `$$bits`, `$$int16s` or `$$cycle` plus newline ends
the instruction section: line `k` has been stored at `Program[k]` for every `k < n`, the
slots from `n` on are untouched, and the strings after the sentinel are handled by the
mapping loop only, which never stores to `Program`.  When the strings end before any
sentinel is seen, the load fails with `BadFormat`. -/
theorem C16_sentinel_ends_instruction_section (code : List (List Char)) (rs : List BinOp)
    (hF : List.Forall₂ (fun l r => (cString l).length = sizeofBinOp * 2 + 1 ∧
      decodeLine (cString l) = some r)
      code rs)
    (hn : code.length ≤ MAX_OPS) (s : List Char) (hs : s ∈ sentinelLines)
    (tl : List (List Char)) (g : Globals) :
    loadLines ("$$LDcode\n".toList :: (code ++ s :: tl)) g =
      loadMaps tl { g with Program := storeRecords rs 0 g.Program } ∧
    (∀ i : Fin MAX_OPS, i.val < rs.length →
      some (storeRecords rs 0 g.Program i) = rs.get? i.val) ∧
    (∀ i : Fin MAX_OPS, rs.length ≤ i.val → storeRecords rs 0 g.Program i = g.Program i) ∧
    (∀ g1, loadLines ("$$LDcode\n".toList :: (code ++ s :: tl)) g = .ok g1 →
      g1.Program = storeRecords rs 0 g.Program) ∧
    loadLines ("$$LDcode\n".toList :: (code ++ [s])) g =
      .ok { g with Program := storeRecords rs 0 g.Program } ∧
    loadLines ("$$LDcode\n".toList :: code) g = .error .badFormat ∧
    (∀ lines : List (List Char), (∀ l ∈ lines, cString l ∉ sentinelLines) →
      lines.length ≤ MAX_OPS →
      loadLines ("$$LDcode\n".toList :: lines) g = .error .badFormat) := by
  have hrl : rs.length = code.length := hF.length_eq.symm
  have h1 := loadLines_container code rs hF hn s hs tl g
  have hno : ∀ lines : List (List Char), (∀ l ∈ lines, cString l ∉ sentinelLines) →
      lines.length ≤ MAX_OPS →
      loadLines ("$$LDcode\n".toList :: lines) g = .error .badFormat := by
    intro lines hl hlen
    simp only [loadLines, cString_header, ne_eq, not_true_eq_false, if_false]
    rw [loadCode_no_sentinel lines 0 g.Program hl (by omega)]
  refine ⟨h1, ?_, ?_, ?_, ?_, ?_, hno⟩
  · intro i hi
    rw [storeRecords_get rs 0 g.Program (by omega) i]
    have h2 : 0 ≤ i.val ∧ i.val < 0 + rs.length := by omega
    rw [if_pos h2]
    simp [List.getD, List.getElem?_eq_getElem hi]
  · intro i hi
    rw [storeRecords_get rs 0 g.Program (by omega) i]
    have h2 : ¬ (0 ≤ i.val ∧ i.val < 0 + rs.length) := by omega
    rw [if_neg h2]
  · intro g1 hg1
    rw [h1] at hg1
    exact (loadMaps_frame tl _ g1 hg1).1
  · rw [loadLines_container code rs hF hn s hs [] g]
    rfl
  · simp only [loadLines, ne_eq, not_true_eq_false, if_false]
    have e := loadCode_lines code rs hF [] 0 g.Program (by omega)
    rw [List.append_nil] at e
    rw [e]
    rfl

theorem C16_sentinel_ends_instruction_section_witness :
    List.Forall₂ (fun l r => (cString l).length = sizeofBinOp * 2 + 1 ∧
      decodeLine (cString l) = some r)
      [recordLine (fun _ => true) ⟨1, 2, 3, 4, 5⟩] [⟨1, 2, 3, 4, 5⟩] ∧
    [recordLine (fun _ => true) ⟨1, 2, 3, 4, 5⟩].length ≤ MAX_OPS ∧
    "$$int16s\n".toList ∈ sentinelLines ∧
    loadLines ("$$LDcode\n".toList :: ([recordLine (fun _ => true) ⟨1, 2, 3, 4, 5⟩] ++
        "$$int16s\n".toList :: [recordLine (fun _ => true) ⟨6, 7, 8, 9, 10⟩])) Globals.init =
      loadMaps [recordLine (fun _ => true) ⟨6, 7, 8, 9, 10⟩]
        { Globals.init with
          Program := storeRecords [⟨1, 2, 3, 4, 5⟩] 0 Globals.init.Program } :=
  ⟨List.Forall₂.cons ⟨rfl, rfl⟩ List.Forall₂.nil, by decide, by decide,
    (C16_sentinel_ends_instruction_section [recordLine (fun _ => true) ⟨1, 2, 3, 4, 5⟩]
      [⟨1, 2, 3, 4, 5⟩] (List.Forall₂.cons ⟨rfl, rfl⟩ List.Forall₂.nil) (by decide)
      "$$int16s\n".toList (by decide) [recordLine (fun _ => true) ⟨6, 7, 8, 9, 10⟩]
      Globals.init).1⟩

/-! ## Decimal numbers -/

theorem digitChar_isdigit (d : Nat) (hd : d < 10) :
    isdigit ((Nat.digitChar d).toNat : Int) = true ∧ (Nat.digitChar d).toNat - 48 = d := by
  interval_cases d <;> exact ⟨rfl, rfl⟩

theorem digitChar_ne_comma (d : Nat) (hd : d < 10) : Nat.digitChar d ≠ ',' := by
  interval_cases d <;> decide

theorem atoiDigits_toDigitsCore (fuel : Nat) :
    ∀ (n : Nat) (ds : List Char), n < fuel →
      atoiDigits 0 (Nat.toDigitsCore 10 fuel n ds) = atoiDigits n ds := by
  induction fuel with
  | zero => intro n ds h; omega
  | succ fuel ih =>
    intro n ds h
    have hd := digitChar_isdigit (n % 10) (Nat.mod_lt _ (by decide))
    simp only [Nat.toDigitsCore]
    split
    · rename_i h0
      simp only [atoiDigits, hd.1, if_true, hd.2]
      congr 1
      omega
    · rename_i h0
      rw [ih (n / 10) _ (by omega)]
      simp only [atoiDigits, hd.1, if_true, hd.2]
      congr 1
      omega

theorem toDigitsCore_acc (fuel : Nat) :
    ∀ (n : Nat) (ds : List Char),
      Nat.toDigitsCore 10 fuel n ds = Nat.toDigitsCore 10 fuel n [] ++ ds := by
  induction fuel with
  | zero => intro n ds; rfl
  | succ fuel ih =>
    intro n ds
    simp only [Nat.toDigitsCore]
    split
    · rfl
    · rw [ih (n / 10) (Nat.digitChar (n % 10) :: ds), ih (n / 10) [Nat.digitChar (n % 10)]]
      simp

theorem atoiDigits_toDigits (n : Nat) (rest : List Char) :
    atoiDigits 0 (Nat.toDigits 10 n ++ rest) = atoiDigits n rest := by
  unfold Nat.toDigits
  rw [← toDigitsCore_acc (n + 1) n rest]
  exact atoiDigits_toDigitsCore (n + 1) n rest (by omega)

theorem toDigitsCore_digits (fuel : Nat) :
    ∀ (n : Nat) (ds : List Char) (ch : Char), ch ∈ Nat.toDigitsCore 10 fuel n ds →
      ch ∈ ds ∨ ∃ d, d < 10 ∧ ch = Nat.digitChar d := by
  induction fuel with
  | zero => intro n ds ch h; exact Or.inl h
  | succ fuel ih =>
    intro n ds ch h
    simp only [Nat.toDigitsCore] at h
    split at h
    · simp only [List.mem_cons] at h
      rcases h with h | h
      · exact Or.inr ⟨n % 10, Nat.mod_lt _ (by decide), h⟩
      · exact Or.inl h
    · rcases ih _ _ ch h with h | h
      · simp only [List.mem_cons] at h
        rcases h with h | h
        · exact Or.inr ⟨n % 10, Nat.mod_lt _ (by decide), h⟩
        · exact Or.inl h
      · exact Or.inr h

theorem toDigits_digit (n : Nat) (ch : Char) (h : ch ∈ Nat.toDigits 10 n) :
    ∃ d, d < 10 ∧ ch = Nat.digitChar d := by
  rcases toDigitsCore_digits (n + 1) n [] ch h with h | h
  · simp at h
  · exact h

theorem toDigits_ne_nil (n : Nat) : Nat.toDigits 10 n ≠ [] := by
  unfold Nat.toDigits
  rw [toDigitsCore_acc]
  simp only [Nat.toDigitsCore]
  split
  · simp
  · rw [toDigitsCore_acc]
    simp

theorem toDigits_head_digit (n : Nat) :
    ∃ d ds, d < 10 ∧ Nat.toDigits 10 n = Nat.digitChar d :: ds := by
  cases h : Nat.toDigits 10 n with
  | nil => exact absurd h (toDigits_ne_nil n)
  | cons ch ds =>
    obtain ⟨d, hd, e⟩ := toDigits_digit n ch (by rw [h]; simp)
    exact ⟨d, ds, hd, by rw [e]⟩

/-- The number `atoi` reads from the decimal digits of `n` followed by a character that is
no digit. -/
theorem atoiValue_toDigits (n : Nat) (ch : Char) (rest : List Char)
    (hch : isdigit (ch.toNat : Int) = false) :
    atoiValue (Nat.toDigits 10 n ++ ch :: rest) = (n : Int) := by
  obtain ⟨d, ds, hd, e⟩ := toDigits_head_digit n
  have hval : atoiDigits 0 (Nat.toDigits 10 n ++ ch :: rest) = n := by
    rw [atoiDigits_toDigits]
    simp [atoiDigits, hch]
  unfold atoiValue
  rw [e] at hval ⊢
  have hsp : isspace (Nat.digitChar d) = false := by
    interval_cases d <;> rfl
  have hm : Nat.digitChar d ≠ '-' := by interval_cases d <;> decide
  have hp : Nat.digitChar d ≠ '+' := by interval_cases d <;> decide
  simp only [List.cons_append, List.dropWhile_cons, hsp, Bool.false_eq_true, if_false]
  split
  · rename_i r heq
    injection heq with h1 _
    exact absurd h1 hm
  · rename_i r heq
    injection heq with h1 _
    exact absurd h1 hp
  · rw [← List.cons_append, hval]

theorem atoiValue_neg_toDigits (n : Nat) (ch : Char) (rest : List Char)
    (hch : isdigit (ch.toNat : Int) = false) :
    atoiValue ('-' :: (Nat.toDigits 10 n ++ ch :: rest)) = -(n : Int) := by
  have hval : atoiDigits 0 (Nat.toDigits 10 n ++ ch :: rest) = n := by
    rw [atoiDigits_toDigits]
    simp [atoiDigits, hch]
  unfold atoiValue
  have hsp : isspace '-' = false := rfl
  simp only [List.dropWhile_cons, hsp, Bool.false_eq_true, if_false, hval]

theorem splitComma_digits (pre : List Char) (hpre : ',' ∉ pre) (post : List Char) :
    splitComma (pre ++ ',' :: post) = some (pre, post) := by
  induction pre with
  | nil => simp [splitComma]
  | cons ch p ih =>
    have hch : ch ≠ ',' := fun h => hpre (by simp [h])
    have hp : ',' ∉ p := fun h => hpre (by simp [h])
    show splitComma (ch :: (p ++ ',' :: post)) = _
    simp only [splitComma, hch, if_false, ih hp]

theorem toDigits_no_comma (n : Nat) : ',' ∉ Nat.toDigits 10 n := by
  intro h
  obtain ⟨d, hd, e⟩ := toDigits_digit n ',' h
  exact digitChar_ne_comma d hd e.symm

/-! ## The mapping loop -/

theorem atoiValue_toDigits_end (n : Nat) : atoiValue (Nat.toDigits 10 n) = (n : Int) := by
  obtain ⟨d, ds, hd, e⟩ := toDigits_head_digit n
  have hval : atoiDigits 0 (Nat.toDigits 10 n) = n := by
    have := atoiDigits_toDigits n []
    rw [List.append_nil] at this
    rw [this]
    rfl
  unfold atoiValue
  rw [e] at hval ⊢
  have hsp : isspace (Nat.digitChar d) = false := by
    interval_cases d <;> rfl
  have hm : Nat.digitChar d ≠ '-' := by interval_cases d <;> decide
  have hp : Nat.digitChar d ≠ '+' := by interval_cases d <;> decide
  simp only [List.dropWhile_cons, hsp, Bool.false_eq_true, if_false]
  split
  · rename_i r heq
    injection heq with h1 _
    exact absurd h1 hm
  · rename_i r heq
    injection heq with h1 _
    exact absurd h1 hp
  · rw [hval]

theorem atoiValue_skip_space (ws s : List Char) (h : ∀ ch ∈ ws, isspace ch = true) :
    atoiValue (ws ++ s) = atoiValue s := by
  have e : (ws ++ s).dropWhile isspace = s.dropWhile isspace := by
    induction ws with
    | nil => rfl
    | cons a w ih =>
      have ha := h a (by simp)
      simp only [List.cons_append, List.dropWhile_cons, ha, if_true]
      exact ih (fun x hx => h x (by simp [hx]))
  unfold atoiValue
  rw [e]

theorem atoi_of_value (s : List Char) (v : Int) (h : atoiValue s = v) (hv : IsInt32 v) :
    atoi s = some v := by
  unfold atoi
  rw [h, if_pos hv]

theorem atoi_overflow (s : List Char) (v : Int) (h : atoiValue s = v) (hv : ¬ IsInt32 v) :
    atoi s = none := by
  unfold atoi
  rw [h, if_neg hv]

theorem atoi_isInt32 (s : List Char) (v : Int) (h : atoi s = some v) : IsInt32 v := by
  unfold atoi at h
  split at h
  · injection h with h
    rw [← h]
    assumption
  · cases h

theorem isInt32_ofNat (n : Nat) (h : (n : Int) < 2 ^ 31) : IsInt32 (n : Int) :=
  ⟨le_trans (by norm_num) (Int.ofNat_nonneg n), h⟩

/-- The value `atoi` returns for the decimal digits of `n`, an `int` value, followed by a
character that is no digit. -/
theorem atoi_toDigits (n : Nat) (ch : Char) (rest : List Char)
    (hch : isdigit (ch.toNat : Int) = false) (hn : (n : Int) < 2 ^ 31) :
    atoi (Nat.toDigits 10 n ++ ch :: rest) = some (n : Int) :=
  atoi_of_value _ _ (atoiValue_toDigits n ch rest hch) (isInt32_ofNat n hn)

theorem atoi_toDigits_end (n : Nat) (hn : (n : Int) < 2 ^ 31) :
    atoi (Nat.toDigits 10 n) = some (n : Int) :=
  atoi_of_value _ _ (atoiValue_toDigits_end n) (isInt32_ofNat n hn)

theorem atoi_skip_space (ws s : List Char) (h : ∀ ch ∈ ws, isspace ch = true) :
    atoi (ws ++ s) = atoi s := by
  unfold atoi
  rw [atoiValue_skip_space ws s h]

theorem toDigits_no_nul (n : Nat) : ∀ ch ∈ Nat.toDigits 10 n, ch.toNat ≠ 0 := by
  intro ch h
  obtain ⟨d, hd, e⟩ := toDigits_digit n ch h
  subst e
  interval_cases d <;> decide

theorem isspace_no_nul (x : Char) (h : isspace x = true) : x.toNat ≠ 0 := by
  intro h0
  unfold isspace at h
  simp only [Bool.or_eq_true, decide_eq_true_eq] at h
  rcases h with ((((h | h) | h) | h) | h) | h
  · subst h; exact absurd h0 (by decide)
  · subst h; exact absurd h0 (by decide)
  · subst h; exact absurd h0 (by decide)
  · omega
  · omega
  · subst h; exact absurd h0 (by decide)

/-- The value `atoi` returns for a cycle-time line: `$$cycle`, white space, the digits of
`k` and a character that is no digit. -/
theorem atoi_cycle_line (k : Nat) (ws rest : List Char) (ch : Char) (hk : (k : Int) < 2 ^ 31)
    (hws : ∀ x ∈ ws, isspace x = true) (hch : isdigit (ch.toNat : Int) = false) :
    isCycleLine ("$$cycle".toList ++ (ws ++ (Nat.toDigits 10 k ++ ch :: rest))) ∧
    atoi ((cString ("$$cycle".toList ++ (ws ++ (Nat.toDigits 10 k ++ ch :: rest)))).drop 7)
      = some (k : Int) := by
  have h1 : cString ("$$cycle".toList ++ (ws ++ (Nat.toDigits 10 k ++ ch :: rest))) =
      "$$cycle".toList ++ (ws ++ (Nat.toDigits 10 k ++ cString (ch :: rest))) := by
    rw [cString_append _ _ (by decide), cString_append _ _ (fun x hx => isspace_no_nul x (hws x hx)),
      cString_append _ _ (toDigits_no_nul k)]
  have e : ∀ t : List Char, ("$$cycle".toList ++ t).drop 7 = t := fun _ => rfl
  have e7 : ∀ t : List Char, ("$$cycle".toList ++ t).take 7 = "$$cycle".toList := fun _ => rfl
  refine ⟨by unfold isCycleLine; rw [h1, e7], ?_⟩
  rw [h1, e, atoi_skip_space ws _ hws]
  by_cases h0 : ch.toNat ≠ 0
  · have : cString (ch :: rest) = ch :: cString rest := by
      simp [cString, List.takeWhile_cons, h0]
    rw [this]
    exact atoi_toDigits k ch _ hch hk
  · have : cString (ch :: rest) = [] := by
      simp only [ne_eq, not_not] at h0
      simp [cString, List.takeWhile_cons, h0]
    rw [this, List.append_nil]
    exact atoi_toDigits_end k hk

theorem mappingLine_split (letter : Char) (hl : letter ≠ ',') (n addr : Nat) :
    splitComma (mappingLine letter n addr) =
      some (letter :: Nat.toDigits 10 n, Nat.toDigits 10 addr ++ ['\n']) := by
  have h : ',' ∉ letter :: Nat.toDigits 10 n := by
    simp only [List.mem_cons, not_or]
    exact ⟨fun e => hl e.symm, toDigits_no_comma n⟩
  exact splitComma_digits (letter :: Nat.toDigits 10 n) h _

theorem mappingLine_cString (letter : Char) (hl : letter.toNat ≠ 0) (n addr : Nat) :
    cString (mappingLine letter n addr) = mappingLine letter n addr := by
  apply cString_eq_self
  intro ch hch
  simp only [mappingLine, List.mem_cons, List.mem_append, List.mem_singleton,
    List.not_mem_nil, or_false] at hch
  rcases hch with rfl | hch | rfl | hch | rfl
  · exact hl
  · exact toDigits_no_nul n ch hch
  · decide
  · exact toDigits_no_nul addr ch hch
  · decide

theorem not_cycle_of_head (l : List Char) (ch : Char) (h : (cString l).head? = some ch)
    (hc : ch ≠ '$') : ¬ isCycleLine l := by
  unfold isCycleLine
  cases hs : cString l with
  | nil => rw [hs] at h; simp at h
  | cons a t =>
    rw [hs] at h
    simp only [List.head?_cons, Option.some.injEq] at h
    subst h
    intro e
    have e2 : a = '$' := by
      have := congrArg List.head? e
      simpa using this
    exact hc e2

/-- The body of the mapping loop on a line `X<n>,<addr>` whose numbers fit an `int`. -/
theorem mapLine_input (n addr : Nat) (hn : (n : Int) < 2 ^ 31) (ha : (addr : Int) < 2 ^ 31)
    (g : Globals) :
    mapLine (mappingLine 'X' n addr) g =
      if h : n < MAX_INPUT then
        .ok { g with InputMap := Function.update g.InputMap ⟨n, h⟩ (addr : Int) }
      else .ok g := by
  have hcs := mappingLine_cString 'X' (by decide) n addr
  have hsplit := mappingLine_split 'X' (by decide) n addr
  have hreg : atoi ((('X' : Char) :: Nat.toDigits 10 n).drop 1) = some (n : Int) := by
    simp only [List.drop_succ_cons, List.drop_zero]
    exact atoi_toDigits_end n hn
  have haddr : atoi (Nat.toDigits 10 addr ++ ['\n']) = some (addr : Int) :=
    atoi_toDigits addr '\n' [] rfl ha
  have hhead : (mappingLine 'X' n addr).head? = some 'X' := rfl
  have hnc : ¬ (mappingLine 'X' n addr).take 7 = "$$cycle".toList := by
    have := not_cycle_of_head (mappingLine 'X' n addr) 'X' (by rw [hcs]; rfl) (by decide)
    unfold isCycleLine at this
    rw [hcs] at this
    exact this
  have hin : inputLine (mappingLine 'X' n addr) g =
      if h : n < MAX_INPUT then
        .ok { g with InputMap := Function.update g.InputMap ⟨n, h⟩ (addr : Int) }
      else .ok g := by
    unfold inputLine
    rw [hsplit]
    simp only [hreg, haddr]
    by_cases h : n < MAX_INPUT
    · have h2 : (n : Int) < (MAX_INPUT : Nat) := by exact_mod_cast h
      have hc : cell MAX_INPUT (n : Int) = some ⟨n, h⟩ := cell_of_eq _ _ ⟨n, h⟩ rfl
      rw [if_pos h2, dif_pos h, hc]
    · have h2 : ¬ ((n : Int) < (MAX_INPUT : Nat)) := by exact_mod_cast h
      rw [if_neg h2, dif_neg h]
  unfold mapLine
  rw [hcs, if_pos hhead, hin]
  by_cases h : n < MAX_INPUT
  · simp only [dif_pos h, if_neg hnc]
  · simp only [dif_neg h, if_neg hnc]

theorem loadMaps_append (pre : List (List Char)) :
    ∀ (post : List (List Char)) (g g1 : Globals), loadMaps pre g = .ok g1 →
      loadMaps (pre ++ post) g = loadMaps post g1 := by
  induction pre with
  | nil =>
    intro post g g1 h
    simp only [loadMaps] at h
    injection h with h
    subst h
    rfl
  | cons l ls ih =>
    intro post g g1 h
    simp only [loadMaps, List.cons_append] at h ⊢
    cases hm : mapLine l g with
    | error e => rw [hm] at h; exact absurd h (by simp)
    | ok g2 =>
      rw [hm] at h
      exact ih post g2 g1 h

theorem inputLine_ok (l : List Char) (g : Globals)
    (h : ∃ before after reg addr, splitComma l = some (before, after) ∧
      atoi (before.drop 1) = some reg ∧ atoi after = some addr ∧ 0 ≤ reg) :
    ∃ g1, inputLine l g = .ok g1 ∧ g1.CycleTime = g.CycleTime := by
  obtain ⟨before, after, reg, addr, hs, hreg, haddr, h0⟩ := h
  unfold inputLine
  rw [hs]
  simp only [hreg, haddr]
  by_cases hlt : reg < (MAX_INPUT : Nat)
  · rw [if_pos hlt]
    obtain ⟨i, hi⟩ := cell_inRange MAX_INPUT reg ⟨h0, hlt⟩
    rw [hi]
    exact ⟨_, rfl, rfl⟩
  · rw [if_neg hlt]
    exact ⟨g, rfl, rfl⟩

/-- What one pass of the mapping loop does to `CycleTime`. -/
theorem mapLine_cycle (l : List Char) (g : Globals) (hok : inputLineOk l)
    (hcy : cycleLineOk l) :
    ∃ g1, mapLine l g = .ok g1 ∧
      (isCycleLine l → atoi ((cString l).drop 7) = some g1.CycleTime) ∧
      (¬ isCycleLine l → g1.CycleTime = g.CycleTime) := by
  unfold mapLine
  by_cases hX : (cString l).head? = some 'X'
  · obtain ⟨g1, h1, h2⟩ := inputLine_ok (cString l) g (hok hX)
    have hnc : ¬ isCycleLine l := not_cycle_of_head l 'X' hX (by decide)
    rw [if_pos hX, h1]
    have hnc2 := hnc
    unfold isCycleLine at hnc2
    simp only [if_neg hnc2]
    exact ⟨g1, rfl, fun h => absurd h hnc, fun _ => h2⟩
  · rw [if_neg hX]
    by_cases hc : isCycleLine l
    · obtain ⟨k, hk⟩ := hcy hc
      have hc2 := hc
      unfold isCycleLine at hc2
      simp only [if_pos hc2, hk]
      exact ⟨_, rfl, fun _ => rfl, fun h => absurd hc h⟩
    · have hc2 := hc
      unfold isCycleLine at hc2
      simp only [if_neg hc2]
      exact ⟨g, rfl, fun h => absurd h hc, fun _ => rfl⟩

theorem loadMaps_no_cycle (tl : List (List Char)) :
    ∀ g : Globals, (∀ l ∈ tl, inputLineOk l) → (∀ l ∈ tl, ¬ isCycleLine l) →
      ∃ g1, loadMaps tl g = .ok g1 ∧ g1.CycleTime = g.CycleTime := by
  induction tl with
  | nil => intro g _ _; exact ⟨g, rfl, rfl⟩
  | cons l ls ih =>
    intro g hok hnc
    have hl := hnc l (by simp)
    obtain ⟨g2, h2, _, hc2⟩ := mapLine_cycle l g (hok l (by simp)) (fun h => absurd h hl)
    obtain ⟨g1, h1, hc1⟩ := ih g2 (fun x hx => hok x (by simp [hx]))
      (fun x hx => hnc x (by simp [hx]))
    exact ⟨g1, by simp only [loadMaps, h2, h1], hc1.trans (hc2 hl)⟩

theorem loadMaps_ok (tl : List (List Char)) :
    ∀ g : Globals, (∀ l ∈ tl, inputLineOk l) → (∀ l ∈ tl, cycleLineOk l) →
      ∃ g1, loadMaps tl g = .ok g1 := by
  induction tl with
  | nil => intro g _ _; exact ⟨g, rfl⟩
  | cons l ls ih =>
    intro g hok hcy
    obtain ⟨g2, h2, _⟩ := mapLine_cycle l g (hok l (by simp)) (hcy l (by simp))
    obtain ⟨g1, h1⟩ := ih g2 (fun x hx => hok x (by simp [hx]))
      (fun x hx => hcy x (by simp [hx]))
    exact ⟨g1, by simp only [loadMaps, h2, h1]⟩

/-- The last cycle-time line of the mapping section decides `CycleTime`. -/
theorem loadMaps_last_cycle (pre post : List (List Char)) (l : List Char) (g : Globals)
    (hok : ∀ x ∈ pre ++ l :: post, inputLineOk x)
    (hcy : ∀ x ∈ pre ++ l :: post, cycleLineOk x) (hl : isCycleLine l)
    (hpost : ∀ x ∈ post, ¬ isCycleLine x) :
    ∃ g1, loadMaps (pre ++ l :: post) g = .ok g1 ∧
      atoi ((cString l).drop 7) = some g1.CycleTime := by
  obtain ⟨ga, ha⟩ := loadMaps_ok pre g (fun x hx => hok x (by simp [hx]))
    (fun x hx => hcy x (by simp [hx]))
  obtain ⟨gb, hb, hcb, _⟩ := mapLine_cycle l ga (hok l (by simp)) (hcy l (by simp))
  obtain ⟨g1, h1, hc1⟩ := loadMaps_no_cycle post gb (fun x hx => hok x (by simp [hx])) hpost
  refine ⟨g1, ?_, by rw [hc1]; exact hcb hl⟩
  rw [loadMaps_append pre (l :: post) g ga ha]
  simp only [loadMaps, hb, h1]

/-- C17, as stated, fails for numbers that do not fit an `int`.  For the line
`X3,4294967299` the field `InputMap[3].addr`, an `int`, cannot hold 4294967299, and for
`X2147483648,5` the index is not ignored as one beyond `MAX_INPUT`: in both `atoi` is
called on a number outside the range of `int`, for which C defines no result, and the
load does not go through as claimed. -/
theorem C17_number_beyond_int_counterexample :
    mappingLine 'X' 3 4294967299 = "X3,4294967299\n".toList ∧ 3 < MAX_INPUT ∧
    ¬ IsInt32 4294967299 ∧
    atoi "4294967299\n".toList = none ∧
    mapLine (mappingLine 'X' 3 4294967299) Globals.init = .error .overflow ∧
    LoadProgram (some "$$LDcode\n$$bits\nX3,4294967299\n".toList) Globals.init =
      .error .overflow ∧
    mappingLine 'X' 2147483648 5 = "X2147483648,5\n".toList ∧ MAX_INPUT ≤ 2147483648 ∧
    atoi "2147483648".toList = none ∧
    mapLine (mappingLine 'X' 2147483648 5) Globals.init = .error .overflow ∧
    LoadProgram (some "$$LDcode\n$$bits\nX2147483648,5\n".toList) Globals.init =
      .error .overflow := by
  refine ⟨by decide, by decide, by decide, by decide, rfl, rfl, by decide, by decide,
    by decide, rfl, rfl⟩

/-- C17, amended: in the mapping loop a line `X<n>,<addr>` whose decimal numbers `n` and
`addr` fit an `int` (both below 2^31), with `n < MAX_INPUT` stores `addr` to
`InputMap[n].addr` and changes nothing else; with `n >= MAX_INPUT` it changes nothing and
is no error.  So a container whose mapping section is this line is loaded with exactly
that input map. -/
theorem C17_input_mapping_line (n addr : Nat) (hn31 : (n : Int) < 2 ^ 31)
    (haddr : (addr : Int) < 2 ^ 31) (code : List (List Char)) (rs : List BinOp)
    (hF : List.Forall₂ (fun l r => (cString l).length = sizeofBinOp * 2 + 1 ∧
      decodeLine (cString l) = some r)
      code rs)
    (hc : code.length ≤ MAX_OPS) (s : List Char) (hs : s ∈ sentinelLines) (g : Globals) :
    (∀ h : n < MAX_INPUT,
      mapLine (mappingLine 'X' n addr) g =
        .ok { g with InputMap := Function.update g.InputMap ⟨n, h⟩ (addr : Int) } ∧
      loadLines ("$$LDcode\n".toList :: (code ++ s :: [mappingLine 'X' n addr])) g =
        .ok { g with Program := storeRecords rs 0 g.Program,
                     InputMap := Function.update g.InputMap ⟨n, h⟩ (addr : Int) }) ∧
    (MAX_INPUT ≤ n →
      mapLine (mappingLine 'X' n addr) g = .ok g ∧
      loadLines ("$$LDcode\n".toList :: (code ++ s :: [mappingLine 'X' n addr])) g =
        .ok { g with Program := storeRecords rs 0 g.Program }) := by
  refine ⟨?_, ?_⟩
  · intro h
    refine ⟨by rw [mapLine_input n addr hn31 haddr, dif_pos h], ?_⟩
    rw [loadLines_container code rs hF hc s hs]
    simp only [loadMaps, mapLine_input n addr hn31 haddr, dif_pos h]
  · intro h
    have h2 : ¬ n < MAX_INPUT := by omega
    refine ⟨by rw [mapLine_input n addr hn31 haddr, dif_neg h2], ?_⟩
    rw [loadLines_container code rs hF hc s hs]
    simp only [loadMaps, mapLine_input n addr hn31 haddr, dif_neg h2]

theorem C17_input_mapping_line_witness :
    ((3 : Nat) : Int) < 2 ^ 31 ∧ ((17 : Nat) : Int) < 2 ^ 31 ∧
    List.Forall₂ (fun l r => (cString l).length = sizeofBinOp * 2 + 1 ∧
      decodeLine (cString l) = some r) [] [] ∧
    ([] : List (List Char)).length ≤ MAX_OPS ∧ "$$bits\n".toList ∈ sentinelLines ∧
    mappingLine 'X' 3 17 = "X3,17\n".toList ∧
    ∀ h : 3 < MAX_INPUT,
      mapLine (mappingLine 'X' 3 17) Globals.init =
        .ok { Globals.init with
          InputMap := Function.update Globals.init.InputMap ⟨3, h⟩ ((17 : Nat) : Int) } ∧
      loadLines ("$$LDcode\n".toList :: ([] ++ "$$bits\n".toList :: [mappingLine 'X' 3 17]))
          Globals.init =
        .ok { Globals.init with
          Program := storeRecords [] 0 Globals.init.Program,
          InputMap := Function.update Globals.init.InputMap ⟨3, h⟩ ((17 : Nat) : Int) } :=
  ⟨by decide, by decide, List.Forall₂.nil, by decide, by decide, by decide,
    (C17_input_mapping_line 3 17 (by decide) (by decide) [] [] List.Forall₂.nil (by decide)
      "$$bits\n".toList (by decide) Globals.init).1⟩

/-- C18: the lines `Y1,7` and `A0,9` of a mapping section are read and change nothing:
`OutputMap[1].addr` and `AnalogMap[0].addr` keep the value 0 they had, where they should
hold 7 and 9.  No load ever stores to `OutputMap` or to `AnalogMap`. -/
theorem C18_output_and_analog_lines_store_nothing :
    mappingLine 'Y' 1 7 = "Y1,7\n".toList ∧ mappingLine 'A' 0 9 = "A0,9\n".toList ∧
    LoadProgram (some "$$LDcode\n$$bits\nY1,7\nA0,9\n".toList) Globals.init =
      .ok Globals.init ∧
    Globals.init.OutputMap 1 = 0 ∧ Globals.init.AnalogMap 0 = 0 ∧
    ∀ (file : Option (List Char)) (g g1 : Globals), LoadProgram file g = .ok g1 →
      g1.OutputMap = g.OutputMap ∧ g1.AnalogMap = g.AnalogMap := by
  refine ⟨by decide, by decide, rfl, rfl, rfl, ?_⟩
  intro file g g1 h
  cases file with
  | none => exact absurd h (by simp [LoadProgram])
  | some text =>
    simp only [LoadProgram, loadLines] at h
    split at h
    · exact absurd h (by simp)
    · split at h
      · exact absurd h (by simp)
      · split at h
        · exact absurd h (by simp)
        · have := loadMaps_frame _ _ g1 h
          exact ⟨this.2.1, this.2.2⟩

/-- C19: the line `X-1,5` passes the test `reg < MAX_INPUT` with `reg = -1`, and the store
`InputMap[reg].addr = addr` then goes outside the array, before its first element, where
the line should change nothing. -/
theorem C19_negative_index_is_stored_out_of_bounds :
    atoi "-1".toList = some (-1) ∧ cell MAX_INPUT (-1) = none ∧
    mapLine "X-1,5\n".toList Globals.init = .error .outOfBounds ∧
    LoadProgram (some "$$LDcode\n$$bits\nX-1,5\n".toList) Globals.init =
      .error .outOfBounds := by
  refine ⟨by decide, by decide, rfl, rfl⟩

/-- C20, as stated, fails: in the container whose mapping section is the line
`$$cycle 4294967303` the number after `$$cycle` is no value of `int CycleTime`; `atoi` is
called on it, for which C defines no result, and `CycleTime` cannot end as 4294967303. -/
theorem C20_cycle_number_beyond_int_counterexample :
    isCycleLine "$$cycle 4294967303\n".toList ∧
    atoiValue ("$$cycle 4294967303\n".toList.drop 7) = 4294967303 ∧
    ¬ IsInt32 4294967303 ∧
    atoi ("$$cycle 4294967303\n".toList.drop 7) = none ∧
    mapLine "$$cycle 4294967303\n".toList Globals.init = .error .overflow ∧
    LoadProgram (some "$$LDcode\n$$bits\n$$cycle 4294967303\n".toList) Globals.init =
      .error .overflow := by
  refine ⟨by decide, by decide, by decide, by decide, rfl, rfl⟩

/-- C20, amended: `CycleTime` is 10 before any load.  In a load that goes through (every
line of the mapping section beginning with `X` has its comma, numbers that fit an `int`
and an index that is not negative, and every line beginning with `$$cycle` a number that
fits an `int`), `CycleTime` ends as the value `atoi` returns for the text after the seven
characters `$$cycle` of the last line of the mapping section that begins with them, which
for `$$cycle`, optional white space, the decimal digits of `k < 2^31` and a character that
is no digit is `k`; without such a line `CycleTime` keeps the value it had before the
load. -/
theorem C20_cycle_time (code : List (List Char)) (rs : List BinOp)
    (hF : List.Forall₂ (fun l r => (cString l).length = sizeofBinOp * 2 + 1 ∧
      decodeLine (cString l) = some r)
      code rs)
    (hc : code.length ≤ MAX_OPS) (s : List Char) (hs : s ∈ sentinelLines) (g : Globals) :
    Globals.init.CycleTime = 10 ∧
    (∀ (pre post : List (List Char)) (l : List Char),
      (∀ x ∈ pre ++ l :: post, inputLineOk x) → (∀ x ∈ pre ++ l :: post, cycleLineOk x) →
      isCycleLine l → (∀ x ∈ post, ¬ isCycleLine x) →
      ∃ g1, loadLines ("$$LDcode\n".toList :: (code ++ s :: (pre ++ l :: post))) g = .ok g1 ∧
        atoi ((cString l).drop 7) = some g1.CycleTime) ∧
    (∀ (k : Nat) (ws rest : List Char) (ch : Char), (k : Int) < 2 ^ 31 →
      (∀ x ∈ ws, isspace x = true) → isdigit (ch.toNat : Int) = false →
      isCycleLine ("$$cycle".toList ++ (ws ++ (Nat.toDigits 10 k ++ ch :: rest))) ∧
      atoi ((cString ("$$cycle".toList ++ (ws ++ (Nat.toDigits 10 k ++ ch :: rest)))).drop 7)
        = some (k : Int)) ∧
    (∀ tl : List (List Char), (∀ x ∈ tl, inputLineOk x) → (∀ x ∈ tl, ¬ isCycleLine x) →
      ∃ g1, loadLines ("$$LDcode\n".toList :: (code ++ s :: tl)) g = .ok g1 ∧
        g1.CycleTime = g.CycleTime) := by
  refine ⟨rfl, ?_, ?_, ?_⟩
  · intro pre post l hok hcy hl hpost
    rw [loadLines_container code rs hF hc s hs]
    exact loadMaps_last_cycle pre post l _ hok hcy hl hpost
  · intro k ws rest ch hk hws hch
    exact atoi_cycle_line k ws rest ch hk hws hch
  · intro tl hok hnc
    rw [loadLines_container code rs hF hc s hs]
    exact loadMaps_no_cycle tl _ hok hnc

theorem C20_cycle_time_witness :
    List.Forall₂ (fun l r => (cString l).length = sizeofBinOp * 2 + 1 ∧
      decodeLine (cString l) = some r) [] [] ∧
    ([] : List (List Char)).length ≤ MAX_OPS ∧ "$$bits\n".toList ∈ sentinelLines ∧
    (∀ x ∈ ["$$cycle 5 us\n".toList] ++ "$$cycle 10000 us\n".toList :: ["X1,4\n".toList],
      inputLineOk x) ∧
    (∀ x ∈ ["$$cycle 5 us\n".toList] ++ "$$cycle 10000 us\n".toList :: ["X1,4\n".toList],
      cycleLineOk x) ∧
    isCycleLine "$$cycle 10000 us\n".toList ∧
    (∀ x ∈ ["X1,4\n".toList], ¬ isCycleLine x) ∧
    atoi ((cString "$$cycle 10000 us\n".toList).drop 7) = some 10000 ∧
    ∃ g1, loadLines ("$$LDcode\n".toList :: ([] ++ "$$bits\n".toList ::
        (["$$cycle 5 us\n".toList] ++ "$$cycle 10000 us\n".toList :: ["X1,4\n".toList])))
        Globals.init = .ok g1 ∧
      atoi ((cString "$$cycle 10000 us\n".toList).drop 7) = some g1.CycleTime :=
  have hok : ∀ x ∈ ["$$cycle 5 us\n".toList] ++ "$$cycle 10000 us\n".toList ::
      ["X1,4\n".toList], inputLineOk x := by
    intro x hx
    simp only [List.singleton_append, List.mem_cons, List.mem_singleton, List.not_mem_nil,
      or_false] at hx
    rcases hx with rfl | rfl | rfl
    · intro h; exact absurd h (by decide)
    · intro h; exact absurd h (by decide)
    · intro _; exact ⟨"X1".toList, "4\n".toList, 1, 4, by decide, by decide, by decide,
        by decide⟩
  have hcy : ∀ x ∈ ["$$cycle 5 us\n".toList] ++ "$$cycle 10000 us\n".toList ::
      ["X1,4\n".toList], cycleLineOk x := by
    intro x hx
    simp only [List.singleton_append, List.mem_cons, List.mem_singleton, List.not_mem_nil,
      or_false] at hx
    rcases hx with rfl | rfl | rfl
    · intro _; exact ⟨5, by decide⟩
    · intro _; exact ⟨10000, by decide⟩
    · intro h; exact absurd h (by decide)
  have hpost : ∀ x ∈ ["X1,4\n".toList], ¬ isCycleLine x := by
    intro x hx
    simp only [List.mem_singleton] at hx
    subst hx
    decide
  ⟨List.Forall₂.nil, by decide, by decide, hok, hcy, by decide, hpost, by decide,
    (C20_cycle_time [] [] List.Forall₂.nil (by decide) "$$bits\n".toList (by decide)
      Globals.init).2.1 ["$$cycle 5 us\n".toList] ["X1,4\n".toList]
      "$$cycle 10000 us\n".toList hok hcy (by decide) hpost⟩

/-! ## Running off the end of `Program` -/

theorem execOp_if_bit_set (c : IntCodes) (hc : c.Distinct) (p : BinOp) (pc : Int)
    (m : Memory) (hop : p.op = c.INT_IF_BIT_SET)
    (i : Fin MAX_INTERNAL_RELAYS) (hi : p.name1 = (i : Int)) :
    execOp c p pc m = .next (if m.Bits i = 0 then p.name3 else pc) m := by
  simp [execOp, decode_INT_IF_BIT_SET c hc _ hop, withBit_eq m _ i hi]

theorem execOp_if_bit_clear (c : IntCodes) (hc : c.Distinct) (p : BinOp) (pc : Int)
    (m : Memory) (hop : p.op = c.INT_IF_BIT_CLEAR)
    (i : Fin MAX_INTERNAL_RELAYS) (hi : p.name1 = (i : Int)) :
    execOp c p pc m = .next (if m.Bits i ≠ 0 then p.name3 else pc) m := by
  simp [execOp, decode_INT_IF_BIT_CLEAR c hc _ hop, withBit_eq m _ i hi]

theorem execOp_if_les_literal (c : IntCodes) (hc : c.Distinct) (p : BinOp) (pc : Int)
    (m : Memory) (hop : p.op = c.INT_IF_VARIABLE_LES_LITERAL)
    (i : Fin MAX_VARIABLES) (hi : p.name1 = (i : Int)) :
    execOp c p pc m = .next (if ¬ (m.Integers i < p.literal1) then p.name3 else pc) m := by
  simp only [execOp, decode_INT_IF_VARIABLE_LES_LITERAL c hc _ hop, withInt_eq m _ i hi]

theorem execOp_if_geq (c : IntCodes) (hc : c.Distinct) (p : BinOp) (pc : Int)
    (m : Memory) (hop : p.op = c.INT_IF_GEQ)
    (i : Fin MAX_VARIABLES) (hi : p.name1 = (i : Int)) :
    execOp c p pc m = .next (if ¬ (m.Integers i ≥ p.literal1) then p.name3 else pc) m := by
  simp only [execOp, decode_INT_IF_GEQ c hc _ hop, withInt_eq m _ i hi]

theorem execOp_if_leq (c : IntCodes) (hc : c.Distinct) (p : BinOp) (pc : Int)
    (m : Memory) (hop : p.op = c.INT_IF_LEQ)
    (i : Fin MAX_VARIABLES) (hi : p.name1 = (i : Int)) :
    execOp c p pc m = .next (if ¬ (m.Integers i ≤ p.literal1) then p.name3 else pc) m := by
  simp only [execOp, decode_INT_IF_LEQ c hc _ hop, withInt_eq m _ i hi]

theorem execOp_if_equals (c : IntCodes) (hc : c.Distinct) (p : BinOp) (pc : Int)
    (m : Memory) (hop : p.op = c.INT_IF_VARIABLE_EQUALS_VARIABLE)
    (i : Fin MAX_VARIABLES) (hi : p.name1 = (i : Int))
    (j : Fin MAX_VARIABLES) (hj : p.name2 = (j : Int)) :
    execOp c p pc m =
      .next (if ¬ (m.Integers i = m.Integers j) then p.name3 else pc) m := by
  simp only [execOp, decode_INT_IF_VARIABLE_EQUALS_VARIABLE c hc _ hop, withInt_eq m _ i hi,
    withInt_eq m _ j hj]

theorem execOp_if_grt (c : IntCodes) (hc : c.Distinct) (p : BinOp) (pc : Int)
    (m : Memory) (hop : p.op = c.INT_IF_VARIABLE_GRT_VARIABLE)
    (i : Fin MAX_VARIABLES) (hi : p.name1 = (i : Int))
    (j : Fin MAX_VARIABLES) (hj : p.name2 = (j : Int)) :
    execOp c p pc m =
      .next (if ¬ (m.Integers i > m.Integers j) then p.name3 else pc) m := by
  simp only [execOp, decode_INT_IF_VARIABLE_GRT_VARIABLE c hc _ hop, withInt_eq m _ i hi,
    withInt_eq m _ j hj]

theorem execOp_if_neq (c : IntCodes) (hc : c.Distinct) (p : BinOp) (pc : Int)
    (m : Memory) (hop : p.op = c.INT_IF_NEQ)
    (i : Fin MAX_VARIABLES) (hi : p.name1 = (i : Int))
    (j : Fin MAX_VARIABLES) (hj : p.name2 = (j : Int)) :
    execOp c p pc m = .next p.name3 m := by
  simp only [execOp, decode_INT_IF_NEQ c hc _ hop, withInt_eq m _ i hi, withInt_eq m _ j hj]
  by_cases h : m.Integers i = m.Integers j <;> simp [h]

theorem withBit_inRange (m : Memory) (a : Int) (h : inBits a) :
    ∃ i : Fin MAX_INTERNAL_RELAYS, a = (i : Int) ∧ ∀ k, withBit m a k = k (m.Bits i) := by
  obtain ⟨i, hi⟩ := cell_inRange MAX_INTERNAL_RELAYS a h
  exact ⟨i, cell_some _ _ _ hi, fun k => by simp [withBit, hi]⟩

theorem withInt_inRange (m : Memory) (a : Int) (h : inIntegers a) :
    ∃ i : Fin MAX_VARIABLES, a = (i : Int) ∧ ∀ k, withInt m a k = k (m.Integers i) := by
  obtain ⟨i, hi⟩ := cell_inRange MAX_VARIABLES a h
  exact ⟨i, cell_some _ _ _ hi, fun k => by simp [withInt, hi]⟩

theorem next_ite (cond : Prop) [Decidable cond] (a b : Int) (m : Memory) (o : Opcode)
    (ho : o ≠ .INT_ELSE) :
    ∃ pc0, (pc0 = a ∨ pc0 = b) ∧ Outcome.next (if cond then a else b) m = .next pc0 m ∧
      (o = .INT_ELSE → pc0 = a) := by
  by_cases h : cond
  · exact ⟨a, Or.inl rfl, by rw [if_pos h], fun _ => rfl⟩
  · exact ⟨b, Or.inr rfl, by rw [if_neg h], fun e => absurd e ho⟩

/-- A conditional or jump with valid indices: `pc` is left alone or assigned `name3`, and
memory is not touched. -/
theorem execOp_transfer (c : IntCodes) (p : BinOp) (pc : Int) (m : Memory)
    (ht : (c.decode p.op).transfers = true) (h : addressesValid c p) :
    ∃ pc0, (pc0 = p.name3 ∨ pc0 = pc) ∧ execOp c p pc m = .next pc0 m ∧
      (c.decode p.op = .INT_ELSE → pc0 = p.name3) := by
  unfold addressesValid at h
  unfold execOp
  cases hd : c.decode p.op <;> rw [hd] at h ht <;>
    simp only [Opcode.transfers, Opcode.isConditional, Bool.false_eq_true] at ht
  case INT_IF_BIT_SET =>
    obtain ⟨i, _, hi⟩ := withBit_inRange m _ h
    simp only [hi]
    exact next_ite _ _ _ m _ (by decide)
  case INT_IF_BIT_CLEAR =>
    obtain ⟨i, _, hi⟩ := withBit_inRange m _ h
    simp only [hi]
    exact next_ite _ _ _ m _ (by decide)
  case INT_IF_VARIABLE_LES_LITERAL =>
    obtain ⟨i, _, hi⟩ := withInt_inRange m _ h
    simp only [hi]
    exact next_ite _ _ _ m _ (by decide)
  case INT_IF_GEQ =>
    obtain ⟨i, _, hi⟩ := withInt_inRange m _ h
    simp only [hi]
    exact next_ite _ _ _ m _ (by decide)
  case INT_IF_LEQ =>
    obtain ⟨i, _, hi⟩ := withInt_inRange m _ h
    simp only [hi]
    exact next_ite _ _ _ m _ (by decide)
  case INT_IF_NEQ =>
    obtain ⟨i, _, hi⟩ := withInt_inRange m _ h.1
    obtain ⟨j, _, hj⟩ := withInt_inRange m _ h.2
    simp only [hi, hj]
    refine ⟨p.name3, Or.inl rfl, ?_, fun _ => rfl⟩
    by_cases e : m.Integers i = m.Integers j <;> simp [e]
  case INT_IF_VARIABLE_EQUALS_VARIABLE =>
    obtain ⟨i, _, hi⟩ := withInt_inRange m _ h.1
    obtain ⟨j, _, hj⟩ := withInt_inRange m _ h.2
    simp only [hi, hj]
    exact next_ite _ _ _ m _ (by decide)
  case INT_IF_VARIABLE_GRT_VARIABLE =>
    obtain ⟨i, _, hi⟩ := withInt_inRange m _ h.1
    obtain ⟨j, _, hj⟩ := withInt_inRange m _ h.2
    simp only [hi, hj]
    exact next_ite _ _ _ m _ (by decide)
  case INT_ELSE =>
    exact ⟨p.name3, Or.inl rfl, rfl, fun _ => rfl⟩

/-- C23: control is transferred as the disassembler writes it, `jump name3+1`.  For
`INT_ELSE`, and for each of the eight conditionals (with valid indices), the `case` leaves
`pc` either assigned `name3` or as it was, memory untouched, and the increment of the
loop follows: the next instruction executed is the one at index `name3 + 1` when the
instruction jumps (always for `INT_ELSE`) and the one at its own index + 1 when it does
not. -/
theorem C23_jump_target_is_name3_plus_one (c : IntCodes) (prog : ProgramT) (i : Fin MAX_OPS)
    (m : Memory) (ht : (c.decode (prog i).op).transfers = true)
    (hv : addressesValid c (prog i)) :
    ∃ pc0, (pc0 = (prog i).name3 ∨ pc0 = (i : Int)) ∧
      execOp c (prog i) (i : Int) m = .next pc0 m ∧
      step c prog (i : Int) m = .next (pc0 + 1) m ∧
      (∀ fuel, run c prog (fuel + 1) (i : Int) m = run c prog fuel (pc0 + 1) m) ∧
      (c.decode (prog i).op = .INT_ELSE → pc0 = (prog i).name3) := by
  obtain ⟨pc0, h1, h2, h3⟩ := execOp_transfer c (prog i) (i : Int) m ht hv
  have hs := step_of_next c prog (i : Int) i rfl m m pc0 h2
  exact ⟨pc0, h1, h2, hs, fun fuel => run_of_next c prog fuel _ _ m m hs, h3⟩

theorem C23_jump_target_is_name3_plus_one_witness :
    (sampleCodes.decode ((ifNeqProgram sampleCodes) 0).op).transfers = true ∧
    addressesValid sampleCodes ((ifNeqProgram sampleCodes) 0) ∧
    ∃ pc0, (pc0 = ((ifNeqProgram sampleCodes) 0).name3 ∨ pc0 = ((0 : Fin MAX_OPS) : Int)) ∧
      execOp sampleCodes ((ifNeqProgram sampleCodes) 0) ((0 : Fin MAX_OPS) : Int) Memory.ramp =
        .next pc0 Memory.ramp ∧
      step sampleCodes (ifNeqProgram sampleCodes) ((0 : Fin MAX_OPS) : Int) Memory.ramp =
        .next (pc0 + 1) Memory.ramp ∧
      (∀ fuel, run sampleCodes (ifNeqProgram sampleCodes) (fuel + 1) ((0 : Fin MAX_OPS) : Int)
          Memory.ramp = run sampleCodes (ifNeqProgram sampleCodes) fuel (pc0 + 1) Memory.ramp) ∧
      (sampleCodes.decode ((ifNeqProgram sampleCodes) 0).op = .INT_ELSE →
        pc0 = ((ifNeqProgram sampleCodes) 0).name3) :=
  ⟨by decide, by decide,
    C23_jump_target_is_name3_plus_one sampleCodes (ifNeqProgram sampleCodes) 0 Memory.ramp
      (by decide) (by decide)⟩

/-- C24: `INT_IF_GEQ` with `name1 = 0`, `name2 = 1`, `name3 = 5` in the memory with
`Integers[0] = 0` and `Integers[1] = 1`.  The documented condition `int[0] >= int[1]` is
false, so the instruction should jump; with `literal1 = 0` it falls through, because the
test made is `Integers[name1] >= literal1`, and with `literal1 = 1` it jumps: `literal1`
decides.  `INT_IF_LEQ` with `name1 = 1`, `name2 = 0` likewise falls through with
`literal1 = 5` although `int[1] <= int[0]` is false, and jumps with `literal1 = 0`. -/
theorem C24_geq_leq_compare_with_literal :
    ¬ (Memory.ramp.Integers 0 ≥ Memory.ramp.Integers 1) ∧
    execOp sampleCodes ((ifGeqProgram sampleCodes 0) 0) 0 Memory.ramp = .next 0 Memory.ramp ∧
    step sampleCodes (ifGeqProgram sampleCodes 0) 0 Memory.ramp = .next 1 Memory.ramp ∧
    execOp sampleCodes ((ifGeqProgram sampleCodes 1) 0) 0 Memory.ramp = .next 5 Memory.ramp ∧
    ¬ (Memory.ramp.Integers 1 ≤ Memory.ramp.Integers 0) ∧
    execOp sampleCodes ((ifLeqProgram sampleCodes 5) 0) 0 Memory.ramp = .next 0 Memory.ramp ∧
    step sampleCodes (ifLeqProgram sampleCodes 5) 0 Memory.ramp = .next 1 Memory.ramp ∧
    execOp sampleCodes ((ifLeqProgram sampleCodes 0) 0) 0 Memory.ramp = .next 5 Memory.ramp := by
  refine ⟨by decide, rfl, rfl, rfl, by decide, rfl, rfl, rfl⟩

/-- C25: with valid indices, each of `INT_IF_BIT_SET`, `INT_IF_BIT_CLEAR`,
`INT_IF_VARIABLE_LES_LITERAL`, `INT_IF_VARIABLE_EQUALS_VARIABLE` and
`INT_IF_VARIABLE_GRT_VARIABLE` assigns `pc := name3` exactly when its named condition is
false (`Bits[name1]` is zero; is nonzero; `Integers[name1] >= literal1`;
`Integers[name1] != Integers[name2]`; `Integers[name1] <= Integers[name2]`) and otherwise
leaves `pc` alone, so that after the increment of the loop the following instruction runs
next; the comparisons are those of the integers held, and memory is unchanged. -/
theorem C25_conditionals_jump_when_condition_false (c : IntCodes) (hc : c.Distinct)
    (prog : ProgramT) (i : Fin MAX_OPS) (m : Memory) :
    ((prog i).op = c.INT_IF_BIT_SET →
      ∀ b : Fin MAX_INTERNAL_RELAYS, (prog i).name1 = (b : Int) →
        execOp c (prog i) (i : Int) m =
          .next (if m.Bits b = 0 then (prog i).name3 else (i : Int)) m ∧
        (m.Bits b ≠ 0 → step c prog (i : Int) m = .next ((i : Int) + 1) m) ∧
        (m.Bits b = 0 → step c prog (i : Int) m = .next ((prog i).name3 + 1) m)) ∧
    ((prog i).op = c.INT_IF_BIT_CLEAR →
      ∀ b : Fin MAX_INTERNAL_RELAYS, (prog i).name1 = (b : Int) →
        execOp c (prog i) (i : Int) m =
          .next (if m.Bits b ≠ 0 then (prog i).name3 else (i : Int)) m ∧
        (m.Bits b = 0 → step c prog (i : Int) m = .next ((i : Int) + 1) m) ∧
        (m.Bits b ≠ 0 → step c prog (i : Int) m = .next ((prog i).name3 + 1) m)) ∧
    ((prog i).op = c.INT_IF_VARIABLE_LES_LITERAL →
      ∀ a : Fin MAX_VARIABLES, (prog i).name1 = (a : Int) →
        execOp c (prog i) (i : Int) m =
          .next (if m.Integers a ≥ (prog i).literal1 then (prog i).name3 else (i : Int)) m ∧
        (m.Integers a < (prog i).literal1 →
          step c prog (i : Int) m = .next ((i : Int) + 1) m) ∧
        (m.Integers a ≥ (prog i).literal1 →
          step c prog (i : Int) m = .next ((prog i).name3 + 1) m)) ∧
    ((prog i).op = c.INT_IF_VARIABLE_EQUALS_VARIABLE →
      ∀ a b : Fin MAX_VARIABLES, (prog i).name1 = (a : Int) → (prog i).name2 = (b : Int) →
        execOp c (prog i) (i : Int) m =
          .next (if m.Integers a ≠ m.Integers b then (prog i).name3 else (i : Int)) m ∧
        (m.Integers a = m.Integers b →
          step c prog (i : Int) m = .next ((i : Int) + 1) m) ∧
        (m.Integers a ≠ m.Integers b →
          step c prog (i : Int) m = .next ((prog i).name3 + 1) m)) ∧
    ((prog i).op = c.INT_IF_VARIABLE_GRT_VARIABLE →
      ∀ a b : Fin MAX_VARIABLES, (prog i).name1 = (a : Int) → (prog i).name2 = (b : Int) →
        execOp c (prog i) (i : Int) m =
          .next (if m.Integers a ≤ m.Integers b then (prog i).name3 else (i : Int)) m ∧
        (m.Integers a > m.Integers b →
          step c prog (i : Int) m = .next ((i : Int) + 1) m) ∧
        (m.Integers a ≤ m.Integers b →
          step c prog (i : Int) m = .next ((prog i).name3 + 1) m)) := by
  refine ⟨?_, ?_, ?_, ?_, ?_⟩
  · intro hop b hb
    have he := execOp_if_bit_set c hc (prog i) (i : Int) m hop b hb
    refine ⟨he, fun h => ?_, fun h => ?_⟩
    · rw [if_neg h] at he
      exact step_of_next c prog _ i rfl m m _ he
    · rw [if_pos h] at he
      exact step_of_next c prog _ i rfl m m _ he
  · intro hop b hb
    have he := execOp_if_bit_clear c hc (prog i) (i : Int) m hop b hb
    refine ⟨he, fun h => ?_, fun h => ?_⟩
    · rw [if_neg (by simpa using h)] at he
      exact step_of_next c prog _ i rfl m m _ he
    · rw [if_pos h] at he
      exact step_of_next c prog _ i rfl m m _ he
  · intro hop a ha
    have he := execOp_if_les_literal c hc (prog i) (i : Int) m hop a ha
    have e : (¬ m.Integers a < (prog i).literal1) = (m.Integers a ≥ (prog i).literal1) := by
      simp
    simp only [e] at he
    refine ⟨he, fun h => ?_, fun h => ?_⟩
    · rw [if_neg (by omega)] at he
      exact step_of_next c prog _ i rfl m m _ he
    · rw [if_pos h] at he
      exact step_of_next c prog _ i rfl m m _ he
  · intro hop a b ha hb
    have he := execOp_if_equals c hc (prog i) (i : Int) m hop a ha b hb
    refine ⟨he, fun h => ?_, fun h => ?_⟩
    · rw [if_neg (by simpa using h)] at he
      exact step_of_next c prog _ i rfl m m _ he
    · rw [if_pos h] at he
      exact step_of_next c prog _ i rfl m m _ he
  · intro hop a b ha hb
    have he := execOp_if_grt c hc (prog i) (i : Int) m hop a ha b hb
    have e : (¬ m.Integers a > m.Integers b) = (m.Integers a ≤ m.Integers b) := by
      simp
    simp only [e] at he
    refine ⟨he, fun h => ?_, fun h => ?_⟩
    · rw [if_neg (by omega)] at he
      exact step_of_next c prog _ i rfl m m _ he
    · rw [if_pos h] at he
      exact step_of_next c prog _ i rfl m m _ he

theorem C25_conditionals_jump_when_condition_false_witness :
    sampleCodes.Distinct ∧
    ((singleProgram sampleCodes ⟨sampleCodes.INT_IF_VARIABLE_GRT_VARIABLE, 3, 2, 9, 0⟩) 0).op
      = sampleCodes.INT_IF_VARIABLE_GRT_VARIABLE ∧
    Memory.ramp.Integers 3 > Memory.ramp.Integers 2 ∧
    step sampleCodes
      (singleProgram sampleCodes ⟨sampleCodes.INT_IF_VARIABLE_GRT_VARIABLE, 3, 2, 9, 0⟩)
      ((0 : Fin MAX_OPS) : Int) Memory.ramp = .next (((0 : Fin MAX_OPS) : Int) + 1) Memory.ramp :=
  ⟨by decide, rfl, by decide,
    ((C25_conditionals_jump_when_condition_false sampleCodes (by decide)
      (singleProgram sampleCodes ⟨sampleCodes.INT_IF_VARIABLE_GRT_VARIABLE, 3, 2, 9, 0⟩) 0
      Memory.ramp).2.2.2.2 rfl 3 2 rfl rfl).2.1 (by decide)⟩

theorem loopProgram_stays (c : IntCodes) (hc : c.Distinct) :
    ∀ (n : Nat) (m : Memory), run c (loopProgram c) n 1 m = .next 1 m := by
  intro n
  induction n with
  | zero => intro m; rfl
  | succ k ih =>
    intro m
    have he : execOp c ((loopProgram c) 1) 1 m = .next 0 m :=
      execOp_else c hc ((loopProgram c) 1) 1 m rfl
    have hs : step c (loopProgram c) 1 m = .next (0 + 1) m :=
      step_of_next c (loopProgram c) 1 1 rfl m m 0 he
    rw [run_of_next c (loopProgram c) k 1 (0 + 1) m m hs]
    exact ih m

/-- C26: no cap on the number of iterations.  In the program
`[INT_SET_BIT name1=0; INT_ELSE name3=0; INT_END_OF_PROGRAM]` every address and the jump
target are valid and the end marker is present, yet for every memory and every number `n`
of executed instructions the loop has not returned: after the first instruction it is at
index 1 with `Bits[0] = 1`, and it is at index 1 again after each further one; the end
marker at index 2 is never fetched. -/
theorem C26_no_step_cap (c : IntCodes) (hc : c.Distinct) (m : Memory) (n : Nat) :
    InterpretOneCycle c (loopProgram c) n m =
      (if n = 0 then .next 0 m else .next 1 ⟨Function.update m.Bits 0 1, m.Integers⟩) ∧
    (∀ m1, InterpretOneCycle c (loopProgram c) n m ≠ .returned m1) ∧
    (∀ pc m1, InterpretOneCycle c (loopProgram c) n m = .next pc m1 → pc ≠ 2) := by
  have key : InterpretOneCycle c (loopProgram c) n m =
      (if n = 0 then .next 0 m else .next 1 ⟨Function.update m.Bits 0 1, m.Integers⟩) := by
    cases n with
    | zero => rfl
    | succ k =>
      have he : execOp c ((loopProgram c) 0) 0 m =
          .next 0 ⟨Function.update m.Bits 0 1, m.Integers⟩ :=
        execOp_set_bit c hc ((loopProgram c) 0) 0 m rfl 0 rfl
      have hs := step_of_next c (loopProgram c) 0 0 rfl m _ 0 he
      unfold InterpretOneCycle
      rw [run_of_next c (loopProgram c) k 0 (0 + 1) m _ hs]
      simpa using loopProgram_stays c hc k _
  refine ⟨key, ?_, ?_⟩
  · intro m1 h
    rw [key] at h
    split at h <;> cases h
  · intro pc m1 h
    rw [key] at h
    split at h <;> (injection h with h1 _; omega)

theorem C26_no_step_cap_witness :
    sampleCodes.Distinct ∧
    InterpretOneCycle sampleCodes (loopProgram sampleCodes) 1000 Memory.zero =
      (if 1000 = 0 then .next 0 Memory.zero
        else .next 1 ⟨Function.update Memory.zero.Bits 0 1, Memory.zero.Integers⟩) ∧
    (∀ m1, InterpretOneCycle sampleCodes (loopProgram sampleCodes) 1000 Memory.zero
      ≠ .returned m1) ∧
    (∀ pc m1, InterpretOneCycle sampleCodes (loopProgram sampleCodes) 1000 Memory.zero
      = .next pc m1 → pc ≠ 2) :=
  ⟨by decide, C26_no_step_cap sampleCodes (by decide) Memory.zero 1000⟩

/-- C27: `INT_IF_NEQ` is an unconditional jump.  Its `case` has no `break`, so the test
of `INT_IF_VARIABLE_EQUALS_VARIABLE` follows on the same instruction; with valid indices
`name1` and `name2` the `case` ends with `pc` assigned `name3` whether the two integers
are equal or not, memory unchanged, and the loop goes on at `name3 + 1`, never at the
following instruction because of the comparison. -/
theorem C27_if_neq_always_jumps (c : IntCodes) (hc : c.Distinct) (prog : ProgramT)
    (i : Fin MAX_OPS) (m : Memory) (hop : (prog i).op = c.INT_IF_NEQ)
    (a b : Fin MAX_VARIABLES) (ha : (prog i).name1 = (a : Int))
    (hb : (prog i).name2 = (b : Int)) :
    execOp c (prog i) (i : Int) m = .next (prog i).name3 m ∧
    step c prog (i : Int) m = .next ((prog i).name3 + 1) m := by
  have he := execOp_if_neq c hc (prog i) (i : Int) m hop a ha b hb
  exact ⟨he, step_of_next c prog _ i rfl m m _ he⟩

theorem C27_if_neq_always_jumps_witness :
    sampleCodes.Distinct ∧
    ((ifNeqProgram sampleCodes) 0).op = sampleCodes.INT_IF_NEQ ∧
    Memory.ramp.Integers 0 ≠ Memory.ramp.Integers 1 ∧
    Memory.zero.Integers 0 = Memory.zero.Integers 1 ∧
    (execOp sampleCodes ((ifNeqProgram sampleCodes) 0) ((0 : Fin MAX_OPS) : Int) Memory.ramp
        = .next ((ifNeqProgram sampleCodes) 0).name3 Memory.ramp ∧
      step sampleCodes (ifNeqProgram sampleCodes) ((0 : Fin MAX_OPS) : Int) Memory.ramp
        = .next (((ifNeqProgram sampleCodes) 0).name3 + 1) Memory.ramp) ∧
    (execOp sampleCodes ((ifNeqProgram sampleCodes) 0) ((0 : Fin MAX_OPS) : Int) Memory.zero
        = .next ((ifNeqProgram sampleCodes) 0).name3 Memory.zero ∧
      step sampleCodes (ifNeqProgram sampleCodes) ((0 : Fin MAX_OPS) : Int) Memory.zero
        = .next (((ifNeqProgram sampleCodes) 0).name3 + 1) Memory.zero) :=
  ⟨by decide, rfl, by decide, rfl,
    C27_if_neq_always_jumps sampleCodes (by decide) (ifNeqProgram sampleCodes) 0 Memory.ramp
      rfl 0 1 rfl rfl,
    C27_if_neq_always_jumps sampleCodes (by decide) (ifNeqProgram sampleCodes) 0 Memory.zero
      rfl 0 1 rfl rfl⟩

/-! ## The disassembler -/

theorem slots_append (prog : ProgramT) :
    ∀ (a j b : Nat), slots prog j (a + b) = slots prog j a ++ slots prog (j + a) b := by
  intro a
  induction a with
  | zero => intro j b; simp [slots]
  | succ a ih =>
    intro j b
    by_cases hj : j < MAX_OPS
    · rw [show a + 1 + b = (a + b) + 1 by omega, slots_succ _ _ _ hj, slots_succ _ _ _ hj,
        ih (j + 1) b, show j + 1 + a = j + (a + 1) by omega]
      rfl
    · have h0 : ∀ n k, ¬ k < MAX_OPS → slots prog k n = [] := by
        intro n k hk
        cases n with
        | zero => rfl
        | succ n => simp [slots, hk]
      rw [h0 _ _ hj, h0 _ _ hj, h0 _ _ (by omega)]
      rfl

theorem slots_get (prog : ProgramT) :
    ∀ (n j : Nat) (p : BinOp), p ∈ slots prog j n →
      ∃ i : Fin MAX_OPS, j ≤ i.val ∧ i.val < j + n ∧ p = prog i := by
  intro n
  induction n with
  | zero => intro j p h; simp [slots] at h
  | succ n ih =>
    intro j p h
    simp only [slots] at h
    split at h
    · simp only [List.mem_cons] at h
      rcases h with h | h
      · exact ⟨_, Nat.le_refl _, by simp, h⟩
      · obtain ⟨i, h1, h2, h3⟩ := ih (j + 1) p h
        exact ⟨i, by omega, by omega, h3⟩
    · simp at h

theorem charIncrement_iterate (signedChar : Bool) (k : Nat) :
    (charIncrement signedChar)^[k] 0 =
      if signedChar then ((k : Int) + 128) % 256 - 128 else (k : Int) % 256 := by
  induction k with
  | zero => cases signedChar <;> rfl
  | succ k ih =>
    rw [Function.iterate_succ_apply', ih]
    cases signedChar <;> simp only [charIncrement, Bool.false_eq_true, if_false, if_true] <;>
      push_cast <;> omega

theorem disassembleList_scan (signedChar : Bool) (c : IntCodes) (p : BinOp)
    (rest : List BinOp) (hp : c.decode p.op = .INT_END_OF_PROGRAM) :
    ∀ (l : List BinOp) (bad : Int),
      (∀ q ∈ l, c.decode q.op ≠ .INT_END_OF_PROGRAM) →
      disassembleList signedChar c (l ++ p :: rest) bad =
        if (charIncrement signedChar)^[badCodes c l] bad > 0 then .badFormat
        else .returned := by
  intro l
  induction l with
  | nil =>
    intro bad _
    simp [disassembleList, hp, badCodes]
  | cons q qs ih =>
    intro bad h
    have hq := h q (by simp)
    have hqs : ∀ x ∈ qs, c.decode x.op ≠ .INT_END_OF_PROGRAM :=
      fun x hx => h x (by simp [hx])
    cases hd : c.decode q.op <;>
      first
      | exact absurd hd hq
      | (simp only [List.cons_append, disassembleList, badCodes, hd]
         exact ih _ hqs)

/-- The disassembler on a program whose first end marker is at index `e`: it reads the
slots `0..e` and nothing else, and there it compares the 8-bit counter with zero. -/
theorem Disassemble_first_end (signedChar : Bool) (c : IntCodes) (prog : ProgramT)
    (e : Fin MAX_OPS) (he : c.decode (prog e).op = .INT_END_OF_PROGRAM)
    (hfirst : ∀ i : Fin MAX_OPS, i.val < e.val → c.decode (prog i).op ≠ .INT_END_OF_PROGRAM) :
    Disassemble signedChar c prog =
      if (if signedChar then ((badCodes c (slots prog 0 e.val) : Nat) + 128 : Int) % 256 - 128
          else ((badCodes c (slots prog 0 e.val) : Nat) : Int) % 256) > 0
      then .badFormat else .returned := by
  unfold Disassemble
  have hsplit : slots prog 0 MAX_OPS =
      slots prog 0 e.val ++ prog e :: slots prog (e.val + 1) (MAX_OPS - e.val - 1) := by
    have h1 : MAX_OPS = e.val + ((MAX_OPS - e.val - 1) + 1) := by have := e.isLt; omega
    conv_lhs => rw [h1]
    rw [slots_append, Nat.zero_add, slots_succ _ _ _ e.isLt]
  rw [hsplit, disassembleList_scan signedChar c (prog e) _ he _ 0, charIncrement_iterate]
  intro q hq
  obtain ⟨i, _, h2, h3⟩ := slots_get prog _ _ q hq
  rw [h3]
  exact hfirst i (by omega)

theorem badProgram_slot (c : IntCodes) (k : Nat) (i : Fin MAX_OPS) :
    (badProgram c k) i =
      if i.val < k then ⟨0, 0, 0, 0, 0⟩
      else if i.val = k then ⟨c.INT_END_OF_PROGRAM, 0, 0, 0, 0⟩ else ⟨0, 0, 0, 0, 0⟩ := by
  unfold badProgram programOf
  by_cases h1 : i.val < k
  · rw [if_pos h1, List.getD_append _ _ _ _ (by simpa using h1)]
    simp [List.getD_eq_getElem?_getD, h1]
  · rw [if_neg h1, List.getD_append_right _ _ _ _ (by simpa using h1)]
    by_cases h2 : i.val = k
    · simp [h2]
    · rw [if_neg h2]
      have : i.val - (List.replicate k (⟨0, 0, 0, 0, 0⟩ : BinOp)).length = (i.val - k - 1) + 1 := by
        simp; omega
      rw [this]
      simp

theorem badCodes_all (c : IntCodes) (l : List BinOp)
    (h : ∀ p ∈ l, c.decode p.op = .unsupported) : badCodes c l = l.length := by
  induction l with
  | nil => rfl
  | cons p ps ih =>
    simp only [badCodes, h p (by simp), List.length_cons]
    rw [ih (fun x hx => h x (by simp [hx]))]

theorem Disassemble_badProgram (signedChar : Bool) (k : Nat) (hk : k < MAX_OPS) :
    Disassemble signedChar sampleCodes (badProgram sampleCodes k) =
      if (if signedChar then ((k : Int) + 128) % 256 - 128 else (k : Int) % 256) > 0
      then .badFormat else .returned := by
  have hlen : ∀ (prog : ProgramT) (n j : Nat), j + n ≤ MAX_OPS → (slots prog j n).length = n := by
    intro prog n
    induction n with
    | zero => intro j _; rfl
    | succ n ih =>
      intro j hj
      rw [slots_succ _ _ _ (by omega), List.length_cons, ih (j + 1) (by omega)]
  have hbad : badCodes sampleCodes (slots (badProgram sampleCodes k) 0 k) = k := by
    rw [badCodes_all, hlen _ _ _ (by omega)]
    intro p hp
    obtain ⟨i, _, h2, h3⟩ := slots_get _ _ _ p hp
    rw [h3, badProgram_slot, if_pos (by omega)]
    rfl
  have h := Disassemble_first_end signedChar sampleCodes (badProgram sampleCodes k) ⟨k, hk⟩
    (by rw [badProgram_slot]; simp; rfl)
    (by
      intro i hi
      rw [badProgram_slot, if_pos hi]
      decide)
  rw [h]
  simp only [hbad]

/-- C22: the count of unrecognized opcodes is kept in `char bad_codes`, and the test at
the end marker is `bad_codes > 0`.  With a signed 8-bit `char` the program of 128
instructions with the unrecognized opcode 0 followed by `INT_END_OF_PROGRAM` is
disassembled without the diagnostic (the counter has wrapped to -128), and so is the one
with 255 of them (counter -1), although 127 of them raise it; with an unsigned `char` 128
and 255 raise it as well. -/
theorem C22_bad_code_count_wraps :
    Disassemble true sampleCodes (badProgram sampleCodes 127) = .badFormat ∧
    Disassemble true sampleCodes (badProgram sampleCodes 128) = .returned ∧
    Disassemble true sampleCodes (badProgram sampleCodes 255) = .returned ∧
    (charIncrement true)^[128] 0 = -128 ∧
    Disassemble false sampleCodes (badProgram sampleCodes 128) = .badFormat ∧
    Disassemble false sampleCodes (badProgram sampleCodes 255) = .badFormat ∧
    Disassemble true sampleCodes (badProgram sampleCodes 0) = .returned := by
  refine ⟨?_, ?_, ?_, ?_, ?_, ?_, ?_⟩
  · rw [Disassemble_badProgram true 127 (by decide)]; decide
  · rw [Disassemble_badProgram true 128 (by decide)]; decide
  · rw [Disassemble_badProgram true 255 (by decide)]; decide
  · rw [charIncrement_iterate]; decide
  · rw [Disassemble_badProgram false 128 (by decide)]; decide
  · rw [Disassemble_badProgram false 255 (by decide)]; decide
  · rw [Disassemble_badProgram true 0 (by decide)]; decide

/-! ## The shape of one iteration -/

/-- With valid indices a `case` is one of three kinds: the end marker returns; a
conditional or `INT_ELSE` leaves memory alone and `pc` at `name3` or as it was; any other
case leaves `pc` alone, unless it is a quotient that does not fit. -/
theorem execOp_shape (c : IntCodes) (p : BinOp) (pc : Int) (m : Memory)
    (h : addressesValid c p) :
    (c.decode p.op = .INT_END_OF_PROGRAM ∧ execOp c p pc m = .returned m) ∨
    ((c.decode p.op).transfers = true ∧
      ∃ pc0, (pc0 = p.name3 ∨ pc0 = pc) ∧ execOp c p pc m = .next pc0 m) ∨
    ((c.decode p.op).straight = true ∧
      ((∃ m1, execOp c p pc m = .next pc m1) ∨
       (execOp c p pc m = .fault .quotient ∧
         (c.decode p.op = .INT_SET_VARIABLE_DIVIDE ∨ c.decode p.op = .INT_SET_VARIABLE_MOD)))) := by
  by_cases he : c.decode p.op = .INT_END_OF_PROGRAM
  · exact Or.inl ⟨he, by simp [execOp, he]⟩
  by_cases ht : (c.decode p.op).transfers = true
  · obtain ⟨pc0, h1, h2, _⟩ := execOp_transfer c p pc m ht h
    exact Or.inr (Or.inl ⟨ht, pc0, h1, h2⟩)
  have hs : (c.decode p.op).straight = true := by
    cases hd : c.decode p.op <;> rw [hd] at he ht <;>
      simp [Opcode.transfers, Opcode.isConditional, Opcode.straight] at he ht ⊢
  refine Or.inr (Or.inr ⟨hs, ?_⟩)
  have hst := execOp_straight c p pc m hs
  rcases execOp_defined c p pc m h with ⟨pc1, m1, h1⟩ | ⟨m1, h1⟩ | h1
  · left
    rw [h1] at hst
    cases he2 : effect c p m with
    | ok m2 =>
      rw [he2] at hst
      exact ⟨m2, by rw [h1]; exact hst⟩
    | error f => rw [he2] at hst; cases hst
  · rw [h1] at hst
    cases he2 : effect c p m <;> rw [he2] at hst <;> cases hst
  · right
    refine ⟨h1, ?_⟩
    unfold execOp at h1
    cases hd : c.decode p.op <;> rw [hd] at h1 hs <;>
      simp only [Opcode.straight, Bool.false_eq_true] at hs <;>
      simp only [withBit, withInt, setBit, setInt] at h1 <;>
      first
      | exact Or.inl rfl
      | exact Or.inr rfl
      | (exfalso; revert h1; repeat' split
         all_goals simp)

theorem run_snoc (c : IntCodes) (prog : ProgramT) :
    ∀ (fuel : Nat) (pc : Int) (m : Memory),
      run c prog (fuel + 1) pc m =
        match run c prog fuel pc m with
        | .next pc1 m1 => step c prog pc1 m1
        | o => o := by
  intro fuel
  induction fuel with
  | zero =>
    intro pc m
    simp only [run]
    cases step c prog pc m <;> rfl
  | succ k ih =>
    intro pc m
    cases hs : step c prog pc m with
    | next pc1 m1 =>
      rw [run_of_next c prog (k + 1) pc pc1 m m1 hs, run_of_next c prog k pc pc1 m m1 hs]
      exact ih pc1 m1
    | returned m1 =>
      rw [run_of_returned c prog (k + 1) pc m m1 hs, run_of_returned c prog k pc m m1 hs]
    | fault f =>
      rw [run_of_fault c prog (k + 1) pc m f hs, run_of_fault c prog k pc m f hs]

theorem run_stable (c : IntCodes) (prog : ProgramT) (k : Nat) (pc : Int) (m : Memory)
    (o : Outcome) (h : run c prog k pc m = o) (hne : ∀ pc1 m1, o ≠ .next pc1 m1) :
    ∀ fuel, k ≤ fuel → run c prog fuel pc m = o := by
  intro fuel hk
  obtain ⟨d, rfl⟩ := Nat.exists_eq_add_of_le hk
  induction d with
  | zero => exact h
  | succ d ih =>
    rw [show k + (d + 1) = (k + d) + 1 by omega, run_snoc, ih (by omega)]
    cases o with
    | next pc1 m1 => exact absurd rfl (hne pc1 m1)
    | returned m1 => rfl
    | fault f => rfl

/-- One iteration inside a program of `n` instructions that ends in the end marker, has
valid indices and whose jump operands satisfy `0 ≤ name3 + 1 ≤ n - 1`. -/
theorem step_inside (c : IntCodes) (hc : c.Distinct) (prog : ProgramT) (n : Nat)
    (hend : ∀ i : Fin MAX_OPS, i.val + 1 = n → (prog i).op = c.INT_END_OF_PROGRAM)
    (hv : ∀ i : Fin MAX_OPS, i.val < n → addressesValid c (prog i))
    (ht : ∀ i : Fin MAX_OPS, i.val < n → (c.decode (prog i).op).transfers = true →
      0 ≤ (prog i).name3 + 1 ∧ (prog i).name3 + 1 ≤ (n : Int) - 1)
    (i : Fin MAX_OPS) (hi : i.val < n) (m : Memory) :
    (∃ m1, step c prog (i : Int) m = .returned m1) ∨
    (step c prog (i : Int) m = .fault .quotient ∧
      (c.decode (prog i).op = .INT_SET_VARIABLE_DIVIDE ∨
        c.decode (prog i).op = .INT_SET_VARIABLE_MOD)) ∨
    (∃ pc1 m1, step c prog (i : Int) m = .next pc1 m1 ∧ 0 ≤ pc1 ∧ pc1 ≤ (n : Int) - 1 ∧
      (pc1 = (i : Int) + 1 ∨
        ((c.decode (prog i).op).transfers = true ∧ pc1 = (prog i).name3 + 1))) := by
  rcases execOp_shape c (prog i) (i : Int) m (hv i hi) with ⟨_, h⟩ | ⟨h1, pc0, h2, h3⟩ | ⟨h1, h2⟩
  · exact Or.inl ⟨m, step_of_returned c prog _ i rfl m m h⟩
  · right; right
    have hs := step_of_next c prog _ i rfl m m pc0 h3
    have hne : i.val + 1 ≠ n := by
      intro hh
      have := decode_INT_END_OF_PROGRAM c hc _ (hend i hh)
      rw [this] at h1
      simp [Opcode.transfers, Opcode.isConditional] at h1
    have hb := ht i hi h1
    rcases h2 with h2 | h2
    · subst h2
      exact ⟨_, m, hs, hb.1, hb.2, Or.inr ⟨h1, rfl⟩⟩
    · subst h2
      exact ⟨_, m, hs, by omega, by omega, Or.inl rfl⟩
  · have hne : i.val + 1 ≠ n := by
      intro hh
      have := decode_INT_END_OF_PROGRAM c hc _ (hend i hh)
      rw [this] at h1
      simp [Opcode.straight] at h1
    rcases h2 with ⟨m1, h2⟩ | ⟨h2, h3⟩
    · right; right
      exact ⟨_, m1, step_of_next c prog _ i rfl m m1 _ h2, by omega, by omega, Or.inl rfl⟩
    · right; left
      exact ⟨step_of_fault c prog _ i rfl m _ h2, h3⟩

/-- The loop stays inside such a program, however long it runs. -/
theorem run_inside (c : IntCodes) (hc : c.Distinct) (prog : ProgramT) (n : Nat)
    (hn : n ≤ MAX_OPS)
    (hend : ∀ i : Fin MAX_OPS, i.val + 1 = n → (prog i).op = c.INT_END_OF_PROGRAM)
    (hv : ∀ i : Fin MAX_OPS, i.val < n → addressesValid c (prog i))
    (ht : ∀ i : Fin MAX_OPS, i.val < n → (c.decode (prog i).op).transfers = true →
      0 ≤ (prog i).name3 + 1 ∧ (prog i).name3 + 1 ≤ (n : Int) - 1) :
    ∀ (fuel : Nat) (pc : Int) (m : Memory), 0 ≤ pc → pc ≤ (n : Int) - 1 →
      (∃ pc1 m1, run c prog fuel pc m = .next pc1 m1 ∧ 0 ≤ pc1 ∧ pc1 ≤ (n : Int) - 1) ∨
      (∃ m1, run c prog fuel pc m = .returned m1) ∨
      run c prog fuel pc m = .fault .quotient := by
  intro fuel
  induction fuel with
  | zero => intro pc m h0 h1; exact Or.inl ⟨pc, m, rfl, h0, h1⟩
  | succ k ih =>
    intro pc m h0 h1
    have hlt : pc.toNat < MAX_OPS := by omega
    have hpc : pc = ((⟨pc.toNat, hlt⟩ : Fin MAX_OPS) : Int) := by simp; omega
    have hi : (⟨pc.toNat, hlt⟩ : Fin MAX_OPS).val < n := by simp; omega
    have hsh := step_inside c hc prog n hend hv ht ⟨pc.toNat, hlt⟩ hi m
    rw [← hpc] at hsh
    rcases hsh with ⟨m1, hs⟩ | ⟨hs, _⟩ | ⟨pc1, m1, hs, h2, h3, _⟩
    · exact Or.inr (Or.inl ⟨m1, run_of_returned c prog k pc m m1 hs⟩)
    · exact Or.inr (Or.inr (run_of_fault c prog k pc m _ hs))
    · rw [run_of_next c prog k pc pc1 m m1 hs]
      exact ih pc1 m1 h2 h3

/-- Forward-only control flow: the loop ends within as many iterations as there are
instructions from `pc` to the end marker. -/
theorem run_forward (c : IntCodes) (hc : c.Distinct) (prog : ProgramT) (n : Nat)
    (hn : n ≤ MAX_OPS)
    (hend : ∀ i : Fin MAX_OPS, i.val + 1 = n → (prog i).op = c.INT_END_OF_PROGRAM)
    (hv : ∀ i : Fin MAX_OPS, i.val < n → addressesValid c (prog i))
    (hfwd : ∀ i : Fin MAX_OPS, i.val < n → (c.decode (prog i).op).transfers = true →
      (i : Int) ≤ (prog i).name3 ∧ (prog i).name3 < (n : Int) - 1) :
    ∀ (d : Nat) (i : Fin MAX_OPS) (m : Memory), i.val < n → n - 1 - i.val ≤ d →
      ∃ k, 1 ≤ k ∧ k ≤ d + 1 ∧
        ((∃ m1, run c prog k (i : Int) m = .returned m1) ∨
         ((∃ j : Fin MAX_OPS, j.val < n ∧
            (c.decode (prog j).op = .INT_SET_VARIABLE_DIVIDE ∨
              c.decode (prog j).op = .INT_SET_VARIABLE_MOD)) ∧
          run c prog k (i : Int) m = .fault .quotient)) := by
  have ht : ∀ i : Fin MAX_OPS, i.val < n → (c.decode (prog i).op).transfers = true →
      0 ≤ (prog i).name3 + 1 ∧ (prog i).name3 + 1 ≤ (n : Int) - 1 := by
    intro i hi h
    have := hfwd i hi h
    omega
  intro d
  induction d with
  | zero =>
    intro i m hi hd
    rcases step_inside c hc prog n hend hv ht i hi m with ⟨m1, hs⟩ | ⟨hs, hdm⟩ |
        ⟨pc1, m1, hs, h2, h3, h4⟩
    · exact ⟨1, le_refl _, le_refl _, Or.inl ⟨m1, run_of_returned c prog 0 _ m m1 hs⟩⟩
    · exact ⟨1, le_refl _, le_refl _, Or.inr ⟨⟨i, hi, hdm⟩, run_of_fault c prog 0 _ m _ hs⟩⟩
    · exfalso
      rcases h4 with h4 | ⟨h4, h5⟩
      · omega
      · have := hfwd i hi h4
        omega
  | succ d ih =>
    intro i m hi hd
    rcases step_inside c hc prog n hend hv ht i hi m with ⟨m1, hs⟩ | ⟨hs, hdm⟩ |
        ⟨pc1, m1, hs, h2, h3, h4⟩
    · exact ⟨1, le_refl _, by omega, Or.inl ⟨m1, run_of_returned c prog 0 _ m m1 hs⟩⟩
    · exact ⟨1, le_refl _, by omega, Or.inr ⟨⟨i, hi, hdm⟩, run_of_fault c prog 0 _ m _ hs⟩⟩
    · have hgt : (i : Int) < pc1 := by
        rcases h4 with h4 | ⟨h4, h5⟩
        · omega
        · have := hfwd i hi h4
          omega
      have hlt : pc1.toNat < MAX_OPS := by omega
      have hpc : pc1 = ((⟨pc1.toNat, hlt⟩ : Fin MAX_OPS) : Int) := by simp; omega
      obtain ⟨k, hk1, hk2, hk⟩ := ih ⟨pc1.toNat, hlt⟩ m1
        (by show pc1.toNat < n; omega) (by show n - 1 - pc1.toNat ≤ d; omega)
      rw [← hpc] at hk
      refine ⟨k + 1, by omega, by omega, ?_⟩
      rw [run_of_next c prog k _ pc1 m m1 hs]
      exact hk

theorem step_forward (c : IntCodes) (hc : c.Distinct) (prog : ProgramT) (n : Nat)
    (hend : ∀ i : Fin MAX_OPS, i.val + 1 = n → (prog i).op = c.INT_END_OF_PROGRAM)
    (hv : ∀ i : Fin MAX_OPS, i.val < n → addressesValid c (prog i))
    (hfwd : ∀ i : Fin MAX_OPS, i.val < n → (c.decode (prog i).op).transfers = true →
      (i : Int) ≤ (prog i).name3 ∧ (prog i).name3 < (n : Int) - 1)
    (pc : Int) (h0 : 0 ≤ pc) (h1 : pc ≤ (n : Int) - 1) (hn : n ≤ MAX_OPS) (m : Memory)
    (pc2 : Int) (m2 : Memory) (h : step c prog pc m = .next pc2 m2) : pc < pc2 := by
  have ht : ∀ i : Fin MAX_OPS, i.val < n → (c.decode (prog i).op).transfers = true →
      0 ≤ (prog i).name3 + 1 ∧ (prog i).name3 + 1 ≤ (n : Int) - 1 := by
    intro i hi h
    have := hfwd i hi h
    omega
  have hlt : pc.toNat < MAX_OPS := by omega
  have hpc : pc = ((⟨pc.toNat, hlt⟩ : Fin MAX_OPS) : Int) := by simp; omega
  have hi : (⟨pc.toNat, hlt⟩ : Fin MAX_OPS).val < n := by simp; omega
  have hsh := step_inside c hc prog n hend hv ht ⟨pc.toNat, hlt⟩ hi m
  rw [← hpc, h] at hsh
  rcases hsh with ⟨m1, hs⟩ | ⟨hs, _⟩ | ⟨pc1, m1, hs, _, _, h4⟩
  · cases hs
  · cases hs
  · injection hs with e1 e2
    subst e1
    rcases h4 with h4 | ⟨h4, h5⟩
    · omega
    · have := hfwd _ hi h4
      simp at this
      omega

/-! ## Bit cells stay boolean -/

theorem setBit_boolean (pc : Int) (m : Memory) (a : Int) (v : Nat) (pc1 : Int) (m1 : Memory)
    (hb : bitsBoolean m) (hv : v = 0 ∨ v = 1) (h : setBit pc m a v = .next pc1 m1) :
    bitsBoolean m1 := by
  unfold setBit at h
  split at h
  · injection h with _ h2
    subst h2
    intro k
    simp only [Function.update_apply]
    split
    · exact hv
    · exact hb k
  · cases h

theorem execOp_boolean (c : IntCodes) (p : BinOp) (pc : Int) (m m1 : Memory)
    (hb : bitsBoolean m)
    (h : (∃ pc1, execOp c p pc m = .next pc1 m1) ∨ execOp c p pc m = .returned m1) :
    bitsBoolean m1 := by
  have hf := execOp_frame c p pc m m1 h
  by_cases hw : (c.decode p.op).writesBits = true
  · unfold execOp at h
    cases hd : c.decode p.op <;> rw [hd] at hw h <;>
      simp only [Opcode.writesBits, Bool.false_eq_true] at hw
    ·
      rcases h with ⟨pc1, h⟩ | h
      · exact setBit_boolean _ _ _ _ _ _ hb (Or.inr rfl) h
      · exact absurd h (setBit_not_returned _ _ _ _ _)
    ·
      rcases h with ⟨pc1, h⟩ | h
      · exact setBit_boolean _ _ _ _ _ _ hb (Or.inl rfl) h
      · exact absurd h (setBit_not_returned _ _ _ _ _)
    ·
      simp only [withBit] at h
      split at h
      · rename_i j _
        rcases h with ⟨pc1, h⟩ | h
        · exact setBit_boolean _ _ _ _ _ _ hb (hb j) h
        · exact absurd h (setBit_not_returned _ _ _ _ _)
      · rcases h with ⟨pc1, h⟩ | h <;> cases h
  · have hw0 : (c.decode p.op).writesBits = false := by simpa using hw
    by_cases hi : (c.decode p.op).writesIntegers = true
    · have := (hf.2.1 hi).1
      intro k
      rw [this]
      exact hb k
    · have := hf.2.2 hw0 (by simpa using hi)
      rw [this]
      exact hb

theorem step_boolean (c : IntCodes) (prog : ProgramT) (pc : Int) (m m1 : Memory)
    (hb : bitsBoolean m)
    (h : (∃ pc1, step c prog pc m = .next pc1 m1) ∨ step c prog pc m = .returned m1) :
    bitsBoolean m1 := by
  unfold step at h
  split at h
  · rcases h with ⟨pc1, h⟩ | h <;> cases h
  · rename_i i _
    apply execOp_boolean c (prog i) pc m m1 hb
    cases he : execOp c (prog i) pc m with
    | next pc0 m0 =>
      rw [he] at h
      simp only [Outcome.increment] at h
      rcases h with ⟨pc1, h⟩ | h
      · injection h with _ h2
        subst h2
        exact Or.inl ⟨pc0, rfl⟩
      · cases h
    | returned m0 =>
      rw [he] at h
      simp only [Outcome.increment] at h
      rcases h with ⟨pc1, h⟩ | h
      · cases h
      · injection h with h2
        subst h2
        exact Or.inr rfl
    | fault f =>
      rw [he] at h
      simp only [Outcome.increment] at h
      rcases h with ⟨pc1, h⟩ | h <;> cases h

theorem run_boolean (c : IntCodes) (prog : ProgramT) :
    ∀ (fuel : Nat) (pc : Int) (m m1 : Memory), bitsBoolean m →
      ((∃ pc1, run c prog fuel pc m = .next pc1 m1) ∨ run c prog fuel pc m = .returned m1) →
      bitsBoolean m1 := by
  intro fuel
  induction fuel with
  | zero =>
    intro pc m m1 hb h
    rcases h with ⟨pc1, h⟩ | h
    · injection h with _ h2
      subst h2
      exact hb
    · cases h
  | succ k ih =>
    intro pc m m1 hb h
    cases hs : step c prog pc m with
    | next pc0 m0 =>
      rw [run_of_next c prog k pc pc0 m m0 hs] at h
      exact ih pc0 m0 m1 (step_boolean c prog pc m m0 hb (Or.inl ⟨pc0, hs⟩)) h
    | returned m0 =>
      rw [run_of_returned c prog k pc m m0 hs] at h
      rcases h with ⟨pc1, h⟩ | h
      · cases h
      · injection h with h2
        subst h2
        exact step_boolean c prog pc m m0 hb (Or.inr hs)
    | fault f =>
      rw [run_of_fault c prog k pc m f hs] at h
      rcases h with ⟨pc1, h⟩ | h <;> cases h

/-- C29: bit cells stay boolean.  If every cell of `Bits` holds 0 or 1, then one
instruction with valid indices leaves a memory whose cells of `Bits` all hold 0 or 1
(or it is the quotient that does not fit), and so does any number of iterations of the
cycle, whether the loop is still running or has returned: `INT_SET_BIT` and
`INT_CLEAR_BIT` store 1 and 0, `INT_COPY_BIT_TO_BIT` copies a cell, and no other case
stores to `Bits`. -/
theorem C29_bits_stay_boolean (c : IntCodes) (prog : ProgramT) (m : Memory)
    (hb : bitsBoolean m) :
    (∀ i : Fin MAX_OPS, addressesValid c (prog i) →
      (∃ pc1 m1, step c prog (i : Int) m = .next pc1 m1 ∧ bitsBoolean m1) ∨
      (∃ m1, step c prog (i : Int) m = .returned m1 ∧ bitsBoolean m1) ∨
      step c prog (i : Int) m = .fault .quotient) ∧
    (∀ fuel pc1 m1, InterpretOneCycle c prog fuel m = .next pc1 m1 → bitsBoolean m1) ∧
    (∀ fuel m1, InterpretOneCycle c prog fuel m = .returned m1 → bitsBoolean m1) := by
  refine ⟨?_, ?_, ?_⟩
  · intro i hv
    rcases execOp_defined c (prog i) (i : Int) m hv with ⟨pc1, m1, h⟩ | ⟨m1, h⟩ | h
    · have hs := step_of_next c prog _ i rfl m m1 pc1 h
      exact Or.inl ⟨_, m1, hs, step_boolean c prog _ m m1 hb (Or.inl ⟨_, hs⟩)⟩
    · have hs := step_of_returned c prog _ i rfl m m1 h
      exact Or.inr (Or.inl ⟨m1, hs, step_boolean c prog _ m m1 hb (Or.inr hs)⟩)
    · exact Or.inr (Or.inr (step_of_fault c prog _ i rfl m _ h))
  · intro fuel pc1 m1 h
    exact run_boolean c prog fuel 0 m m1 hb (Or.inl ⟨pc1, h⟩)
  · intro fuel m1 h
    exact run_boolean c prog fuel 0 m m1 hb (Or.inr h)

theorem C29_bits_stay_boolean_witness :
    bitsBoolean Memory.ramp ∧
    Memory.ramp.Bits 4 = 0 ∧ Memory.ramp.Bits 5 = 1 ∧ Memory.ramp.Bits 7 = 1 ∧
    InterpretOneCycle sampleCodes bitsProgram 4 Memory.ramp =
      .returned ⟨Function.update (Function.update (Function.update Memory.ramp.Bits 4 1) 5 0)
        6 1, Memory.ramp.Integers⟩ ∧
    (∀ fuel pc1 m1, InterpretOneCycle sampleCodes bitsProgram fuel Memory.ramp = .next pc1 m1 →
      bitsBoolean m1) ∧
    ∀ fuel m1, InterpretOneCycle sampleCodes bitsProgram fuel Memory.ramp = .returned m1 →
      bitsBoolean m1 :=
  have hb : bitsBoolean Memory.ramp := fun k => by
    show k.val % 2 = 0 ∨ k.val % 2 = 1
    omega
  ⟨hb, rfl, rfl, rfl, rfl,
    (C29_bits_stay_boolean sampleCodes bitsProgram Memory.ramp hb).2⟩

/-- C28, as stated, fails: the program
`int[0] := -2147483648; int[1] := -1; int[2] := int[0] / int[1]; end` has its end marker
last (index 3), valid indices and neither conditional nor jump, yet the cycle does not
return: its third instruction divides INT32_MIN by -1, which is undefined in C, and the
end marker is never reached. -/
theorem C28_quotient_overflow_counterexample :
    ((overflowProgram sampleCodes) 3).op = sampleCodes.INT_END_OF_PROGRAM ∧
    (∀ i : Fin MAX_OPS, i.val < 4 →
      addressesValid sampleCodes ((overflowProgram sampleCodes) i) ∧
      (sampleCodes.decode ((overflowProgram sampleCodes) i).op).transfers = false) ∧
    InterpretOneCycle sampleCodes (overflowProgram sampleCodes) 2 Memory.zero =
      .next 2 ⟨Memory.zero.Bits,
        Function.update (Function.update Memory.zero.Integers 0 (-2147483648)) 1 (-1)⟩ ∧
    (∀ fuel, 3 ≤ fuel →
      InterpretOneCycle sampleCodes (overflowProgram sampleCodes) fuel Memory.zero =
        .fault .quotient) ∧
    (∀ fuel m1,
      InterpretOneCycle sampleCodes (overflowProgram sampleCodes) fuel Memory.zero ≠
        .returned m1) := by
  have h3 : InterpretOneCycle sampleCodes (overflowProgram sampleCodes) 3 Memory.zero =
      .fault .quotient := rfl
  have hall : ∀ fuel, 3 ≤ fuel →
      InterpretOneCycle sampleCodes (overflowProgram sampleCodes) fuel Memory.zero =
        .fault .quotient :=
    run_stable sampleCodes (overflowProgram sampleCodes) 3 0 Memory.zero _ h3
      (fun _ _ h => by cases h)
  refine ⟨rfl, ?_, rfl, hall, ?_⟩
  · intro i hi
    obtain ⟨v, hv⟩ := i
    simp only at hi
    interval_cases v <;> simp only [overflowProgram, programOf] <;> exact ⟨by decide, by decide⟩
  · intro fuel m1 h
    by_cases hf : 3 ≤ fuel
    · rw [hall fuel hf] at h
      cases h
    · have : fuel = 0 ∨ fuel = 1 ∨ fuel = 2 := by omega
      rcases this with rfl | rfl | rfl <;> cases h

/-- C30: no out-of-bounds access for well-formed programs.  For a program of
`n ≤ MAX_OPS` instructions that ends in `INT_END_OF_PROGRAM` at index `n - 1`, whose
bit and integer addresses are valid indices and whose conditional and jump operands
satisfy `0 ≤ name3 + 1 ≤ n - 1`, for every memory and every number of iterations: the loop
is still running with `pc` in `0..n-1` (the index of the next fetch), or it has returned,
or it has stopped at a quotient that does not fit; it has never read `Program`, `Bits` or
`Integers` outside the array. -/
theorem C30_no_out_of_bounds_access (c : IntCodes) (hc : c.Distinct) (prog : ProgramT)
    (n : Nat) (hpos : 0 < n) (hn : n ≤ MAX_OPS)
    (hend : ∀ i : Fin MAX_OPS, i.val + 1 = n → (prog i).op = c.INT_END_OF_PROGRAM)
    (hv : ∀ i : Fin MAX_OPS, i.val < n → addressesValid c (prog i))
    (ht : ∀ i : Fin MAX_OPS, i.val < n → (c.decode (prog i).op).transfers = true →
      0 ≤ (prog i).name3 + 1 ∧ (prog i).name3 + 1 ≤ (n : Int) - 1)
    (m : Memory) (fuel : Nat) :
    ((∃ pc1 m1, InterpretOneCycle c prog fuel m = .next pc1 m1 ∧
        0 ≤ pc1 ∧ pc1 ≤ (n : Int) - 1) ∨
      (∃ m1, InterpretOneCycle c prog fuel m = .returned m1) ∨
      InterpretOneCycle c prog fuel m = .fault .quotient) ∧
    InterpretOneCycle c prog fuel m ≠ .fault .program ∧
    InterpretOneCycle c prog fuel m ≠ .fault .bits ∧
    InterpretOneCycle c prog fuel m ≠ .fault .integers := by
  have h := run_inside c hc prog n hn hend hv ht fuel 0 m (le_refl _) (by omega)
  refine ⟨h, ?_, ?_, ?_⟩ <;>
  · intro e
    unfold InterpretOneCycle at e
    rw [e] at h
    rcases h with ⟨_, _, h, _⟩ | ⟨_, h⟩ | h <;> cases h

theorem C30_no_out_of_bounds_access_witness :
    sampleCodes.Distinct ∧
    ((∃ pc1 m1, InterpretOneCycle sampleCodes (loopProgram sampleCodes) 1000 Memory.ramp
        = .next pc1 m1 ∧ 0 ≤ pc1 ∧ pc1 ≤ ((3 : Nat) : Int) - 1) ∨
      (∃ m1, InterpretOneCycle sampleCodes (loopProgram sampleCodes) 1000 Memory.ramp
        = .returned m1) ∨
      InterpretOneCycle sampleCodes (loopProgram sampleCodes) 1000 Memory.ramp
        = .fault .quotient) ∧
    InterpretOneCycle sampleCodes (loopProgram sampleCodes) 1000 Memory.ramp
      ≠ .fault .program ∧
    InterpretOneCycle sampleCodes (loopProgram sampleCodes) 1000 Memory.ramp
      ≠ .fault .bits ∧
    InterpretOneCycle sampleCodes (loopProgram sampleCodes) 1000 Memory.ramp
      ≠ .fault .integers :=
  ⟨by decide,
    C30_no_out_of_bounds_access sampleCodes (by decide) (loopProgram sampleCodes) 3
      (by decide) (by decide)
      (fun i hi => by
        obtain ⟨v, hv⟩ := i
        have : v = 2 := by simpa using hi
        subst this
        rfl)
      (fun i hi => by
        obtain ⟨v, hv⟩ := i
        simp only at hi
        interval_cases v <;> simp only [loopProgram, programOf] <;> decide)
      (fun i hi => by
        obtain ⟨v, hv⟩ := i
        simp only at hi
        interval_cases v <;> simp only [loopProgram, programOf] <;> decide)
      Memory.ramp 1000⟩

/-! ## Where a cycle can stop -/

/-- Only a divide or modulo of INT32_MIN by -1 is the quotient that does not fit. -/
theorem execOp_fault_quotient (c : IntCodes) (p : BinOp) (pc : Int) (m : Memory)
    (h : execOp c p pc m = .fault .quotient) :
    (c.decode p.op = .INT_SET_VARIABLE_DIVIDE ∨ c.decode p.op = .INT_SET_VARIABLE_MOD) ∧
    ∃ a b : Fin MAX_VARIABLES, p.name2 = (a : Int) ∧ p.name3 = (b : Int) ∧
      m.Integers a = -2147483648 ∧ m.Integers b = -1 := by
  have key : ∀ (f : Int → Int → Int),
      (withInt m p.name3 fun b =>
        if b ≠ 0 then
          withInt m p.name2 fun a =>
            if quotientFits a b then setInt pc m p.name1 (f a b)
            else .fault .quotient
        else .next pc m) = .fault .quotient →
      ∃ a b : Fin MAX_VARIABLES, p.name2 = (a : Int) ∧ p.name3 = (b : Int) ∧
        m.Integers a = -2147483648 ∧ m.Integers b = -1 := by
    intro f hf
    simp only [withInt] at hf
    split at hf
    · rename_i b hb
      split at hf
      · split at hf
        · rename_i a ha
          split at hf
          · simp only [setInt] at hf
            split at hf <;> cases hf
          · rename_i hq
            have hq2 : m.Integers a = -(2 ^ 31) ∧ m.Integers b = -1 := by
              unfold quotientFits at hq
              exact not_not.mp hq
            exact ⟨a, b, cell_some _ _ _ ha, cell_some _ _ _ hb, by rw [hq2.1]; norm_num,
              hq2.2⟩
        · cases hf
      · cases hf
    · cases hf
  unfold execOp at h
  cases hd : c.decode p.op <;> rw [hd] at h
  case INT_SET_VARIABLE_DIVIDE => exact ⟨Or.inl rfl, key _ h⟩
  case INT_SET_VARIABLE_MOD => exact ⟨Or.inr rfl, key _ h⟩
  all_goals
    exfalso
    simp only [withBit, withInt, setBit, setInt] at h
    revert h
    repeat' split
    all_goals simp

theorem run_fault_origin (c : IntCodes) (prog : ProgramT) (f : Fault) :
    ∀ (k : Nat) (pc : Int) (m : Memory), run c prog k pc m = .fault f →
      ∃ j pc1 m1, j < k ∧ run c prog j pc m = .next pc1 m1 ∧
        step c prog pc1 m1 = .fault f := by
  intro k
  induction k with
  | zero => intro pc m h; cases h
  | succ k ih =>
    intro pc m h
    rw [run_snoc] at h
    cases hr : run c prog k pc m with
    | next pc1 m1 =>
      rw [hr] at h
      exact ⟨k, pc1, m1, Nat.lt_succ_self _, hr, h⟩
    | returned m1 => rw [hr] at h; cases h
    | fault g =>
      rw [hr] at h
      injection h with h
      subst h
      obtain ⟨j, pc1, m1, hj, h1, h2⟩ := ih pc m hr
      exact ⟨j, pc1, m1, Nat.lt_succ_of_lt hj, h1, h2⟩

theorem run_next_inside (c : IntCodes) (hc : c.Distinct) (prog : ProgramT) (n : Nat)
    (hpos : 0 < n) (hn : n ≤ MAX_OPS)
    (hend : ∀ i : Fin MAX_OPS, i.val + 1 = n → (prog i).op = c.INT_END_OF_PROGRAM)
    (hv : ∀ i : Fin MAX_OPS, i.val < n → addressesValid c (prog i))
    (ht : ∀ i : Fin MAX_OPS, i.val < n → (c.decode (prog i).op).transfers = true →
      0 ≤ (prog i).name3 + 1 ∧ (prog i).name3 + 1 ≤ (n : Int) - 1)
    (m : Memory) (j : Nat) (pc1 : Int) (m1 : Memory)
    (h : run c prog j 0 m = .next pc1 m1) :
    ∃ i : Fin MAX_OPS, pc1 = (i : Int) ∧ i.val < n := by
  have hin : 0 ≤ pc1 ∧ pc1 ≤ (n : Int) - 1 := by
    rcases run_inside c hc prog n hn hend hv ht j 0 m (le_refl _) (by omega) with
      ⟨pc0, m0, h1, h2, h3⟩ | ⟨m0, h1⟩ | h1
    · have e : Outcome.next pc1 m1 = Outcome.next pc0 m0 := h.symm.trans h1
      injection e with e1 _
      subst e1
      exact ⟨h2, h3⟩
    · have e : Outcome.next pc1 m1 = Outcome.returned m0 := h.symm.trans h1
      cases e
    · have e : Outcome.next pc1 m1 = Outcome.fault .quotient := h.symm.trans h1
      cases e
  have hlt : pc1.toNat < MAX_OPS := by omega
  exact ⟨⟨pc1.toNat, hlt⟩, by simp; omega, by show pc1.toNat < n; omega⟩

theorem step_fault_quotient (c : IntCodes) (prog : ProgramT) (i : Fin MAX_OPS) (m : Memory)
    (h : step c prog (i : Int) m = .fault .quotient) :
    (c.decode (prog i).op = .INT_SET_VARIABLE_DIVIDE ∨
      c.decode (prog i).op = .INT_SET_VARIABLE_MOD) ∧
    ∃ a b : Fin MAX_VARIABLES, (prog i).name2 = (a : Int) ∧ (prog i).name3 = (b : Int) ∧
      m.Integers a = -2147483648 ∧ m.Integers b = -1 := by
  rw [step_at c prog _ i rfl] at h
  apply execOp_fault_quotient c (prog i) (i : Int) m
  cases he : execOp c (prog i) (i : Int) m with
  | next pc0 m0 => rw [he] at h; cases h
  | returned m0 => rw [he] at h; cases h
  | fault f => rw [he] at h; exact h

/-- C28, amended: termination under forward-only control flow.  For a program of
`n ≤ MAX_OPS` instructions whose last one is `INT_END_OF_PROGRAM`, with valid indices and
with `i ≤ name3 < n - 1` for every conditional or jump at index `i`, and for every
memory, there is a `k` with `1 ≤ k ≤ n` such that after `k` executed instructions the
cycle has returned, or else has stopped at an `INT_SET_VARIABLE_DIVIDE` or
`INT_SET_VARIABLE_MOD` of the program that found INT32_MIN in `Integers[name2]` and -1 in
`Integers[name3]`; more iterations change nothing.  As long as the loop runs, `pc` is an
index below `n` and each executed instruction leaves it strictly greater. -/
theorem C28_forward_only_terminates (c : IntCodes) (hc : c.Distinct) (prog : ProgramT)
    (n : Nat) (hpos : 0 < n) (hn : n ≤ MAX_OPS)
    (hend : ∀ i : Fin MAX_OPS, i.val + 1 = n → (prog i).op = c.INT_END_OF_PROGRAM)
    (hv : ∀ i : Fin MAX_OPS, i.val < n → addressesValid c (prog i))
    (hfwd : ∀ i : Fin MAX_OPS, i.val < n → (c.decode (prog i).op).transfers = true →
      (i : Int) ≤ (prog i).name3 ∧ (prog i).name3 < (n : Int) - 1)
    (m : Memory) :
    (∃ k, 1 ≤ k ∧ k ≤ n ∧
      ((∃ m1, ∀ fuel, k ≤ fuel → InterpretOneCycle c prog fuel m = .returned m1) ∨
       ((∀ fuel, k ≤ fuel → InterpretOneCycle c prog fuel m = .fault .quotient) ∧
        ∃ (j : Nat) (i : Fin MAX_OPS) (m1 : Memory) (a b : Fin MAX_VARIABLES),
          j < k ∧ i.val < n ∧ InterpretOneCycle c prog j m = .next (i : Int) m1 ∧
          (c.decode (prog i).op = .INT_SET_VARIABLE_DIVIDE ∨
            c.decode (prog i).op = .INT_SET_VARIABLE_MOD) ∧
          (prog i).name2 = (a : Int) ∧ (prog i).name3 = (b : Int) ∧
          m1.Integers a = -2147483648 ∧ m1.Integers b = -1))) ∧
    (∀ j pc1 m1, InterpretOneCycle c prog j m = .next pc1 m1 →
      0 ≤ pc1 ∧ pc1 ≤ (n : Int) - 1 ∧
      ∀ pc2 m2, step c prog pc1 m1 = .next pc2 m2 → pc1 < pc2) := by
  have ht : ∀ i : Fin MAX_OPS, i.val < n → (c.decode (prog i).op).transfers = true →
      0 ≤ (prog i).name3 + 1 ∧ (prog i).name3 + 1 ≤ (n : Int) - 1 := by
    intro i hi h
    have := hfwd i hi h
    omega
  constructor
  · obtain ⟨k, hk1, hk2, hk⟩ :=
      run_forward c hc prog n hn hend hv hfwd (n - 1) ⟨0, by decide⟩ m hpos (by simp)
    refine ⟨k, hk1, by omega, ?_⟩
    rcases hk with ⟨m1, hk⟩ | ⟨_, hk⟩
    · exact Or.inl ⟨m1, run_stable c prog k _ m _ hk (fun _ _ h => by cases h)⟩
    · refine Or.inr ⟨run_stable c prog k _ m _ hk (fun _ _ h => by cases h), ?_⟩
      obtain ⟨j, pc1, m1, hj, h1, h2⟩ := run_fault_origin c prog _ k _ m hk
      obtain ⟨i, hi, hin⟩ := run_next_inside c hc prog n hpos hn hend hv ht m j pc1 m1 h1
      subst hi
      obtain ⟨hdm, a, b, ha, hb, h3, h4⟩ := step_fault_quotient c prog i m1 h2
      exact ⟨j, i, m1, a, b, hj, hin, h1, hdm, ha, hb, h3, h4⟩
  · intro j pc1 m1 h
    obtain ⟨i, hi, hin⟩ := run_next_inside c hc prog n hpos hn hend hv ht m j pc1 m1 h
    have h0 : 0 ≤ pc1 := by rw [hi]; exact Int.ofNat_nonneg _
    have h1 : pc1 ≤ (n : Int) - 1 := by rw [hi]; omega
    exact ⟨h0, h1, fun pc2 m2 hs =>
      step_forward c hc prog n hend hv hfwd pc1 h0 h1 hn m1 pc2 m2 hs⟩

theorem C28_forward_only_terminates_witness :
    sampleCodes.Distinct ∧
    InterpretOneCycle sampleCodes (elseProgram sampleCodes) 2 Memory.ramp
      = .returned Memory.ramp ∧
    (∃ k, 1 ≤ k ∧ k ≤ 3 ∧
      ((∃ m1, ∀ fuel, k ≤ fuel →
          InterpretOneCycle sampleCodes (elseProgram sampleCodes) fuel Memory.ramp
            = .returned m1) ∨
       ((∀ fuel, k ≤ fuel →
          InterpretOneCycle sampleCodes (elseProgram sampleCodes) fuel Memory.ramp
            = .fault .quotient) ∧
        ∃ (j : Nat) (i : Fin MAX_OPS) (m1 : Memory) (a b : Fin MAX_VARIABLES),
          j < k ∧ i.val < 3 ∧
          InterpretOneCycle sampleCodes (elseProgram sampleCodes) j Memory.ramp
            = .next (i : Int) m1 ∧
          (sampleCodes.decode ((elseProgram sampleCodes) i).op = .INT_SET_VARIABLE_DIVIDE ∨
            sampleCodes.decode ((elseProgram sampleCodes) i).op = .INT_SET_VARIABLE_MOD) ∧
          ((elseProgram sampleCodes) i).name2 = (a : Int) ∧
          ((elseProgram sampleCodes) i).name3 = (b : Int) ∧
          m1.Integers a = -2147483648 ∧ m1.Integers b = -1))) ∧
    (∀ j pc1 m1,
      InterpretOneCycle sampleCodes (elseProgram sampleCodes) j Memory.ramp = .next pc1 m1 →
      0 ≤ pc1 ∧ pc1 ≤ ((3 : Nat) : Int) - 1 ∧
      ∀ pc2 m2, step sampleCodes (elseProgram sampleCodes) pc1 m1 = .next pc2 m2 →
        pc1 < pc2) :=
  ⟨by decide, rfl,
    C28_forward_only_terminates sampleCodes (by decide) (elseProgram sampleCodes) 3
      (by decide) (by decide)
      (fun i hi => by
        obtain ⟨v, hv⟩ := i
        have : v = 2 := by simpa using hi
        subst this
        rfl)
      (fun i hi => by
        obtain ⟨v, hv⟩ := i
        simp only at hi
        interval_cases v <;> simp only [elseProgram, programOf] <;> decide)
      (fun i hi => by
        obtain ⟨v, hv⟩ := i
        simp only at hi
        interval_cases v <;> simp only [elseProgram, programOf] <;> decide)
      Memory.ramp⟩

end LDInterpret
